import Mathlib

/-!
# Request pool of a committee-replicated chain node

A shallow embedding of `packages/chain/mempool/mempool.go`: the in-buffer, the
pool, the readiness predicate `isRequestReady`, the batch proposals `ReadyNow`
and `ReadyFromIDs`, and the move task that drains the in-buffer into the pool.
It is followed by `MakeRange` of `packages/util`, `setChainInfo` of the
governance contract, `initialize` of the root contract, the state-candidate
handler of the mocked consensus node, and the `ScAssets` encoding of `wasmlib`.

Modelling conventions.

* `time.Time` is an integer count of nanoseconds relative to the zero instant
  of Go's `time` package: `sec t` whole seconds, a signed 64-bit number, and
  `nsec t` nanoseconds.  So `IsZero` is equality with `0`, and `Before`, `After`
  and `Equal` are the order on integers.  `Add` adds the duration to the seconds
  and, as `Time.addSec` does, stops at the largest and at the smallest second
  when the sum leaves the 64-bit range.
* The counters are Go `int`s that only ever grow by one; they are integers here.
* A Go map is an association list with distinct keys.  The order of the list
  is the order in which `range` enumerates the map, so a statement about
  "every enumeration order" quantifies over the permutations of the list.
* A goroutine started with `go` is returned as the work it will do (the list of
  identifiers handed to `RemoveRequests`).
* The methods are functions of the state and run one at a time.  Where calls of
  different goroutines overlap, the unit is the critical section (`Step`): what
  a method does between taking a mutex and releasing it.
* The two mutexes are kept apart from the data: each method is also the list of
  its statements that lock, unlock, read or write (`Stmt`), in source order.
-/

namespace Mempool

/-! ## Time -/

/-- Instants of Go's `time.Time`: nanoseconds relative to the zero instant. -/
abbrev Time := Int

/-- Go's `time.Duration`: a number of nanoseconds. -/
abbrev Duration := Int

/-- The method `Time.IsZero`. -/
def IsZero (t : Time) : Bool := decide (t = 0)

/-- The method `t.Before(u)`. -/
def Before (t u : Time) : Bool := decide (t < u)

/-- The method `t.After(u)`. -/
def After (t u : Time) : Bool := decide (u < t)

/-- The method `t.Equal(u)`. -/
def Equal (t u : Time) : Bool := decide (t = u)

/-- The two's-complement value a signed 64-bit result wraps to. -/
def wrap64 (x : Int) : Int :=
  (x + 9223372036854775808) % 18446744073709551616 - 9223372036854775808

/-- The method `t.sec()`: the whole seconds of an instant. -/
def sec (t : Time) : Int := t / 1000000000

/-- The method `t.nsec()`: the nanoseconds within the second, from `0` to
`999999999`. -/
def nsec (t : Time) : Int := t % 1000000000

/-- The method `t.addSec(d)` on the seconds `ext` of an instant: the sum, or the
largest (smallest) second when adding a positive (negative) `d` overflows. -/
def addSec (ext d : Int) : Int :=
  let sum := wrap64 (ext + d)
  if decide (sum > ext) = decide (d > 0) then sum
  else if d > 0 then 9223372036854775807
  else -9223372036854775807

/-- The method `t.Add(d)`: the whole seconds of `d` go through `addSec`, the
remaining nanoseconds are added to those of `t` with a carry of one second. -/
def Add (t : Time) (d : Duration) : Time :=
  let dsec := Int.tdiv d 1000000000
  let n := nsec t + Int.tmod d 1000000000
  if n ≥ 1000000000 then addSec (sec t) (dsec + 1) * 1000000000 + (n - 1000000000)
  else if n < 0 then addSec (sec t) (dsec - 1) * 1000000000 + (n + 1000000000)
  else addSec (sec t) dsec * 1000000000 + n

/-- The instants a `time.Time` can hold: the seconds are a signed 64-bit
number. -/
def representable (t : Time) : Prop :=
  -9223372036854775808 ≤ sec t ∧ sec t ≤ 9223372036854775807

/-- The instant `now` is representable and at least ten minutes (`600` seconds)
before the largest second, so that `now` plus ten minutes is representable. -/
def intervalFits (now : Time) : Prop :=
  -9223372036854775808 ≤ sec now ∧ sec now + 600 ≤ 9223372036854775807

/-- The constant `time.Minute`. -/
def Minute : Duration := 60 * 1000000000

/-! ## Requests -/

/-- A request identifier, given by its bytes (`RequestID.Bytes()`). -/
abbrev RequestID := List Nat

/-- A ledger address, given by its bytes. -/
abbrev Address := List Nat

/-- Go's `bytes.Compare`: the lexicographic comparison of two byte strings,
`-1`, `0` or `1`. -/
def bytesCompare : List Nat → List Nat → Int
  | [], [] => 0
  | [], _ :: _ => -1
  | _ :: _, [] => 1
  | a :: as, b :: bs =>
    if a < b then -1 else if b < a then 1 else bytesCompare as bs

/-- Modelled from the spec: the type `request.OnLedger` (package
`packages/iscp/request`) is declared outside the sources at hand.  An on-ledger
request is its identity, an optional fallback address with a fallback deadline,
an argument set that is resolved or not, a timelock (zero when there is none),
and whether it targets the committee-rotation entry point. -/
structure OnLedger where
  id : RequestID
  fallbackAddress : Option Address
  fallbackDeadline : Time
  paramsReady : Bool
  timeLock : Time
  isRotate : Bool
deriving DecidableEq, Repr

/-- Modelled from the spec: the type `request.OffLedger`, declared outside the
sources at hand: an identity, an argument set that is resolved or not, and
whether it targets the committee-rotation entry point. -/
structure OffLedger where
  id : RequestID
  paramsReady : Bool
  isRotate : Bool
deriving DecidableEq, Repr

/-- The interface `iscp.Request` with its two implementations. -/
inductive Request where
  | onLedger (r : OnLedger)
  | offLedger (r : OffLedger)
deriving DecidableEq, Repr

/-- The method `req.ID()`. -/
def Request.ID : Request → RequestID
  | .onLedger r => r.id
  | .offLedger r => r.id

/-- The method `req.IsOffLedger()`. -/
def Request.IsOffLedger : Request → Bool
  | .onLedger _ => false
  | .offLedger _ => true

/-- The function `rotate.IsRotateStateControllerRequest`. -/
def IsRotateStateControllerRequest : Request → Bool
  | .onLedger r => r.isRotate
  | .offLedger r => r.isRotate

/-- Modelled from the spec: `request.SolidifyArgs`, declared outside the sources
at hand: resolving the arguments of a request against the blob store makes them
ready when the store can resolve them (`resolvable`), and changes nothing
else. -/
def SolidifyArgs (req : Request) (resolvable : Bool) : Request :=
  match req with
  | .onLedger r => .onLedger { r with paramsReady := r.paramsReady || resolvable }
  | .offLedger r => .offLedger { r with paramsReady := r.paramsReady || resolvable }

/-- The struct `requestRef`: a request with its local admission timestamp. -/
structure requestRef where
  req : Request
  whenReceived : Time
deriving DecidableEq, Repr

/-! ## Readiness -/

/-- The constant `FallbackDeadlineMinAllowedInterval`: ten minutes. -/
def FallbackDeadlineMinAllowedInterval : Duration := Minute * 10

/-- The function `isRequestReady`: the pair `(isReady, shouldBeRemoved)`. -/
def isRequestReady (ref : requestRef) (nowis : Time) : Bool × Bool :=
  match ref.req with
  | .offLedger _ => (true, false)
  | .onLedger r =>
    if r.fallbackAddress ≠ none ∧
        ¬ After r.fallbackDeadline (Add nowis FallbackDeadlineMinAllowedInterval) then
      (false, true)
    else if ¬ r.paramsReady then
      (false, false)
    else
      (IsZero r.timeLock || Before r.timeLock nowis, false)

/-- Readiness as the specification words it: an off-ledger request is ready; an
on-ledger request whose fallback deadline is not strictly after `now` plus ten
minutes is to be removed; otherwise it is ready when its arguments are resolved
and its timelock is zero or strictly before `now`. -/
def specReadiness (req : Request) (now : Time) : Bool × Bool :=
  match req with
  | .offLedger _ => (true, false)
  | .onLedger r =>
    if r.fallbackAddress.isSome ∧ r.fallbackDeadline ≤ now + 600000000000 then (false, true)
    else if r.paramsReady = false then (false, false)
    else (decide (r.timeLock = 0 ∨ r.timeLock < now), false)

/-! ## Go maps -/

/-- The map read `m[k]`, with `none` for an absent key. -/
def mapGet {β : Type} : List (RequestID × β) → RequestID → Option β
  | [], _ => none
  | (k', v) :: rest, k => if k' = k then some v else mapGet rest k

/-- The map write `m[k] = v`: an existing entry is overwritten in place, a new
one is added. -/
def mapSet {β : Type} : List (RequestID × β) → RequestID → β → List (RequestID × β)
  | [], k, v => [(k, v)]
  | (k', v') :: rest, k, v =>
    if k' = k then (k, v) :: rest else (k', v') :: mapSet rest k v

/-- The builtin `delete(m, k)`. -/
def mapDelete {β : Type} (m : List (RequestID × β)) (k : RequestID) : List (RequestID × β) :=
  m.filter (fun e => decide (e.1 ≠ k))

/-- The keys of a map, in enumeration order. -/
def mapKeys {β : Type} (m : List (RequestID × β)) : List RequestID := m.map Prod.fst

/-- The values of a map, in enumeration order (`for _, v := range m`). -/
def mapValues {β : Type} (m : List (RequestID × β)) : List β := m.map Prod.snd

/-! ## The mempool -/

/-- The struct `mempool`, without its loggers, metrics and readers (the readers
are the environment of `addToPool`).  Its two mutexes are the structure `Locks`
further down. -/
structure mempool where
  inBuffer : List (RequestID × Request)
  inBufCounter : Int
  outBufCounter : Int
  inPoolCounter : Int
  outPoolCounter : Int
  pool : List (RequestID × requestRef)
deriving DecidableEq, Repr

/-- The constructor `New`: both maps empty, all counters zero. -/
def New : mempool :=
  { inBuffer := [], inBufCounter := 0, outBufCounter := 0,
    inPoolCounter := 0, outPoolCounter := 0, pool := [] }

/-- A pool as `addToPool` builds it: the keys are distinct and every entry is
stored under the identifier of its request. -/
def PoolWF (pool : List (RequestID × requestRef)) : Prop :=
  (mapKeys pool).Nodup ∧ ∀ e ∈ pool, e.2.req.ID = e.1

/-- The method `HasRequest`. -/
def HasRequest (m : mempool) (id : RequestID) : Bool := (mapGet m.pool id).isSome

/-- The method `GetRequest`, `none` standing for the nil interface. -/
def GetRequest (m : mempool) (id : RequestID) : Option Request :=
  match mapGet m.pool id with
  | some reqRef => some reqRef.req
  | none => none

/-- The method `addToInBuffer`: the state after the call and the result. -/
def addToInBuffer (m : mempool) (req : Request) : mempool × Bool :=
  if HasRequest m req.ID then (m, false)
  else
    ({ m with inBuffer := mapSet m.inBuffer req.ID req,
              inBufCounter := m.inBufCounter + 1 }, true)

/-- The method `removeFromInBuffer`. -/
def removeFromInBuffer (m : mempool) (req : Request) : mempool :=
  if (mapGet m.inBuffer req.ID).isSome then
    { m with inBuffer := mapDelete m.inBuffer req.ID,
             outBufCounter := m.outBufCounter + 1 }
  else m

/-- The method `takeInBuffer`: the requests of the in-buffer in enumeration
order. -/
def takeInBuffer (m : mempool) : List Request := mapValues m.inBuffer

/-- What `addToPool` reads from outside the mempool: the outcome of
`blocklog.IsRequestProcessed` (`none` when the read fails), the clock
`time.Now()`, and whether the blob cache can resolve the arguments. -/
structure AddEnv where
  isRequestProcessed : Option Bool
  nowis : Time
  resolvable : Bool

/-- The method `addToPool`: the state after the call and whether the request
must be removed from the in-buffer. -/
def addToPool (m : mempool) (req : Request) (env : AddEnv) : mempool × Bool :=
  match env.isRequestProcessed with
  | none => (m, false)
  | some true => (m, true)
  | some false =>
    if (mapGet m.pool req.ID).isSome then (m, true)
    else
      ({ m with inPoolCounter := m.inPoolCounter + 1,
                pool := mapSet m.pool req.ID
                  { req := SolidifyArgs req env.resolvable, whenReceived := env.nowis } },
       true)

/-- The method `ReceiveRequest` (the metrics it counts are outside the state). -/
def ReceiveRequest (m : mempool) (req : Request) : mempool × Bool := addToInBuffer m req

/-- The method `ReceiveRequests`. -/
def ReceiveRequests (m : mempool) (reqs : List Request) : mempool :=
  reqs.foldl (fun acc req => (addToInBuffer acc req).1) m

/-- The body of the loop of `RemoveRequests`. -/
def removeRequest (m : mempool) (rid : RequestID) : mempool :=
  if (mapGet m.pool rid).isSome then
    { m with outPoolCounter := m.outPoolCounter + 1, pool := mapDelete m.pool rid }
  else m

/-- The method `RemoveRequests`. -/
def RemoveRequests (m : mempool) (reqs : List RequestID) : mempool :=
  reqs.foldl removeRequest m

/-- The local variables of the loop of `ReadyNow`. -/
structure ReadyNowVars where
  oldestRotate : Option Request
  oldestRotateTime : Time
  toRemove : List RequestID
  ret : List Request
deriving DecidableEq, Repr

/-- The body of the loop of `ReadyNow`, for one pool entry. -/
def readyNowBody (nowis : Time) (st : ReadyNowVars) (ref : requestRef) : ReadyNowVars :=
  if (isRequestReady ref nowis).2 then
    { st with toRemove := st.toRemove ++ [ref.req.ID] }
  else if ¬ (isRequestReady ref nowis).1 then st
  else
    let st1 := { st with ret := st.ret ++ [ref.req] }
    if ¬ IsRotateStateControllerRequest ref.req then st1
    else
      match st1.oldestRotate with
      | none => { st1 with oldestRotate := some ref.req, oldestRotateTime := ref.whenReceived }
      | some oldest =>
        if Before ref.whenReceived st1.oldestRotateTime then
          { st1 with oldestRotate := some ref.req, oldestRotateTime := ref.whenReceived }
        else if Equal ref.whenReceived st1.oldestRotateTime then
          if bytesCompare ref.req.ID oldest.ID < 0 then
            { st1 with oldestRotate := some ref.req, oldestRotateTime := ref.whenReceived }
          else st1
        else st1

/-- The loop of `ReadyNow` over the pool in enumeration order. -/
def readyNowLoop (nowis : Time) (pool : List (RequestID × requestRef)) : ReadyNowVars :=
  (mapValues pool).foldl (readyNowBody nowis)
    { oldestRotate := none, oldestRotateTime := 0, toRemove := [], ret := [] }

/-- The method `ReadyNow` at the time `nowis`: the batch it returns and the
identifiers it hands to the `RemoveRequests` goroutine. -/
def ReadyNow (m : mempool) (nowis : Time) : List Request × List RequestID :=
  let st := readyNowLoop nowis m.pool
  match st.oldestRotate with
  | some oldest => ([oldest], st.toRemove)
  | none => (st.ret, st.toRemove)

/-- The local variables of the loop of `ReadyFromIDs`. -/
structure ReadyFromIDsVars where
  requests : List Request
  missingRequestIndexes : List Nat
  toRemove : List RequestID
deriving DecidableEq, Repr

/-- The body of the loop of `ReadyFromIDs`, for the identifier at index `i`. -/
def readyFromIDsBody (m : mempool) (nowis : Time) (st : ReadyFromIDsVars) (i : Nat)
    (reqID : RequestID) : ReadyFromIDsVars :=
  match mapGet m.pool reqID with
  | none => { st with missingRequestIndexes := st.missingRequestIndexes ++ [i] }
  | some reqref =>
    if (isRequestReady reqref nowis).1 then
      { st with requests := st.requests ++ [reqref.req] }
    else if (isRequestReady reqref nowis).2 then
      { st with toRemove := st.toRemove ++ [reqref.req.ID] }
    else st

/-- The loop of `ReadyFromIDs` from index `i` on. -/
def readyFromIDsLoop (m : mempool) (nowis : Time) :
    Nat → List RequestID → ReadyFromIDsVars → ReadyFromIDsVars
  | _, [], st => st
  | i, reqID :: rest, st =>
    readyFromIDsLoop m nowis (i + 1) rest (readyFromIDsBody m nowis st i reqID)

/-- The method `ReadyFromIDs`: the requests, the missing indexes, the
completeness flag, and the identifiers handed to the `RemoveRequests`
goroutine. -/
def ReadyFromIDs (m : mempool) (nowis : Time) (reqIDs : List RequestID) :
    List Request × List Nat × Bool × List RequestID :=
  let st := readyFromIDsLoop m nowis 0 reqIDs
    { requests := [], missingRequestIndexes := [], toRemove := [] }
  (st.requests, st.missingRequestIndexes, st.missingRequestIndexes.length == 0, st.toRemove)

/-- The body of the inner loop of `moveToPoolLoop`, for one request of the
snapshot; `env` gives what `addToPool` reads from outside for that request. -/
def moveRequest (env : RequestID → AddEnv) (m : mempool) (req : Request) : mempool :=
  if (addToPool m req (env req.ID)).2 then
    removeFromInBuffer (addToPool m req (env req.ID)).1 req
  else (addToPool m req (env req.ID)).1

/-- One iteration of `moveToPoolLoop`: the snapshot of the in-buffer is taken,
then each of its requests is offered to the pool. -/
def moveToPoolIteration (m : mempool) (env : RequestID → AddEnv) : mempool :=
  (takeInBuffer m).foldl (moveRequest env) m

/-- The calls that reach the in-buffer: a `ReceiveRequest` of the dispatcher, or
an iteration of the move task. -/
inductive Op where
  | receive (req : Request)
  | move (env : RequestID → AddEnv)

/-- The effect of one call on the state. -/
def applyOp (m : mempool) : Op → mempool
  | .receive req => (ReceiveRequest m req).1
  | .move env => moveToPoolIteration m env

/-- The state after a sequence of calls. -/
def runOps (m : mempool) (ops : List Op) : mempool := ops.foldl applyOp m

/-- The identifiers of the requests received in a sequence of calls. -/
def receivedIDs : List Op → List RequestID
  | [] => []
  | .receive req :: ops => req.ID :: receivedIDs ops
  | .move _ :: ops => receivedIDs ops

/-- A pool entry that `ReadyNow` considers for the rotation rule at `nowis`: a
ready committee-rotation request. -/
def readyRotate (nowis : Time) (ref : requestRef) : Prop :=
  (isRequestReady ref nowis).1 = true ∧ (isRequestReady ref nowis).2 = false ∧
    IsRotateStateControllerRequest ref.req = true

/-- The order of the rotation rule: admission timestamp ascending, then the
bytes of the request identifier ascending. -/
def rotateBefore (a b : requestRef) : Prop :=
  a.whenReceived < b.whenReceived ∨
    (a.whenReceived = b.whenReceived ∧ bytesCompare a.req.ID b.req.ID < 0)

/-- The invariant of the loop of `ReadyNow` on the rotation variables, after the
entries `l` have been visited: no request is selected while none of them is a
ready rotation request, and otherwise the selected one is an entry of `l` that
no other ready rotation request of `l` precedes in the order of the rule. -/
def oldestSelected (nowis : Time) (l : List requestRef) (st : ReadyNowVars) : Prop :=
  match st.oldestRotate with
  | none => ∀ ref ∈ l, ¬ readyRotate nowis ref
  | some oldest =>
    ∃ ref ∈ l, readyRotate nowis ref ∧ ref.req = oldest ∧
      ref.whenReceived = st.oldestRotateTime ∧
      ∀ other ∈ l, readyRotate nowis other → ¬ rotateBefore other ref

/-- The request stored in the pool under `id`, when there is one and it is ready
at `nowis`. -/
def readyInPool (m : mempool) (nowis : Time) (id : RequestID) : Option Request :=
  match mapGet m.pool id with
  | some ref => if (isRequestReady ref nowis).1 then some ref.req else none
  | none => none

/-- Whether position `i` of the list `ids` holds an identifier that is not in
the pool. -/
def missingAt (m : mempool) (ids : List RequestID) (i : Nat) : Bool :=
  match ids[i]? with
  | some id => !HasRequest m id
  | none => false

/-- The invariant of admission, for the identifiers `received` so far: the pool
is well formed, the admission counter is the number of pool entries, and every
identifier in the pool or in the in-buffer was received. -/
def admittedOnce (received : List RequestID) (m : mempool) : Prop :=
  PoolWF m.pool ∧ m.inPoolCounter = m.pool.length ∧
    (∀ id ∈ mapKeys m.pool, id ∈ received) ∧
    (∀ req ∈ mapValues m.inBuffer, req.ID ∈ received)

/-- The mempool after an empty mempool has received the requests `reqs` and one
iteration of the move task has run in the environment `env`. -/
def admitAll (reqs : List Request) (env : RequestID → AddEnv) : mempool :=
  moveToPoolIteration (ReceiveRequests New reqs) env

/-- The pool entry that `addToPool` creates for a request. -/
def admittedRef (env : RequestID → AddEnv) (req : Request) : requestRef :=
  { req := SolidifyArgs req (env req.ID).resolvable, whenReceived := (env req.ID).nowis }

/-- The identifier that `ReadyFromIDs` hands to `RemoveRequests` for `id`: the
identifier of the request stored under `id`, when there is one, it is not ready
and it is marked for removal at `nowis`. -/
def removableInPool (m : mempool) (nowis : Time) (id : RequestID) : Option RequestID :=
  match mapGet m.pool id with
  | some ref =>
    if (isRequestReady ref nowis).1 then none
    else if (isRequestReady ref nowis).2 then some ref.req.ID
    else none
  | none => none

/-! ## Example data -/

/-- An on-ledger request without fallback options and with resolved arguments. -/
def onLedgerExample (id : RequestID) (timeLock : Time) (rot : Bool) : Request :=
  .onLedger { id := id, fallbackAddress := none, fallbackDeadline := 0,
              paramsReady := true, timeLock := timeLock, isRotate := rot }

/-- An off-ledger request with resolved arguments. -/
def offLedgerExample (id : RequestID) (rot : Bool) : Request :=
  .offLedger { id := id, paramsReady := true, isRotate := rot }

/-- A mempool whose pool holds the given entries, each under the identifier of
its request, with an empty in-buffer and the counters such a pool has when
nothing was ever evicted. -/
def mempoolOf (refs : List requestRef) : mempool :=
  { inBuffer := [], inBufCounter := refs.length, outBufCounter := refs.length,
    inPoolCounter := refs.length, outPoolCounter := 0,
    pool := refs.map (fun ref => (ref.req.ID, ref)) }

/-- A pool with an ordinary request admitted at `1` and two rotation requests
admitted at the same instant `4`. -/
def rotationExample : mempool :=
  mempoolOf [{ req := offLedgerExample [3] false, whenReceived := 1 },
             { req := offLedgerExample [2] true, whenReceived := 4 },
             { req := offLedgerExample [1] true, whenReceived := 4 }]

/-- A replica that admitted the rotation request `[1]` before the rotation
request `[2]`. -/
def replicaExampleA : mempool :=
  mempoolOf [{ req := offLedgerExample [1] true, whenReceived := 1 },
             { req := offLedgerExample [2] true, whenReceived := 2 }]

/-- A replica that holds the requests of `replicaExampleA` and admitted them in
the other order. -/
def replicaExampleB : mempool :=
  mempoolOf [{ req := offLedgerExample [1] true, whenReceived := 2 },
             { req := offLedgerExample [2] true, whenReceived := 1 }]

/-- A replica that holds the requests of `replicaExampleA` and admitted them in
the same order, by a clock that runs ahead. -/
def replicaExampleC : mempool :=
  mempoolOf [{ req := offLedgerExample [1] true, whenReceived := 5 },
             { req := offLedgerExample [2] true, whenReceived := 7 }]

/-- A pool with a rotation request timelocked until `100` and two ordinary
requests. -/
def timelockedRotationExample : mempool :=
  mempoolOf [{ req := onLedgerExample [1] 100 true, whenReceived := 1 },
             { req := offLedgerExample [2] false, whenReceived := 2 },
             { req := offLedgerExample [3] false, whenReceived := 3 }]

/-! ## The remaining operations -/

/-- The method `doSolidifyRequests`: the solidification task offers every pool
entry to the blob cache; `resolvable` says which arguments it can resolve. -/
def doSolidifyRequests (m : mempool) (resolvable : RequestID → Bool) : mempool :=
  { m with pool := m.pool.map (fun e =>
      (e.1, { req := SolidifyArgs e.2.req (resolvable e.1), whenReceived := e.2.whenReceived })) }

/-- The state once the `RemoveRequests` goroutine started by `ReadyNow` has
run. -/
def afterReadyNow (m : mempool) (nowis : Time) : mempool :=
  RemoveRequests m (ReadyNow m nowis).2

/-- The state once the `RemoveRequests` goroutine started by `ReadyFromIDs` has
run. -/
def afterReadyFromIDs (m : mempool) (nowis : Time) (reqIDs : List RequestID) : mempool :=
  RemoveRequests m (ReadyFromIDs m nowis reqIDs).2.2.2

/-- The struct `chain.MempoolInfo`. -/
structure MempoolInfo where
  TotalPool : Int
  ReadyCounter : Int
  InBufCounter : Int
  OutBufCounter : Int
  InPoolCounter : Int
  OutPoolCounter : Int
deriving DecidableEq, Repr

/-- The body of the loop of `Info`, for one pool entry. -/
def infoBody (nowis : Time) (ret : MempoolInfo) (ref : requestRef) : MempoolInfo :=
  if (isRequestReady ref nowis).1 then { ret with ReadyCounter := ret.ReadyCounter + 1 }
  else ret

/-- The method `Info`, with `nowis` the reading of `time.Now()`: the state after
the call and the statistics returned. -/
def Info (m : mempool) (nowis : Time) : mempool × MempoolInfo :=
  (m, (mapValues m.pool).foldl (infoBody nowis)
    { InPoolCounter := m.inPoolCounter, OutPoolCounter := m.outPoolCounter,
      InBufCounter := m.inBufCounter, OutBufCounter := m.outBufCounter,
      TotalPool := m.pool.length, ReadyCounter := 0 })

/-- The operations of the mempool: the calls of its interface, with the removals
that `ReadyNow` and `ReadyFromIDs` schedule, and the steps of its two background
tasks. -/
inductive Call where
  | receive (req : Request)
  | receiveMany (reqs : List Request)
  | moveOne (req : Request) (env : AddEnv)
  | moveAll (env : RequestID → AddEnv)
  | remove (reqs : List RequestID)
  | readyNow (nowis : Time)
  | readyFromIDs (nowis : Time) (reqIDs : List RequestID)
  | solidify (resolvable : RequestID → Bool)

/-- The effect of one operation on the state. -/
def applyCall (m : mempool) : Call → mempool
  | .receive req => (ReceiveRequest m req).1
  | .receiveMany reqs => ReceiveRequests m reqs
  | .moveOne req env => moveRequest (fun _ => env) m req
  | .moveAll env => moveToPoolIteration m env
  | .remove reqs => RemoveRequests m reqs
  | .readyNow nowis => afterReadyNow m nowis
  | .readyFromIDs nowis reqIDs => afterReadyFromIDs m nowis reqIDs
  | .solidify resolvable => doSolidifyRequests m resolvable

/-- The state after a sequence of operations. -/
def runCalls (m : mempool) (calls : List Call) : mempool := calls.foldl applyCall m

/-- The pool counters are balanced: admissions minus evictions is the number of
pool entries. -/
def balanced (m : mempool) : Prop :=
  m.inPoolCounter - m.outPoolCounter = m.pool.length

/-- No identifier is both in the in-buffer and in the pool. -/
def exclusive (m : mempool) : Prop :=
  ∀ id : RequestID, id ∈ mapKeys m.inBuffer → id ∉ mapKeys m.pool

/-! ## Calls that overlap

The methods above run one at a time.  Between goroutines, what the two mutexes
make atomic is a critical section, not a method: `addToInBuffer` tests the pool
in one critical section and writes the in-buffer in another, and a step of the
move task runs `addToPool` and then `removeFromInBuffer`. -/

/-- The first critical section of `addToInBuffer`: the test `HasRequest`, under
the read lock of the pool. -/
def addToInBufferCheck (m : mempool) (req : Request) : Bool := HasRequest m req.ID

/-- The second critical section of `addToInBuffer`: the write of the in-buffer
and of its counter, under the lock of the in-buffer. -/
def addToInBufferWrite (m : mempool) (req : Request) : mempool :=
  { m with inBuffer := mapSet m.inBuffer req.ID req,
           inBufCounter := m.inBufCounter + 1 }

/-- The mempool as goroutines share it: its state, the calls of `addToInBuffer`
that have passed their test and have not yet written (`receiving`), and the
steps of the move task whose `addToPool` returned true and whose
`removeFromInBuffer` has not yet run (`moving`). -/
structure Shared where
  state : mempool
  receiving : List Request
  moving : List Request
deriving DecidableEq, Repr

/-- What one goroutine does while no other runs: a critical section of
`addToInBuffer` or of a step of the move task, or a whole operation. -/
inductive Step where
  | check (req : Request)
  | write (req : Request)
  | offer (req : Request) (env : AddEnv)
  | evict (req : Request)
  | whole (call : Call)

/-- The effect of one step on the shared mempool.  A `write` belongs to a call
that has passed its test, an `evict` to a step of the move task whose
`addToPool` returned true. -/
def applyStep (s : Shared) : Step → Shared
  | .check req =>
    if addToInBufferCheck s.state req then s
    else { s with receiving := req :: s.receiving }
  | .write req =>
    if req ∈ s.receiving then
      { s with state := addToInBufferWrite s.state req, receiving := s.receiving.erase req }
    else s
  | .offer req env =>
    if (addToPool s.state req env).2 then
      { s with state := (addToPool s.state req env).1, moving := req :: s.moving }
    else { s with state := (addToPool s.state req env).1 }
  | .evict req =>
    if req ∈ s.moving then
      { s with state := removeFromInBuffer s.state req, moving := s.moving.erase req }
    else s
  | .whole call => { s with state := applyCall s.state call }

/-- The shared mempool after a schedule of steps. -/
def runSteps (s : Shared) (steps : List Step) : Shared := steps.foldl applyStep s

/-- The shared mempool that `New` returns: no call is under way. -/
def NewShared : Shared := { state := New, receiving := [], moving := [] }

/-! ## The two mutexes

Which mutex a method holds when it touches a field: every method is the list of
its statements that lock, unlock, read or write, in the order of the source. -/

/-- The two `sync.RWMutex` fields of the struct `mempool`. -/
inductive Mutex where
  | inMutex
  | poolMutex
deriving DecidableEq, Repr

/-- How the goroutine that runs a method holds a mutex: not at all, for reading
(`RLock`), or exclusively (`Lock`). -/
inductive Held where
  | unlocked
  | rlocked
  | locked
deriving DecidableEq, Repr

/-- The fields of the struct `mempool` that the mutexes are there for. -/
inductive Field where
  | inBuffer
  | inBufCounter
  | outBufCounter
  | pool
  | inPoolCounter
  | outPoolCounter
deriving DecidableEq, Repr

/-- A statement of a method that takes or releases a mutex, or reads or writes a
field. -/
inductive Stmt where
  | Lock (mu : Mutex)
  | Unlock (mu : Mutex)
  | RLock (mu : Mutex)
  | RUnlock (mu : Mutex)
  | read (f : Field)
  | write (f : Field)
deriving DecidableEq, Repr

/-- The mutex fields `inMutex` and `poolMutex`, as the running goroutine holds
them. -/
structure Locks where
  inMutex : Held
  poolMutex : Held
deriving DecidableEq, Repr

/-- Both mutexes free: the state in which a method is entered. -/
def noLocks : Locks := { inMutex := .unlocked, poolMutex := .unlocked }

/-- The mutex fields after a statement. -/
def lockStep (l : Locks) : Stmt → Locks
  | .Lock .inMutex => { l with inMutex := .locked }
  | .Lock .poolMutex => { l with poolMutex := .locked }
  | .RLock .inMutex => { l with inMutex := .rlocked }
  | .RLock .poolMutex => { l with poolMutex := .rlocked }
  | .Unlock .inMutex => { l with inMutex := .unlocked }
  | .Unlock .poolMutex => { l with poolMutex := .unlocked }
  | .RUnlock .inMutex => { l with inMutex := .unlocked }
  | .RUnlock .poolMutex => { l with poolMutex := .unlocked }
  | .read _ => l
  | .write _ => l

/-- How a mutex is held. -/
def heldOf (l : Locks) : Mutex → Held
  | .inMutex => l.inMutex
  | .poolMutex => l.poolMutex

/-- The mutex of a field: `inMutex` for the in-buffer and its two counters,
`poolMutex` for the pool and its two counters. -/
def mutexOf : Field → Mutex
  | .inBuffer => .inMutex
  | .inBufCounter => .inMutex
  | .outBufCounter => .inMutex
  | .pool => .poolMutex
  | .inPoolCounter => .poolMutex
  | .outPoolCounter => .poolMutex

/-- The other mutex. -/
def otherMutex : Mutex → Mutex
  | .inMutex => .poolMutex
  | .poolMutex => .inMutex

/-- The locking discipline at one statement: a field is read while its mutex
is held, and written while its mutex is held exclusively and the other mutex is
not held. -/
def permitted (l : Locks) : Stmt → Bool
  | .read f => heldOf l (mutexOf f) != .unlocked
  | .write f =>
    heldOf l (mutexOf f) == .locked && heldOf l (otherMutex (mutexOf f)) == .unlocked
  | _ => true

/-- The statements of a method that break the locking discipline, in order. -/
def violations : Locks → List Stmt → List Stmt
  | _, [] => []
  | l, stmt :: rest =>
    (if permitted l stmt then [] else [stmt]) ++ violations (lockStep l stmt) rest

/-- The statements of `HasRequest`, and of `GetRequest`. -/
def HasRequestStmts : List Stmt :=
  [.RLock .poolMutex, .read .pool, .RUnlock .poolMutex]

/-- The statements of `addToInBuffer`, so of `ReceiveRequest`. -/
def addToInBufferStmts (m : mempool) (req : Request) : List Stmt :=
  HasRequestStmts ++
    (if HasRequest m req.ID then []
     else [.Lock .inMutex, .write .inBuffer, .write .inBufCounter, .Unlock .inMutex])

/-- The statements of `removeFromInBuffer`. -/
def removeFromInBufferStmts (m : mempool) (req : Request) : List Stmt :=
  [.Lock .inMutex, .read .inBuffer] ++
    (if (mapGet m.inBuffer req.ID).isSome then [.write .inBuffer, .write .outBufCounter]
     else []) ++
    [.Unlock .inMutex]

/-- The statements of `takeInBuffer`. -/
def takeInBufferStmts : List Stmt :=
  [.RLock .inMutex, .read .inBuffer, .RUnlock .inMutex]

/-- The statements of `inBufferLen`. -/
def inBufferLenStmts : List Stmt :=
  [.RLock .inMutex, .read .inBuffer, .RUnlock .inMutex]

/-- The statements of `addToPool`; the counters are read by `traceIn`. -/
def addToPoolStmts (m : mempool) (req : Request) (env : AddEnv) : List Stmt :=
  match env.isRequestProcessed with
  | none => []
  | some true => []
  | some false =>
    [.Lock .poolMutex, .read .pool] ++
      (if (mapGet m.pool req.ID).isSome then []
       else [.write .inPoolCounter, .read .inPoolCounter, .read .outPoolCounter,
             .write .pool]) ++
      [.Unlock .poolMutex]

/-- The statements of the body of the loop of `RemoveRequests`; the counters are
read by `traceOut`. -/
def removeRequestStmts (m : mempool) (rid : RequestID) : List Stmt :=
  [.read .pool] ++
    (if (mapGet m.pool rid).isSome then
       [.write .outPoolCounter, .read .pool, .write .pool, .read .inPoolCounter,
        .read .outPoolCounter]
     else [])

/-- The statements of the loop of `RemoveRequests`. -/
def removeLoopStmts : mempool → List RequestID → List Stmt
  | _, [] => []
  | m, rid :: rest => removeRequestStmts m rid ++ removeLoopStmts (removeRequest m rid) rest

/-- The statements of `RemoveRequests`. -/
def RemoveRequestsStmts (m : mempool) (reqs : List RequestID) : List Stmt :=
  [.Lock .poolMutex] ++ removeLoopStmts m reqs ++ [.Unlock .poolMutex]

/-- The statements of `ReadyNow`: the length of the pool and the loop over it.
The removals run in a goroutine of their own, with the statements of
`RemoveRequests`. -/
def ReadyNowStmts : List Stmt :=
  [.RLock .poolMutex, .read .pool, .read .pool, .RUnlock .poolMutex]

/-- The statements of `ReadyFromIDs`: one read of the pool for each identifier.
The removals run in a goroutine of their own. -/
def ReadyFromIDsStmts (reqIDs : List RequestID) : List Stmt :=
  [.RLock .poolMutex] ++ reqIDs.map (fun _ => Stmt.read .pool) ++ [.RUnlock .poolMutex]

/-- The statements of `doSolidifyRequests`. -/
def doSolidifyRequestsStmts : List Stmt :=
  [.Lock .poolMutex, .read .pool, .Unlock .poolMutex]

/-- The statements of `Info`: the four counters and the length of the pool for
the result, then the loop over the pool. -/
def InfoStmts : List Stmt :=
  [.RLock .poolMutex, .read .inPoolCounter, .read .outPoolCounter, .read .inBufCounter,
   .read .outBufCounter, .read .pool, .read .pool, .RUnlock .poolMutex]

/-- A mempool that has received one request, still in its in-buffer. -/
def receivedExample : mempool := (ReceiveRequest New (onLedgerExample [1] 0 false)).1

/-- An environment of the move task in which reading the chain state fails. -/
def envReadFails : RequestID → AddEnv :=
  fun _ => { isRequestProcessed := none, nowis := 7, resolvable := false }

/-- An environment of the move task in which every request is reported as
already processed. -/
def envProcessed : RequestID → AddEnv :=
  fun _ => { isRequestProcessed := some true, nowis := 7, resolvable := false }

/-- An environment of the move task in which no request is reported as
processed. -/
def envNotProcessed : RequestID → AddEnv :=
  fun _ => { isRequestProcessed := some false, nowis := 7, resolvable := false }

/-- A pool with an on-ledger request timelocked until one hour after the
instant `1000`. -/
def timelockExample : mempool :=
  mempoolOf [{ req := onLedgerExample [1] (1000 + 60 * (60 * 1000000000)) false,
               whenReceived := 1 },
             { req := offLedgerExample [2] false, whenReceived := 2 }]

/-- An on-ledger request whose fallback deadline is five minutes after the
instant `1000`. -/
def expiringRequest : Request :=
  .onLedger { id := [1], fallbackAddress := some [9],
              fallbackDeadline := 1000 + 5 * (60 * 1000000000),
              paramsReady := true, timeLock := 0, isRotate := false }

/-- A pool with the expiring request and a rotation request. -/
def expiringExample : mempool :=
  mempoolOf [{ req := expiringRequest, whenReceived := 1 },
             { req := offLedgerExample [2] true, whenReceived := 2 }]

/-- Two requests without timelock, the second one a rotation request. -/
def rotationBatch : List Request := [offLedgerExample [1] false, offLedgerExample [2] true]

/-- Two requests without timelock, the second one on-ledger with arguments that
are not resolved. -/
def unresolvedBatch : List Request :=
  [offLedgerExample [1] false,
   .onLedger { id := [2], fallbackAddress := none, fallbackDeadline := 0,
               paramsReady := false, timeLock := 0, isRotate := false }]

/-- Two ordinary requests without timelock. -/
def ordinaryBatch : List Request := [offLedgerExample [1] false, onLedgerExample [2] 0 false]

/-- An instant ten seconds before the largest second a `time.Time` holds. -/
def lateNow : Time := 9223372036854775797 * 1000000000

/-- An on-ledger request with resolved arguments and no timelock whose fallback
deadline is ten seconds and one nanosecond after `lateNow`. -/
def lateRequest : Request :=
  .onLedger { id := [1], fallbackAddress := some [9],
              fallbackDeadline := 9223372036854775807 * 1000000000 + 1,
              paramsReady := true, timeLock := 0, isRotate := false }

/-- A pool that holds the request `lateRequest` only. -/
def lateExample : mempool := mempoolOf [{ req := lateRequest, whenReceived := 1 }]

/-- A schedule in which a second `ReceiveRequest` of a request overlaps the step
of the move task that admits it: the request is received, the second call
tests the pool, the move task admits the request and takes it out of the
in-buffer, and the second call writes the in-buffer. -/
def overlapSchedule : List Step :=
  [.whole (.receive (offLedgerExample [1] false)),
   .check (offLedgerExample [1] false),
   .offer (offLedgerExample [1] false)
     { isRequestProcessed := some false, nowis := 7, resolvable := false },
   .evict (offLedgerExample [1] false),
   .write (offLedgerExample [1] false)]

instance (t : Time) : Decidable (representable t) := by
  unfold representable; infer_instance

instance (now : Time) : Decidable (intervalFits now) := by
  unfold intervalFits; infer_instance

instance (pool : List (RequestID × requestRef)) : Decidable (PoolWF pool) := by
  unfold PoolWF; infer_instance

instance (nowis : Time) (ref : requestRef) : Decidable (readyRotate nowis ref) := by
  unfold readyRotate; infer_instance

instance (a b : requestRef) : Decidable (rotateBefore a b) := by
  unfold rotateBefore; infer_instance

instance (m : mempool) : Decidable (balanced m) := by
  unfold balanced; infer_instance

end Mempool

/-! # Other packages

Definitions for `packages/util`, the governance and root core contracts, the
mocked consensus node and the `wasmlib` assets encoding.  Their theorems follow
those of the mempool. -/

namespace Util

/-- Go's `int` on a 64-bit platform: the two's-complement value an integer
result wraps to. -/
def wrapInt (x : Int) : Int :=
  (x + 9223372036854775808) % 18446744073709551616 - 9223372036854775808

/-- The values of Go's `int` on a 64-bit platform. -/
def isInt (x : Int) : Prop := -9223372036854775808 ≤ x ∧ x < 9223372036854775808

instance (x : Int) : Decidable (isInt x) := by
  unfold isInt; infer_instance

/-- Go's builtin `make([]int, n)` (`runtime.makeslice`): a slice of `n` zeros.
It does not return (`none`) when `n` is negative or above the largest length
the allocator admits, both a panic `len out of range`.  That length, `maxLen`,
belongs to the platform and to the memory at hand: at most `2^45` elements of
eight bytes on a 64-bit platform. -/
def makeslice (maxLen : Nat) (n : Int) : Option (List Int) :=
  if n < 0 ∨ (maxLen : Int) < n then none else some (List.replicate n.toNat 0)

/-- The function `MakeRange`: the slice made for the length `to - from`, a Go
`int`, with each index `i` set to `from + i`.  The result is `none` when `make`
does not return. -/
def MakeRange (maxLen : Nat) (from_ to_ : Int) : Option (List Int) :=
  match makeslice maxLen (wrapInt (to_ - from_)) with
  | none => none
  | some a => some ((List.range a.length).map (fun (i : Nat) => wrapInt (from_ + (i : Int))))

end Util

namespace Governance

/-- The chain configuration variables of the governance state that
`setChainInfo` writes, by their decoded values (`none` for a variable that is
not set). -/
structure ChainConfig where
  VarMaxBlobSize : Option Nat
  VarMaxEventSize : Option Nat
  VarMaxEventsPerReq : Option Nat
  VarDefaultOwnerFee : Option Int
  VarDefaultValidatorFee : Option Int
deriving DecidableEq, Repr

/-- The parameters of a call of `setChainInfo`, by their decoded values (`none`
for an absent parameter). -/
structure ChainParams where
  ParamMaxBlobSize : Option Nat
  ParamMaxEventSize : Option Nat
  ParamMaxEventsPerRequest : Option Nat
  ParamOwnerFee : Option Int
  ParamValidatorFee : Option Int
deriving DecidableEq, Repr

/-- The entry point `setChainInfo`.  The constants `governance.MinEventSize` and
`governance.MinEventsPerRequest` are declared outside the sources at hand and
are parameters; `authorized` is the outcome of
`CheckAuthorizationByChainOwner`.  The result is `none` when the call panics
(not authorized); the events it emits are outside the state. -/
def setChainInfo (MinEventSize MinEventsPerRequest : Nat) (authorized : Bool)
    (state : ChainConfig) (params : ChainParams) : Option ChainConfig :=
  if ¬ authorized then none
  else
    -- max blob size
    let maxBlobSize := params.ParamMaxBlobSize.getD 0
    let state1 :=
      if maxBlobSize > 0 then { state with VarMaxBlobSize := some maxBlobSize } else state
    -- max event size
    let maxEventSize := params.ParamMaxEventSize.getD 0
    let state2 :=
      if maxEventSize > 0 then
        let stored := if maxEventSize < MinEventSize then MinEventSize else maxEventSize
        { state1 with VarMaxEventSize := some stored }
      else state1
    -- max events per request
    let maxEventsPerReq := params.ParamMaxEventsPerRequest.getD 0
    let state3 :=
      if maxEventsPerReq > 0 then
        let stored :=
          if maxEventsPerReq < MinEventsPerRequest then MinEventsPerRequest else maxEventsPerReq
        { state2 with VarMaxEventsPerReq := some stored }
      else state2
    -- default owner fee
    let ownerFee := params.ParamOwnerFee.getD (-1)
    let state4 :=
      if ownerFee ≥ 0 then { state3 with VarDefaultOwnerFee := some ownerFee } else state3
    -- default validator fee
    let validatorFee := params.ParamValidatorFee.getD (-1)
    let state5 :=
      if validatorFee ≥ 0 then { state4 with VarDefaultValidatorFee := some validatorFee }
      else state4
    some state5

end Governance

namespace Root

/-- A key-value state (`kv.KVStore`): keys and values are byte strings. -/
abbrev KVStore := List (List Nat × List Nat)

/-- The state variable `VarStateInitialized`, the key `"i"`. -/
def VarStateInitialized : List Nat := [105]

/-- The state variable `VarDeployPermissionsEnabled`, the key `"a"`. -/
def VarDeployPermissionsEnabled : List Nat := [97]

/-- How a call ends: the state it leaves and, when it panicked, the message of
the panic. -/
structure Outcome where
  state : KVStore
  err : Option String
deriving DecidableEq, Repr

/-- The entry point `initialize` of the root contract (`initialize` being a
keyword of Lean, it is `rootInitialize` here).  What lies outside the
sources at hand is a parameter: `callerHname` is `ctx.Caller().Hname()`,
`registryLen` the length of the contract registry read from the state,
`deployCore` the six calls of `mustStoreContract` and
`mustStoreAndInitCoreContract`, `encTrue` the value `codec.EncodeBool(true)`. -/
def rootInitialize (callerHname : Nat) (registryLen : KVStore → Nat)
    (deployCore : KVStore → Outcome) (encTrue : List Nat) (state : KVStore) : Outcome :=
  if Mempool.mapGet state VarStateInitialized ≠ none then
    { state := state, err := some "root.initialize.fail: already initialized" }
  else if callerHname ≠ 0 then
    { state := state,
      err := some "root.init.fail: chain deployer can't be another smart contract" }
  else if registryLen state ≠ 0 then
    { state := state, err := some "root.initialize.fail: registry not empty" }
  else
    match (deployCore state).err with
    | some e => { state := (deployCore state).state, err := some e }
    | none =>
      { state := Mempool.mapSet
          (Mempool.mapSet (deployCore state).state VarDeployPermissionsEnabled encTrue)
          VarStateInitialized [255],
        err := none }

end Root

namespace Consensus

/-- A virtual state as the mocked node uses it: its block index, its state
commitment, and the request identifiers it records for its block. -/
structure VirtualState where
  blockIndex : Nat
  stateCommitment : List Nat
  requestIDs : List Mempool.RequestID
deriving DecidableEq, Repr

/-- The state output of the chain: the state index and the state data it
carries. -/
structure AliasOutput where
  stateIndex : Nat
  stateData : List Nat
deriving DecidableEq, Repr

/-- The struct `mockedNode`, by the fields that the state-candidate handler
reads and writes: the solid state, the state output, the solid index of the
global state sync, the mempool, the state transitions enqueued to the
consensus, and whether a `require` of the test has failed. -/
structure mockedNode where
  SolidState : Option VirtualState
  StateOutput : Option AliasOutput
  solidIndex : Nat
  Mempool : Mempool.mempool
  transitions : List (VirtualState × AliasOutput)
  failed : Bool
deriving DecidableEq, Repr

/-- The method `EventStateTransition`, called with a solid state and a state
output at hand. -/
def EventStateTransition (n : mockedNode) (solid : VirtualState) (out : AliasOutput) :
    mockedNode :=
  { n with solidIndex := solid.blockIndex, transitions := n.transitions ++ [(solid, out)] }

/-- The method `checkStateApproval`. -/
def checkStateApproval (n : mockedNode) : mockedNode :=
  match n.SolidState, n.StateOutput with
  | some solid, some out =>
    if solid.blockIndex ≠ out.stateIndex then n
    else if out.stateData.length ≠ 32 then { n with failed := true }
    else if out.stateData ≠ solid.stateCommitment then { n with failed := true }
    else
      EventStateTransition
        { n with Mempool := Mempool.RemoveRequests n.Mempool solid.requestIDs } solid out
  | _, _ => n

/-- The handler that `NewNode` attaches with `OnStateCandidate`; `commitOk` says
whether `newState.Commit()` succeeds. -/
def OnStateCandidate (n : mockedNode) (newState : VirtualState) (commitOk : Bool) :
    mockedNode :=
  match n.SolidState with
  | some solid =>
    if solid.blockIndex = newState.blockIndex then n
    else if ¬ commitOk then { n with failed := true }
    else checkStateApproval { n with SolidState := some newState }
  | none =>
    if ¬ commitOk then { n with failed := true }
    else checkStateApproval { n with SolidState := some newState }

/-- A mocked node whose solid state and solid index are at block `3` and whose
state output approves block `5`. -/
def nodeExample : mockedNode :=
  { SolidState := some { blockIndex := 3, stateCommitment := List.replicate 32 3,
                         requestIDs := [] },
    StateOutput := some { stateIndex := 5, stateData := List.replicate 32 5 },
    solidIndex := 3, Mempool := Mempool.New, transitions := [], failed := false }

/-- A state candidate for block `5`. -/
def candidateExample : VirtualState :=
  { blockIndex := 5, stateCommitment := List.replicate 32 5, requestIDs := [] }

end Consensus

namespace Wasmlib

/-- The type `wasmtypes.ScColor`, by its bytes (an array of 32 bytes). -/
abbrev ScColor := List Nat

/-- The type `ScAssets`, a Go map from colours to amounts. -/
abbrev ScAssets := List (ScColor × Nat)

/-- The constant `wasmtypes.ScColorLength`. -/
def ScColorLength : Nat := 32

/-- The constant `wasmtypes.ScUint32Length`. -/
def ScUint32Length : Nat := 4

/-- The constant `wasmtypes.ScUint64Length`. -/
def ScUint64Length : Nat := 8

/-- The little-endian bytes of a number, `len` of them (`binary.LittleEndian`). -/
def littleEndian : Nat → Nat → List Nat
  | 0, _ => []
  | len + 1, v => (v % 256) :: littleEndian len (v / 256)

/-- The number that little-endian bytes stand for. -/
def fromLittleEndian : List Nat → Nat
  | [] => 0
  | b :: bs => b + 256 * fromLittleEndian bs

/-- Modelled from the spec: `wasmtypes.Uint32ToBytes` is declared outside the
sources at hand; it gives the four little-endian bytes of a `uint32`. -/
def Uint32ToBytes (value : Nat) : List Nat := littleEndian 4 value

/-- Modelled from the spec: `wasmtypes.Uint32FromBytes` is declared outside the
sources at hand; it reads four little-endian bytes. -/
def Uint32FromBytes (buf : List Nat) : Nat := fromLittleEndian buf

/-- Modelled from the spec: `wasmtypes.Uint64ToBytes` is declared outside the
sources at hand; it gives the eight little-endian bytes of a `uint64`. -/
def Uint64ToBytes (value : Nat) : List Nat := littleEndian 8 value

/-- Modelled from the spec: `wasmtypes.Uint64FromBytes` is declared outside the
sources at hand; it reads eight little-endian bytes. -/
def Uint64FromBytes (buf : List Nat) : Nat := fromLittleEndian buf

/-- Modelled from the spec: the method `WasmDecoder.FixedBytes` is declared
outside the sources at hand; it takes the next `size` bytes of the buffer and
panics (`none`) when fewer remain.  The result is the bytes taken and the rest
of the buffer. -/
def decodeFixedBytes (buf : List Nat) (size : Nat) : Option (List Nat × List Nat) :=
  if buf.length < size then none else some (buf.take size, buf.drop size)

/-- Modelled from the spec: the method `WasmEncoder.FixedBytes` is declared
outside the sources at hand; it appends `value` to the data and panics (`none`)
when `value` has not the length `length`. -/
def encodeFixedBytes (data value : List Nat) (length : Nat) : Option (List Nat) :=
  if value.length ≠ length then none else some (data ++ value)

/-- The loop of `NewScAssetsFromBytes`, with `size` entries still to decode. -/
def decodeEntries : Nat → List Nat → ScAssets → Option ScAssets
  | 0, _, dict => some dict
  | size + 1, buf, dict =>
    match decodeFixedBytes buf ScColorLength with
    | none => none
    | some (color, buf1) =>
      match decodeFixedBytes buf1 ScUint64Length with
      | none => none
      | some (amount, buf2) =>
        decodeEntries size buf2 (Mempool.mapSet dict color (Uint64FromBytes amount))

/-- The function `NewScAssetsFromBytes`; `none` when the decoder panics. -/
def NewScAssetsFromBytes (buf : List Nat) : Option ScAssets :=
  if buf.length = 0 then some []
  else
    match decodeFixedBytes buf ScUint32Length with
    | none => none
    | some (size, rest) => decodeEntries (Uint32FromBytes size) rest []

/-- The order of `sort.Slice` in `Bytes`, as a relation that holds also between
equal colours: the bytes of the first colour are not after those of the
second. -/
def colorLE (a b : ScColor) : Prop := Mempool.bytesCompare a b ≤ 0

instance : DecidableRel colorLE := fun a b => by
  unfold colorLE; infer_instance

/-- The call of `sort.Slice` in `Bytes`.  Any sorting procedure gives the same
list on distinct keys; it is computed here by insertion. -/
def sortKeys (keys : List ScColor) : List ScColor := keys.insertionSort colorLE

/-- The loop of `Bytes` over the sorted keys. -/
def encodeEntries (a : ScAssets) : List ScColor → List Nat → Option (List Nat)
  | [], enc => some enc
  | color :: rest, enc =>
    match encodeFixedBytes enc color ScColorLength with
    | none => none
    | some enc1 =>
      match encodeFixedBytes enc1 (Uint64ToBytes ((Mempool.mapGet a color).getD 0))
          ScUint64Length with
      | none => none
      | some enc2 => encodeEntries a rest enc2

/-- The method `ScAssets.Bytes`; `none` when the encoder panics.  The number of
keys is converted to `uint32`. -/
def Bytes (a : ScAssets) : Option (List Nat) :=
  match encodeFixedBytes [] (Uint32ToBytes ((sortKeys (Mempool.mapKeys a)).length % 4294967296))
      ScUint32Length with
  | none => none
  | some enc => encodeEntries a (sortKeys (Mempool.mapKeys a)) enc

/-- An entry of the encoding: the bytes of the colour, then the amount. -/
def entryBytes (a : ScAssets) (color : ScColor) : List Nat :=
  color ++ Uint64ToBytes ((Mempool.mapGet a color).getD 0)

/-- The values that the Go types allow in an `ScAssets` map: distinct colours of
32 bytes each, amounts that are `uint64`, and a number of entries that is a
`uint32`. -/
def WellTyped (a : ScAssets) : Prop :=
  (Mempool.mapKeys a).Nodup ∧ (∀ e ∈ a, e.1.length = 32 ∧ e.2 < 18446744073709551616) ∧
    a.length < 4294967296

instance (a : ScAssets) : Decidable (WellTyped a) := by
  unfold WellTyped; infer_instance

/-- A colour of 32 bytes that starts with the byte `b`. -/
def colorExample (b : Nat) : ScColor := b :: List.replicate 31 0

/-- An assets map with two colours, enumerated in descending order. -/
def assetsExample : ScAssets := [(colorExample 7, 1000), (colorExample 2, 5)]

end Wasmlib

namespace Mempool

/-! ## Readiness: `isRequestReady` -/

/-- Adding ten minutes to an instant: six hundred seconds go through `addSec`,
the nanoseconds stay. -/
theorem Add_interval (now : Int) :
    Add now FallbackDeadlineMinAllowedInterval =
      addSec (sec now) 600 * 1000000000 + nsec now := by
  have h1 : Int.tdiv FallbackDeadlineMinAllowedInterval 1000000000 = 600 := by decide
  have h2 : Int.tmod FallbackDeadlineMinAllowedInterval 1000000000 = 0 := by decide
  have h3 : (0 : Int) ≤ now % 1000000000 := Int.emod_nonneg _ (by norm_num)
  have h4 : now % 1000000000 < (1000000000 : Int) := Int.emod_lt_of_pos _ (by norm_num)
  unfold Add
  simp only [h1, h2, nsec, add_zero]
  rw [if_neg (by omega), if_neg (by omega)]

/-- When `now` plus ten minutes is representable, `Add` computes it. -/
theorem Add_interval_fits (now : Int) (h : intervalFits now) :
    Add now FallbackDeadlineMinAllowedInterval = now + 600000000000 := by
  rw [Add_interval]
  unfold intervalFits sec at h
  unfold addSec wrap64 sec nsec
  obtain ⟨h1, h2⟩ := h
  have h5 : (now / 1000000000 + 600 + 9223372036854775808) % 18446744073709551616 =
      now / 1000000000 + 600 + 9223372036854775808 := by
    apply Int.emod_eq_of_lt <;> omega
  simp only [h5]
  have h6 : now / 1000000000 + 600 + 9223372036854775808 - 9223372036854775808 >
      now / 1000000000 := by omega
  simp only [h6, decide_True, show (600 : Int) > 0 by norm_num, if_true]
  have h7 := Int.ediv_add_emod now 1000000000
  linarith

/-- The code of `isRequestReady` on an on-ledger request, with the comparisons
of instants spelled out; the deadline is compared with `now.Add` of ten
minutes. -/
theorem isRequestReady_onLedger (ref : requestRef) (now : Time) (r : OnLedger)
    (hreq : ref.req = .onLedger r) :
    isRequestReady ref now =
      if r.fallbackAddress.isSome ∧
          r.fallbackDeadline ≤ Add now FallbackDeadlineMinAllowedInterval then (false, true)
      else if r.paramsReady = false then (false, false)
      else (decide (r.timeLock = 0 ∨ r.timeLock < now), false) := by
  unfold isRequestReady
  rw [hreq]
  simp only [After, IsZero, Before]
  cases hfa : r.fallbackAddress <;> cases hp : r.paramsReady <;>
    simp [Option.isSome, not_lt]

/-- The code of `isRequestReady` computes the readiness of the specification at
every instant `now` for which `now` plus ten minutes is representable. -/
theorem isRequestReady_eq_spec (ref : requestRef) (now : Time) (hnow : intervalFits now) :
    isRequestReady ref now = specReadiness ref.req now := by
  cases hreq : ref.req with
  | offLedger r => unfold isRequestReady specReadiness; rw [hreq]
  | onLedger r =>
    rw [isRequestReady_onLedger ref now r hreq, Add_interval_fits now hnow]
    rfl

/-- The function `isRequestReady` never reports a request both ready and to be
removed. -/
theorem isRequestReady_not_both (ref : requestRef) (now : Time) :
    isRequestReady ref now ≠ (true, true) := by
  cases hreq : ref.req with
  | offLedger r => unfold isRequestReady; rw [hreq]; simp
  | onLedger r =>
    rw [isRequestReady_onLedger ref now r hreq]
    split
    · simp
    · split <;> simp

/-- The three cases of the readiness of an on-ledger request, for a deadline
compared with the instant `limit`. -/
theorem readiness_cases (r : OnLedger) (now limit : Int) (x : Bool × Bool)
    (hx : x =
      if r.fallbackAddress.isSome ∧ r.fallbackDeadline ≤ limit then (false, true)
      else if r.paramsReady = false then (false, false)
      else (decide (r.timeLock = 0 ∨ r.timeLock < now), false)) :
    (r.fallbackAddress ≠ none ∧ ¬ (limit < r.fallbackDeadline) → x = (false, true)) ∧
    (¬ (r.fallbackAddress ≠ none ∧ ¬ (limit < r.fallbackDeadline)) →
      (r.paramsReady = false → x = (false, false)) ∧
      (r.paramsReady = true → x = (decide (r.timeLock = 0 ∨ r.timeLock < now), false))) ∧
    (r.timeLock ≠ 0 → r.timeLock = now → x.1 = false) := by
  have hsome : r.fallbackAddress.isSome = true ↔ r.fallbackAddress ≠ none := by
    cases r.fallbackAddress <;> simp
  refine ⟨?_, ?_, ?_⟩
  · intro h
    rw [hx, if_pos ⟨hsome.mpr h.1, not_lt.mp h.2⟩]
  · intro h
    have h3 : ¬ (r.fallbackAddress.isSome = true ∧ r.fallbackDeadline ≤ limit) := by
      rintro ⟨h4, h5⟩
      exact h ⟨hsome.mp h4, not_lt.mpr h5⟩
    rw [hx, if_neg h3]
    constructor
    · intro hp; simp [hp]
    · intro hp; simp [hp]
  · intro h0 hnow
    rw [hx]
    split
    · rfl
    · split
      · rfl
      · subst hnow
        simp [h0]

/-- C1, as stated, fails at an instant within ten minutes of the largest second
a `time.Time` holds, where `now.Add` of ten minutes stops at that second: a
request with a fallback address whose deadline is ten seconds and one nanosecond
after `now`, hence not strictly after `now` plus ten minutes, is reported ready
where the readiness of the specification is `(false, true)`. -/
theorem isRequestReady_late :
    representable lateNow ∧
    lateRequest = .onLedger { id := [1], fallbackAddress := some [9],
                              fallbackDeadline := 9223372036854775807 * 1000000000 + 1,
                              paramsReady := true, timeLock := 0, isRotate := false } ∧
    representable (9223372036854775807 * 1000000000 + 1) ∧
    ¬ (lateNow + 10 * (60 * 1000000000) < 9223372036854775807 * 1000000000 + 1) ∧
    isRequestReady { req := lateRequest, whenReceived := 1 } lateNow = (true, false) ∧
    specReadiness lateRequest lateNow = (false, true) := by
  decide

/-- C1. For every request and every instant `now` that is at least ten minutes
before the largest second a `time.Time` holds, `isRequestReady(ref, now)` is the
readiness of the specification: `(false, true)` for an on-ledger request with a
fallback address whose deadline is not strictly after `now` plus ten minutes;
otherwise `(false, false)` when the arguments are not resolved; otherwise the
first component says whether the timelock is zero or strictly before `now`, and
the second is `false`.  At every instant `now` whatsoever: an off-ledger request
gives `(true, false)`, the same three cases hold with the deadline compared with
`now.Add` of ten minutes, the result is never `(true, true)`, and a request
whose timelock (a non-zero one, zero standing for no timelock) equals `now` is
not ready. -/
theorem isRequestReady_spec (ref : requestRef) (now : Time) :
    (intervalFits now →
      isRequestReady ref now = specReadiness ref.req now ∧
      ∀ r : OnLedger, ref.req = .onLedger r →
        (r.fallbackAddress ≠ none ∧ ¬ (now + 10 * (60 * 1000000000) < r.fallbackDeadline) →
          isRequestReady ref now = (false, true)) ∧
        (¬ (r.fallbackAddress ≠ none ∧
            ¬ (now + 10 * (60 * 1000000000) < r.fallbackDeadline)) →
          (r.paramsReady = false → isRequestReady ref now = (false, false)) ∧
          (r.paramsReady = true →
            isRequestReady ref now = (decide (r.timeLock = 0 ∨ r.timeLock < now), false)))) ∧
    (ref.req.IsOffLedger = true → isRequestReady ref now = (true, false)) ∧
    (∀ r : OnLedger, ref.req = .onLedger r →
      (r.fallbackAddress ≠ none ∧
          ¬ (Add now FallbackDeadlineMinAllowedInterval < r.fallbackDeadline) →
        isRequestReady ref now = (false, true)) ∧
      (¬ (r.fallbackAddress ≠ none ∧
          ¬ (Add now FallbackDeadlineMinAllowedInterval < r.fallbackDeadline)) →
        (r.paramsReady = false → isRequestReady ref now = (false, false)) ∧
        (r.paramsReady = true →
          isRequestReady ref now = (decide (r.timeLock = 0 ∨ r.timeLock < now), false))) ∧
      (r.timeLock ≠ 0 → r.timeLock = now → (isRequestReady ref now).1 = false)) ∧
    isRequestReady ref now ≠ (true, true) := by
  refine ⟨?_, ?_, ?_, isRequestReady_not_both ref now⟩
  · intro hnow
    refine ⟨isRequestReady_eq_spec ref now hnow, ?_⟩
    intro r hreq
    have hx := isRequestReady_onLedger ref now r hreq
    rw [Add_interval_fits now hnow] at hx
    have hlit : (now : Int) + 10 * (60 * 1000000000) = now + 600000000000 := by norm_num
    rw [hlit]
    have h := readiness_cases r now (now + 600000000000) (isRequestReady ref now) hx
    exact ⟨h.1, h.2.1⟩
  · intro h
    cases hreq : ref.req with
    | offLedger r => unfold isRequestReady; rw [hreq]
    | onLedger r => rw [hreq] at h; simp [Request.IsOffLedger] at h
  · intro r hreq
    exact readiness_cases r now (Add now FallbackDeadlineMinAllowedInterval)
      (isRequestReady ref now) (isRequestReady_onLedger ref now r hreq)

/-- The statement C1 at a concrete request and instant: the fallback deadline
of the request is five minutes after `now`. -/
theorem isRequestReady_spec_witness :
    intervalFits 1000 ∧
    isRequestReady { req := expiringRequest, whenReceived := 0 } 1000 = (false, true) :=
  ⟨by decide,
   ((((isRequestReady_spec { req := expiringRequest, whenReceived := 0 } 1000).1
      (by decide)).2
      { id := [1], fallbackAddress := some [9],
        fallbackDeadline := 1000 + 5 * (60 * 1000000000),
        paramsReady := true, timeLock := 0, isRotate := false } rfl).1
      ⟨by decide, by decide⟩)⟩

/-! ## The loop of `ReadyNow` -/

/-- A ready request is never marked for removal. -/
theorem isRequestReady_ready_not_removed (ref : requestRef) (now : Time)
    (h : (isRequestReady ref now).1 = true) : (isRequestReady ref now).2 = false := by
  have h1 := isRequestReady_not_both ref now
  cases h2 : (isRequestReady ref now).2 with
  | false => rfl
  | true => exact absurd (Prod.ext h h2) h1

/-- Readiness looks at the request only, not at its admission timestamp. -/
theorem isRequestReady_congr (a b : requestRef) (now : Time) (h : a.req = b.req) :
    isRequestReady a now = isRequestReady b now := by
  unfold isRequestReady
  rw [h]

/-- One pass of the body of `ReadyNow` appends the request to `ret` exactly when
it is ready. -/
theorem readyNowBody_ret (now : Time) (st : ReadyNowVars) (ref : requestRef) :
    (readyNowBody now st ref).ret =
      st.ret ++ (if (isRequestReady ref now).1 = true then [ref.req] else []) := by
  have h := isRequestReady_ready_not_removed ref now
  unfold readyNowBody
  cases hst : st.oldestRotate <;> simp only [] <;> (repeat' split) <;> simp_all

/-- One pass of the body of `ReadyNow` appends the identifier to `toRemove`
exactly when the request is marked for removal. -/
theorem readyNowBody_toRemove (now : Time) (st : ReadyNowVars) (ref : requestRef) :
    (readyNowBody now st ref).toRemove =
      st.toRemove ++ (if (isRequestReady ref now).2 = true then [ref.req.ID] else []) := by
  unfold readyNowBody
  cases hst : st.oldestRotate <;> simp only [] <;> (repeat' split) <;> simp_all

/-- The list `ret` after the loop of `ReadyNow`: the ready requests, in
enumeration order. -/
theorem foldl_readyNowBody_ret (now : Time) (l : List requestRef) (st : ReadyNowVars) :
    (l.foldl (readyNowBody now) st).ret =
      st.ret ++ (l.filter (fun ref => (isRequestReady ref now).1)).map requestRef.req := by
  induction l generalizing st with
  | nil => simp
  | cons ref l ih =>
    rw [List.foldl_cons, ih, readyNowBody_ret]
    by_cases h : (isRequestReady ref now).1 = true
    · simp [h, List.filter_cons]
    · simp [h, List.filter_cons]

/-- The list `toRemove` after the loop of `ReadyNow`: the identifiers of the
requests marked for removal, in enumeration order. -/
theorem foldl_readyNowBody_toRemove (now : Time) (l : List requestRef) (st : ReadyNowVars) :
    (l.foldl (readyNowBody now) st).toRemove =
      st.toRemove ++
        (l.filter (fun ref => (isRequestReady ref now).2)).map (fun ref => ref.req.ID) := by
  induction l generalizing st with
  | nil => simp
  | cons ref l ih =>
    rw [List.foldl_cons, ih, readyNowBody_toRemove]
    by_cases h : (isRequestReady ref now).2 = true
    · simp [h, List.filter_cons]
    · simp [h, List.filter_cons]

/-! ## The order of the rotation rule -/

/-- No byte string is strictly below itself. -/
theorem bytesCompare_self (a : List Nat) : bytesCompare a a = 0 := by
  induction a with
  | nil => rfl
  | cons x xs ih => simp [bytesCompare, ih]

/-- Two byte strings that `bytes.Compare` does not order are equal. -/
theorem bytesCompare_total (a b : List Nat) :
    a = b ∨ bytesCompare a b < 0 ∨ bytesCompare b a < 0 := by
  induction a generalizing b with
  | nil =>
    cases b with
    | nil => exact Or.inl rfl
    | cons y ys => right; left; simp [bytesCompare]
  | cons x xs ih =>
    cases b with
    | nil => right; right; simp [bytesCompare]
    | cons y ys =>
      rcases Nat.lt_trichotomy x y with hxy | hxy | hxy
      · right; left; simp [bytesCompare, hxy]
      · subst hxy
        rcases ih ys with h | h | h
        · left; rw [h]
        · right; left; simpa [bytesCompare] using h
        · right; right; simpa [bytesCompare] using h
      · right; right; simp [bytesCompare, hxy]

/-- The strict order of `bytes.Compare` is transitive. -/
theorem bytesCompare_trans (a b c : List Nat) (hab : bytesCompare a b < 0)
    (hbc : bytesCompare b c < 0) : bytesCompare a c < 0 := by
  induction a generalizing b c with
  | nil =>
    cases c with
    | nil => cases b <;> simp [bytesCompare] at hab hbc
    | cons z zs => simp [bytesCompare]
  | cons x xs ih =>
    cases b with
    | nil => simp [bytesCompare] at hab
    | cons y ys =>
      cases c with
      | nil => simp [bytesCompare] at hbc
      | cons z zs =>
        simp only [bytesCompare] at hab hbc ⊢
        by_cases hxy : x < y
        · by_cases hyz : y < z
          · have hxz : x < z := by omega
            simp [hxz]
          · by_cases hzy : z < y
            · simp [hyz, hzy] at hbc
            · have hxz : x < z := by omega
              simp [hxz]
        · by_cases hyx : y < x
          · simp [hxy, hyx] at hab
          · have hxy2 : x = y := by omega
            subst hxy2
            simp only [lt_self_iff_false, if_false] at hab
            by_cases hxz : x < z
            · simp [hxz]
            · by_cases hzx : z < x
              · simp [hxz, hzx] at hbc
              · simp only [hxz, hzx, if_false] at hbc ⊢
                exact ih ys zs hab hbc

/-- No pool entry precedes itself. -/
theorem rotateBefore_irrefl (a : requestRef) : ¬ rotateBefore a a := by
  unfold rotateBefore
  rw [bytesCompare_self]
  simp

/-- The order of the rotation rule is transitive. -/
theorem rotateBefore_trans (a b c : requestRef) (hab : rotateBefore a b)
    (hbc : rotateBefore b c) : rotateBefore a c := by
  unfold rotateBefore at *
  rcases hab with h1 | ⟨h1, h2⟩ <;> rcases hbc with h3 | ⟨h3, h4⟩
  · left; exact lt_trans h1 h3
  · left; rw [← h3]; exact h1
  · left; rw [h1]; exact h3
  · right; exact ⟨h1.trans h3, bytesCompare_trans _ _ _ h2 h4⟩

/-- Two pool entries that the order of the rotation rule does not separate have
the same admission timestamp and the same request identifier. -/
theorem rotateBefore_total (a b : requestRef) (hab : ¬ rotateBefore a b)
    (hba : ¬ rotateBefore b a) : a.whenReceived = b.whenReceived ∧ a.req.ID = b.req.ID := by
  unfold rotateBefore at *
  have ht : a.whenReceived = b.whenReceived := by
    rcases lt_trichotomy a.whenReceived b.whenReceived with h | h | h
    · exact absurd (Or.inl h) hab
    · exact h
    · exact absurd (Or.inl h) hba
  refine ⟨ht, ?_⟩
  rcases bytesCompare_total a.req.ID b.req.ID with h | h | h
  · exact h
  · exact absurd (Or.inr ⟨ht, h⟩) hab
  · exact absurd (Or.inr ⟨ht.symm, h⟩) hba

/-! ## The rotation rule of `ReadyNow` -/

/-- An entry that is not a ready rotation request leaves the rotation variables
of the loop as they are. -/
theorem readyNowBody_oldest_skip (now : Time) (st : ReadyNowVars) (ref : requestRef)
    (h : ¬ readyRotate now ref) :
    (readyNowBody now st ref).oldestRotate = st.oldestRotate ∧
      (readyNowBody now st ref).oldestRotateTime = st.oldestRotateTime := by
  have h' := isRequestReady_ready_not_removed ref now
  unfold readyRotate at h
  unfold readyNowBody
  cases hst : st.oldestRotate <;> simp only [] <;> (repeat' split) <;> simp_all

/-- A ready rotation request replaces the selected one exactly when none is
selected yet, or when it was admitted earlier, or at the same instant with a
smaller identifier. -/
theorem readyNowBody_oldest_pick (now : Time) (st : ReadyNowVars) (ref : requestRef)
    (h : readyRotate now ref) :
    ((readyNowBody now st ref).oldestRotate, (readyNowBody now st ref).oldestRotateTime) =
      match st.oldestRotate with
      | none => (some ref.req, ref.whenReceived)
      | some oldest =>
        if ref.whenReceived < st.oldestRotateTime ∨
            (ref.whenReceived = st.oldestRotateTime ∧ bytesCompare ref.req.ID oldest.ID < 0) then
          (some ref.req, ref.whenReceived)
        else (st.oldestRotate, st.oldestRotateTime) := by
  obtain ⟨h1, h2, h3⟩ := h
  unfold readyNowBody
  simp only [h1, h2, h3, Before, Equal]
  cases hst : st.oldestRotate with
  | none => simp
  | some oldest =>
    simp only [Bool.false_eq_true, if_false, not_true_eq_false, decide_eq_true_eq]
    by_cases hb : ref.whenReceived < st.oldestRotateTime
    · simp [hb]
    · by_cases he : ref.whenReceived = st.oldestRotateTime
      · by_cases hc : bytesCompare ref.req.ID oldest.ID < 0
        · simp [he, hc]
        · simp [he, hc, hst]
      · simp [hb, he, hst]

/-- The body of the loop of `ReadyNow` keeps the invariant on the rotation
variables. -/
theorem oldestSelected_step (now : Time) (l : List requestRef) (st : ReadyNowVars)
    (ref : requestRef) (h : oldestSelected now l st) :
    oldestSelected now (l ++ [ref]) (readyNowBody now st ref) := by
  by_cases hr : readyRotate now ref
  · have hp := readyNowBody_oldest_pick now st ref hr
    unfold oldestSelected at h ⊢
    cases hst : st.oldestRotate with
    | none =>
      rw [hst] at h hp
      simp only [Prod.mk.injEq] at hp
      rw [hp.1]
      refine ⟨ref, by simp, hr, rfl, hp.2.symm, ?_⟩
      intro other hmem hother
      rcases List.mem_append.mp hmem with hm | hm
      · exact absurd hother (h other hm)
      · rw [List.mem_singleton.mp hm]; exact rotateBefore_irrefl ref
    | some oldest =>
      rw [hst] at h hp
      obtain ⟨w, hw, hwr, hwreq, hwt, hmin⟩ := h
      simp only at hp
      by_cases hc : ref.whenReceived < st.oldestRotateTime ∨
          (ref.whenReceived = st.oldestRotateTime ∧ bytesCompare ref.req.ID oldest.ID < 0)
      · rw [if_pos hc] at hp
        simp only [Prod.mk.injEq] at hp
        rw [hp.1]
        have hlt : rotateBefore ref w := by
          unfold rotateBefore
          rw [hwt, hwreq]
          exact hc
        refine ⟨ref, by simp, hr, rfl, hp.2.symm, ?_⟩
        intro other hmem hother hbefore
        rcases List.mem_append.mp hmem with hm | hm
        · exact hmin other hm hother (rotateBefore_trans _ _ _ hbefore hlt)
        · rw [List.mem_singleton.mp hm] at hbefore
          exact rotateBefore_irrefl ref hbefore
      · rw [if_neg hc] at hp
        simp only [Prod.mk.injEq] at hp
        rw [hp.1]
        refine ⟨w, by simp [hw], hwr, hwreq, by rw [hp.2]; exact hwt, ?_⟩
        intro other hmem hother
        rcases List.mem_append.mp hmem with hm | hm
        · exact hmin other hm hother
        · rw [List.mem_singleton.mp hm]
          unfold rotateBefore
          rw [hwt, hwreq]
          exact hc
  · have hs := readyNowBody_oldest_skip now st ref hr
    unfold oldestSelected at h ⊢
    rw [hs.1]
    cases hst : st.oldestRotate with
    | none =>
      rw [hst] at h
      intro other hmem
      rcases List.mem_append.mp hmem with hm | hm
      · exact h other hm
      · rw [List.mem_singleton.mp hm]; exact hr
    | some oldest =>
      rw [hst] at h
      obtain ⟨w, hw, hwr, hwreq, hwt, hmin⟩ := h
      refine ⟨w, by simp [hw], hwr, hwreq, by rw [hs.2]; exact hwt, ?_⟩
      intro other hmem hother
      rcases List.mem_append.mp hmem with hm | hm
      · exact hmin other hm hother
      · rw [List.mem_singleton.mp hm] at hother; exact absurd hother hr

/-- The invariant on the rotation variables holds along the whole loop. -/
theorem oldestSelected_foldl (now : Time) (l visited : List requestRef) (st : ReadyNowVars)
    (h : oldestSelected now visited st) :
    oldestSelected now (visited ++ l) (l.foldl (readyNowBody now) st) := by
  induction l generalizing visited st with
  | nil => simpa using h
  | cons ref l ih =>
    have h1 := ih (visited ++ [ref]) (readyNowBody now st ref)
      (oldestSelected_step now visited st ref h)
    simpa using h1

/-- The invariant on the rotation variables holds when `ReadyNow` leaves its
loop. -/
theorem oldestSelected_readyNowLoop (now : Time) (pool : List (RequestID × requestRef)) :
    oldestSelected now (mapValues pool) (readyNowLoop now pool) := by
  have h := oldestSelected_foldl now (mapValues pool) []
    { oldestRotate := none, oldestRotateTime := 0, toRemove := [], ret := [] }
    (by unfold oldestSelected; simp)
  simpa [readyNowLoop] using h

/-! ## What `ReadyNow` returns -/

/-- Two entries of a well-formed pool whose requests have the same identifier
are the same entry. -/
theorem PoolWF_eq_of_ID (pool : List (RequestID × requestRef)) (hwf : PoolWF pool)
    (a b : requestRef) (ha : a ∈ mapValues pool) (hb : b ∈ mapValues pool)
    (h : a.req.ID = b.req.ID) : a = b := by
  obtain ⟨hnd, hkey⟩ := hwf
  unfold mapValues at ha hb
  obtain ⟨ea, hea, rfl⟩ := List.mem_map.mp ha
  obtain ⟨eb, heb, rfl⟩ := List.mem_map.mp hb
  have h1 : ea.1 = eb.1 := by rw [← hkey ea hea, ← hkey eb heb]; exact h
  rw [List.inj_on_of_nodup_map hnd hea heb h1]

/-- Well-formedness of a pool does not depend on its enumeration order. -/
theorem PoolWF_perm (pool pool' : List (RequestID × requestRef)) (hp : pool'.Perm pool)
    (hwf : PoolWF pool) : PoolWF pool' := by
  obtain ⟨hnd, hkey⟩ := hwf
  refine ⟨?_, ?_⟩
  · unfold mapKeys at *
    exact (hp.map Prod.fst).nodup_iff.mpr hnd
  · intro e he
    exact hkey e (hp.mem_iff.mp he)

/-- When a ready rotation request is in the pool, the loop of `ReadyNow` selects
a ready rotation request that no other one precedes. -/
theorem readyNowLoop_selects (now : Time) (pool : List (RequestID × requestRef))
    (h : ∃ ref ∈ mapValues pool, readyRotate now ref) :
    ∃ ref ∈ mapValues pool, readyRotate now ref ∧
      (∀ other ∈ mapValues pool, readyRotate now other → ¬ rotateBefore other ref) ∧
      (readyNowLoop now pool).oldestRotate = some ref.req := by
  have hinv := oldestSelected_readyNowLoop now pool
  unfold oldestSelected at hinv
  cases hst : (readyNowLoop now pool).oldestRotate with
  | none =>
    rw [hst] at hinv
    obtain ⟨ref, hmem, hr⟩ := h
    exact absurd hr (hinv ref hmem)
  | some oldest =>
    rw [hst] at hinv
    obtain ⟨w, hw, hwr, hwreq, _, hmin⟩ := hinv
    exact ⟨w, hw, hwr, hmin, by rw [hwreq]⟩

/-- Without a ready rotation request in the pool, the loop of `ReadyNow` selects
none. -/
theorem readyNowLoop_selects_none (now : Time) (pool : List (RequestID × requestRef))
    (h : ∀ ref ∈ mapValues pool, ¬ readyRotate now ref) :
    (readyNowLoop now pool).oldestRotate = none := by
  have hinv := oldestSelected_readyNowLoop now pool
  unfold oldestSelected at hinv
  cases hst : (readyNowLoop now pool).oldestRotate with
  | none => rfl
  | some oldest =>
    rw [hst] at hinv
    obtain ⟨w, hw, hwr, _⟩ := hinv
    exact absurd hwr (h w hw)

/-- Every request that `ReadyNow` returns is the request of a pool entry that
`isRequestReady` reports ready. -/
theorem ReadyNow_mem (m : mempool) (now : Time) (r : Request) (h : r ∈ (ReadyNow m now).1) :
    ∃ ref ∈ mapValues m.pool, ref.req = r ∧ (isRequestReady ref now).1 = true := by
  unfold ReadyNow at h
  have hinv := oldestSelected_readyNowLoop now m.pool
  unfold oldestSelected at hinv
  cases hst : (readyNowLoop now m.pool).oldestRotate with
  | none =>
    simp only [hst] at h
    unfold readyNowLoop at h
    rw [foldl_readyNowBody_ret] at h
    simp only [List.nil_append, List.mem_map, List.mem_filter] at h
    obtain ⟨ref, ⟨hmem, hrdy⟩, hreq⟩ := h
    exact ⟨ref, hmem, hreq, hrdy⟩
  | some oldest =>
    rw [hst] at hinv
    simp only [hst, List.mem_singleton] at h
    obtain ⟨w, hw, hwr, hwreq, _, _⟩ := hinv
    exact ⟨w, hw, by rw [hwreq, h], hwr.1⟩

/-- C2, as stated, fails at an instant within ten minutes of the largest second
a `time.Time` holds: `ReadyNow` returns a request whose fallback deadline is ten
seconds and one nanosecond after that instant. -/
theorem ReadyNow_late :
    representable lateNow ∧
    lateRequest = .onLedger { id := [1], fallbackAddress := some [9],
                              fallbackDeadline := 9223372036854775807 * 1000000000 + 1,
                              paramsReady := true, timeLock := 0, isRotate := false } ∧
    lateExample = mempoolOf [{ req := lateRequest, whenReceived := 1 }] ∧
    (ReadyNow lateExample lateNow).1 = [lateRequest] ∧
    (9223372036854775807 * 1000000000 + 1 : Time) ≤ lateNow + 10 * (60 * 1000000000) ∧
    (9223372036854775807 * 1000000000 + 1 : Time) = lateNow + 10 * 1000000000 + 1 := by
  decide

/-- C2. No request returned by `ReadyNow(t)` has a timelock strictly after `t`,
and none has a fallback deadline that is not after `t.Add` of ten minutes; for
every `t` at least ten minutes before the largest second a `time.Time` holds,
none has a fallback deadline within ten minutes of `t` (a deadline not after `t`
plus ten minutes).  Off-ledger requests carry neither. -/
theorem ReadyNow_respects_timelock_and_deadline (m : mempool) (t : Time) (r : Request)
    (h : r ∈ (ReadyNow m t).1) :
    ∀ o : OnLedger, r = .onLedger o →
      (o.timeLock ≠ 0 → ¬ (t < o.timeLock)) ∧
      (o.fallbackAddress ≠ none →
        ¬ (o.fallbackDeadline ≤ Add t FallbackDeadlineMinAllowedInterval)) ∧
      (intervalFits t → o.fallbackAddress ≠ none →
        ¬ (o.fallbackDeadline ≤ t + 10 * (60 * 1000000000))) := by
  intro o ho
  obtain ⟨ref, _, hreq, hrdy⟩ := ReadyNow_mem m t r h
  rw [ho] at hreq
  rw [isRequestReady_onLedger ref t o hreq] at hrdy
  have hsome : o.fallbackAddress ≠ none → o.fallbackAddress.isSome = true := by
    cases o.fallbackAddress <;> simp
  split at hrdy
  · simp at hrdy
  · rename_i hfb
    split at hrdy
    · simp at hrdy
    · simp only [decide_eq_true_eq] at hrdy
      have hadd : o.fallbackAddress ≠ none →
          ¬ (o.fallbackDeadline ≤ Add t FallbackDeadlineMinAllowedInterval) :=
        fun hfa hle => hfb ⟨hsome hfa, hle⟩
      refine ⟨?_, hadd, ?_⟩
      · intro h0
        rcases hrdy with h1 | h1
        · exact absurd h1 h0
        · exact not_lt.mpr (le_of_lt h1)
      · intro ht hfa hle
        apply hadd hfa
        rw [Add_interval_fits t ht]
        have hlit : (t : Int) + 10 * (60 * 1000000000) = t + 600000000000 := by norm_num
        rw [hlit] at hle
        exact hle

/-- The statement C2 at a pool holding an on-ledger request whose timelock `5`
is before the time `10`. -/
theorem ReadyNow_respects_timelock_and_deadline_witness :
    onLedgerExample [1] 5 false ∈
        (ReadyNow (mempoolOf [{ req := onLedgerExample [1] 5 false, whenReceived := 1 }]) 10).1 ∧
      ¬ ((10 : Time) < 5) :=
  ⟨by decide,
   ((ReadyNow_respects_timelock_and_deadline
      (mempoolOf [{ req := onLedgerExample [1] 5 false, whenReceived := 1 }]) 10
      (onLedgerExample [1] 5 false) (by decide))
      { id := [1], fallbackAddress := none, fallbackDeadline := 0,
        paramsReady := true, timeLock := 5, isRotate := false } rfl).1 (by decide)⟩

/-- Two ready rotation requests of a well-formed pool that the order of the
rule does not separate are the same entry. -/
theorem rotate_min_unique (pool : List (RequestID × requestRef)) (hwf : PoolWF pool)
    (a b : requestRef) (ha : a ∈ mapValues pool) (hb : b ∈ mapValues pool)
    (hab : ¬ rotateBefore a b) (hba : ¬ rotateBefore b a) : a = b :=
  PoolWF_eq_of_ID pool hwf a b ha hb (rotateBefore_total a b hab hba).2

/-- C3. When at least one rotation request is ready at `now`, `ReadyNow(now)`
returns exactly one element: the ready rotation request that precedes every
other ready rotation request in the order (admission timestamp ascending, then
identifier bytes ascending); and it returns that same list for every
enumeration order of the pool map. -/
theorem ReadyNow_rotation_rule (m : mempool) (now : Time) (hwf : PoolWF m.pool)
    (h : ∃ ref ∈ mapValues m.pool, readyRotate now ref) :
    ∃ ref ∈ mapValues m.pool, readyRotate now ref ∧
      (∀ other ∈ mapValues m.pool, readyRotate now other → other ≠ ref →
        rotateBefore ref other) ∧
      (ReadyNow m now).1 = [ref.req] ∧
      ∀ pool' : List (RequestID × requestRef), pool'.Perm m.pool →
        (ReadyNow { m with pool := pool' } now).1 = [ref.req] := by
  obtain ⟨ref, hmem, hr, hmin, hsel⟩ := readyNowLoop_selects now m.pool h
  refine ⟨ref, hmem, hr, ?_, ?_, ?_⟩
  · intro other hother hor hne
    by_contra hnb
    exact hne (rotate_min_unique m.pool hwf other ref hother hmem (hmin other hother hor) hnb)
  · unfold ReadyNow
    simp only [hsel]
  · intro pool' hp
    have hmemiff : ∀ x, x ∈ mapValues pool' ↔ x ∈ mapValues m.pool := fun x =>
      (hp.map Prod.snd).mem_iff
    obtain ⟨ref', hmem', hr', hmin', hsel'⟩ := readyNowLoop_selects now pool'
      ⟨ref, (hmemiff ref).mpr hmem, hr⟩
    have heq : ref' = ref :=
      rotate_min_unique m.pool hwf ref' ref ((hmemiff ref').mp hmem') hmem
        (hmin ref' ((hmemiff ref').mp hmem') hr') (hmin' ref ((hmemiff ref).mpr hmem) hr)
    unfold ReadyNow
    simp only [hsel', heq]

/-- The statement C3 at a pool with two rotation requests admitted at the same
instant and an ordinary request admitted before them. -/
theorem ReadyNow_rotation_rule_witness :
    PoolWF rotationExample.pool ∧
    ∃ ref ∈ mapValues rotationExample.pool,
      readyRotate 10 ref ∧
      (∀ other ∈ mapValues rotationExample.pool,
        readyRotate 10 other → other ≠ ref → rotateBefore ref other) ∧
      (ReadyNow rotationExample 10).1 = [ref.req] ∧
      ∀ pool' : List (RequestID × requestRef), pool'.Perm rotationExample.pool →
        (ReadyNow { rotationExample with pool := pool' } 10).1 = [ref.req] :=
  ⟨by decide, ReadyNow_rotation_rule rotationExample 10 (by decide) (by decide)⟩

/-- C4, as stated, fails: two replicas hold the same two rotation requests, each
having admitted them at its own local time, and `ReadyNow` at the same `now`
returns a different rotation request on each. -/
theorem ReadyNow_replicas_differ :
    PoolWF replicaExampleA.pool ∧ PoolWF replicaExampleB.pool ∧
    (mapValues replicaExampleA.pool).map requestRef.req =
      (mapValues replicaExampleB.pool).map requestRef.req ∧
    (ReadyNow replicaExampleA 10).1 = [offLedgerExample [1] true] ∧
    (ReadyNow replicaExampleB 10).1 = [offLedgerExample [2] true] ∧
    (ReadyNow replicaExampleA 10).1 ≠ (ReadyNow replicaExampleB 10).1 := by
  decide

/-- C4, amended. Two pools that hold the same set of requests, and whose
admission timestamps order the ready rotation requests alike (as they do when
the timestamps are equal), return the same single rotation request from
`ReadyNow(now)` when a rotation request is ready. -/
theorem ReadyNow_replicas_agree (m1 m2 : mempool) (now : Time)
    (hwf1 : PoolWF m1.pool)
    (hsame : ∀ r : Request, r ∈ (mapValues m1.pool).map requestRef.req ↔
      r ∈ (mapValues m2.pool).map requestRef.req)
    (horder : ∀ a ∈ mapValues m1.pool, ∀ a' ∈ mapValues m1.pool,
      ∀ b ∈ mapValues m2.pool, ∀ b' ∈ mapValues m2.pool,
      a.req = b.req → a'.req = b'.req → readyRotate now a → readyRotate now a' →
      (rotateBefore a a' ↔ rotateBefore b b'))
    (h : ∃ ref ∈ mapValues m1.pool, readyRotate now ref) :
    ∃ r : Request, IsRotateStateControllerRequest r = true ∧
      (ReadyNow m1 now).1 = [r] ∧ (ReadyNow m2 now).1 = [r] := by
  obtain ⟨ref1, hmem1, hr1, hmin1, hsel1⟩ := readyNowLoop_selects now m1.pool h
  -- the same request is in the other pool, and is a ready rotation request there
  have transfer12 : ∀ a ∈ mapValues m1.pool, readyRotate now a →
      ∃ b ∈ mapValues m2.pool, b.req = a.req ∧ readyRotate now b := by
    intro a ha har
    obtain ⟨b, hb, hbr⟩ := List.mem_map.mp ((hsame a.req).mp (List.mem_map.mpr ⟨a, ha, rfl⟩))
    refine ⟨b, hb, hbr, ?_⟩
    unfold readyRotate at har ⊢
    rw [isRequestReady_congr b a now hbr, hbr]
    exact har
  have transfer21 : ∀ b ∈ mapValues m2.pool, readyRotate now b →
      ∃ a ∈ mapValues m1.pool, a.req = b.req ∧ readyRotate now a := by
    intro b hb hbr
    obtain ⟨a, ha, har⟩ := List.mem_map.mp ((hsame b.req).mpr (List.mem_map.mpr ⟨b, hb, rfl⟩))
    refine ⟨a, ha, har, ?_⟩
    unfold readyRotate at hbr ⊢
    rw [isRequestReady_congr a b now har, har]
    exact hbr
  obtain ⟨b1, hb1, hb1req, hb1r⟩ := transfer12 ref1 hmem1 hr1
  obtain ⟨ref2, hmem2, hr2, hmin2, hsel2⟩ := readyNowLoop_selects now m2.pool ⟨b1, hb1, hb1r⟩
  obtain ⟨a2, ha2, ha2req, ha2r⟩ := transfer21 ref2 hmem2 hr2
  have hreq : ref2.req = ref1.req := by
    by_contra hne
    have hne2 : a2 ≠ ref1 := by
      intro h3; rw [h3] at ha2req; exact hne ha2req.symm
    have hbefore : rotateBefore ref1 a2 := by
      by_contra hnb
      exact hne2 (rotate_min_unique m1.pool hwf1 a2 ref1 ha2 hmem1 (hmin1 a2 ha2 ha2r) hnb)
    have hbefore2 : rotateBefore b1 ref2 :=
      (horder ref1 hmem1 a2 ha2 b1 hb1 ref2 hmem2 hb1req.symm ha2req hr1 ha2r).mp hbefore
    exact hmin2 b1 hb1 hb1r hbefore2
  refine ⟨ref1.req, hr1.2.2, ?_, ?_⟩
  · unfold ReadyNow; simp only [hsel1]
  · unfold ReadyNow; simp only [hsel2, hreq]

/-- The amended statement C4 at two replicas whose clocks differ and that
admitted the two rotation requests in the same order. -/
theorem ReadyNow_replicas_agree_witness :
    ∃ r : Request, IsRotateStateControllerRequest r = true ∧
      (ReadyNow replicaExampleA 10).1 = [r] ∧ (ReadyNow replicaExampleC 10).1 = [r] :=
  ReadyNow_replicas_agree replicaExampleA replicaExampleC 10
    (by decide) (fun _ => Iff.rfl) (by decide) (by decide)

/-- C5, as stated, fails: the pool contains a rotation request, timelocked
until `100`, and `ReadyNow(10)` returns the two ordinary requests, not the
rotation request. -/
theorem ReadyNow_unready_rotation :
    PoolWF timelockedRotationExample.pool ∧
    (∃ ref ∈ mapValues timelockedRotationExample.pool,
      IsRotateStateControllerRequest ref.req = true) ∧
    (ReadyNow timelockedRotationExample 10).1 =
      [offLedgerExample [2] false, offLedgerExample [3] false] ∧
    (ReadyNow timelockedRotationExample 10).1.length ≠ 1 := by
  decide

/-- C5, amended. When the pool contains at least one rotation request that is
ready at `now`, `ReadyNow(now)` returns exactly one request: a ready rotation
request whose admission time is the earliest among the ready rotation requests,
and whose identifier is the smallest, in byte order, among those admitted at
that same time. -/
theorem ReadyNow_oldest_rotation (m : mempool) (now : Time) (hwf : PoolWF m.pool)
    (h : ∃ ref ∈ mapValues m.pool, readyRotate now ref) :
    (ReadyNow m now).1.length = 1 ∧
    ∃ ref ∈ mapValues m.pool, (ReadyNow m now).1 = [ref.req] ∧
      IsRotateStateControllerRequest ref.req = true ∧
      (isRequestReady ref now).1 = true ∧
      ∀ other ∈ mapValues m.pool, readyRotate now other →
        ref.whenReceived ≤ other.whenReceived ∧
        (ref.whenReceived = other.whenReceived → other ≠ ref →
          bytesCompare ref.req.ID other.req.ID < 0) := by
  obtain ⟨ref, hmem, hr, hmin, hsel⟩ := readyNowLoop_selects now m.pool h
  have hres : (ReadyNow m now).1 = [ref.req] := by
    unfold ReadyNow; simp only [hsel]
  refine ⟨by rw [hres]; rfl, ref, hmem, hres, hr.2.2, hr.1, ?_⟩
  intro other hother hor
  have hnb := hmin other hother hor
  constructor
  · by_contra hlt
    exact hnb (Or.inl (not_le.mp hlt))
  · intro ht hne
    have hb : rotateBefore ref other := by
      by_contra hnb2
      exact hne (rotate_min_unique m.pool hwf other ref hother hmem hnb hnb2)
    rcases hb with hb | hb
    · rw [ht] at hb; exact absurd hb (lt_irrefl _)
    · exact hb.2

/-- The amended statement C5 at a pool with two rotation requests admitted at
the same instant: the one with the smaller identifier is returned. -/
theorem ReadyNow_oldest_rotation_witness :
    (ReadyNow rotationExample 10).1 = [offLedgerExample [1] true] ∧
    (ReadyNow rotationExample 10).1.length = 1 ∧
    ∃ ref ∈ mapValues rotationExample.pool, (ReadyNow rotationExample 10).1 = [ref.req] ∧
      IsRotateStateControllerRequest ref.req = true ∧
      (isRequestReady ref 10).1 = true ∧
      ∀ other ∈ mapValues rotationExample.pool, readyRotate 10 other →
        ref.whenReceived ≤ other.whenReceived ∧
        (ref.whenReceived = other.whenReceived → other ≠ ref →
          bytesCompare ref.req.ID other.req.ID < 0) :=
  ⟨by decide, ReadyNow_oldest_rotation rotationExample 10 (by decide) (by decide)⟩

/-! ## What `ReadyFromIDs` returns -/

/-- One pass of the body of `ReadyFromIDs` records the index exactly when the
identifier is not in the pool. -/
theorem readyFromIDsBody_missing (m : mempool) (now : Time) (st : ReadyFromIDsVars) (i : Nat)
    (reqID : RequestID) :
    (readyFromIDsBody m now st i reqID).missingRequestIndexes =
      st.missingRequestIndexes ++ (if HasRequest m reqID then [] else [i]) := by
  unfold readyFromIDsBody HasRequest
  cases h : mapGet m.pool reqID with
  | none => simp
  | some ref =>
    simp only [Option.isSome_some, if_true, List.append_nil]
    by_cases h1 : (isRequestReady ref now).1 = true <;>
      by_cases h2 : (isRequestReady ref now).2 = true <;> simp [h1, h2]

/-- One pass of the body of `ReadyFromIDs` appends the request exactly when the
identifier is in the pool with a ready request. -/
theorem readyFromIDsBody_requests (m : mempool) (now : Time) (st : ReadyFromIDsVars) (i : Nat)
    (reqID : RequestID) :
    (readyFromIDsBody m now st i reqID).requests =
      st.requests ++ (readyInPool m now reqID).toList := by
  unfold readyFromIDsBody readyInPool
  cases h : mapGet m.pool reqID with
  | none => simp
  | some ref =>
    by_cases hr : (isRequestReady ref now).1 = true
    · simp [hr]
    · by_cases h2 : (isRequestReady ref now).2 = true <;> simp [hr, h2]

/-- The list of missing indexes after the loop of `ReadyFromIDs`. -/
theorem readyFromIDsLoop_missing (m : mempool) (now : Time) (ids : List RequestID) (i : Nat)
    (st : ReadyFromIDsVars) :
    (readyFromIDsLoop m now i ids st).missingRequestIndexes =
      st.missingRequestIndexes ++
        ((List.range ids.length).filter (missingAt m ids)).map (fun j => i + j) := by
  induction ids generalizing i st with
  | nil => simp [readyFromIDsLoop]
  | cons id rest ih =>
    rw [readyFromIDsLoop, ih, readyFromIDsBody_missing, List.length_cons,
      List.range_succ_eq_map, List.filter_cons, List.filter_map]
    have hfun : (missingAt m (id :: rest) ∘ Nat.succ) = missingAt m rest := by
      funext j; simp [missingAt]
    have hmap : ∀ l : List Nat, (l.map Nat.succ).map (fun j => i + j) =
        l.map (fun j => i + 1 + j) := by
      intro l
      rw [List.map_map]
      apply List.map_congr_left
      intro j _
      simp only [Function.comp]; omega
    rw [hfun]
    by_cases h : HasRequest m id = true
    · simp [missingAt, h, hmap]
    · simp [missingAt, h, hmap]

/-- The list of requests after the loop of `ReadyFromIDs`. -/
theorem readyFromIDsLoop_requests (m : mempool) (now : Time) (ids : List RequestID) (i : Nat)
    (st : ReadyFromIDsVars) :
    (readyFromIDsLoop m now i ids st).requests =
      st.requests ++ ids.filterMap (readyInPool m now) := by
  induction ids generalizing i st with
  | nil => simp [readyFromIDsLoop]
  | cons id rest ih =>
    rw [readyFromIDsLoop, ih, readyFromIDsBody_requests, List.filterMap_cons]
    cases h : readyInPool m now id <;> simp

/-- C6. `ReadyFromIDs(now, ids...)` returns as missing indexes exactly the
positions `i`, in ascending order, at which `ids[i]` is not in the pool; its
completeness flag is true if and only if that list is empty, that is, if and
only if every identifier of `ids` is in the pool, ready or not. -/
theorem ReadyFromIDs_missing (m : mempool) (now : Time) (ids : List RequestID) :
    (ReadyFromIDs m now ids).2.1 = (List.range ids.length).filter (missingAt m ids) ∧
    ((ReadyFromIDs m now ids).2.2.1 = true ↔ (ReadyFromIDs m now ids).2.1 = []) ∧
    ((ReadyFromIDs m now ids).2.2.1 = true ↔ ∀ id ∈ ids, HasRequest m id = true) := by
  have hmiss : (ReadyFromIDs m now ids).2.1 =
      (List.range ids.length).filter (missingAt m ids) := by
    unfold ReadyFromIDs
    simp only [readyFromIDsLoop_missing, List.nil_append]
    simp
  have hflag : (ReadyFromIDs m now ids).2.2.1 = true ↔ (ReadyFromIDs m now ids).2.1 = [] := by
    unfold ReadyFromIDs
    simp [List.length_eq_zero]
  refine ⟨hmiss, hflag, ?_⟩
  rw [hflag, hmiss, List.filter_eq_nil_iff]
  constructor
  · intro h id hid
    obtain ⟨i, hi, hget⟩ := List.getElem_of_mem hid
    have h1 := h i (List.mem_range.mpr hi)
    simp only [missingAt, List.getElem?_eq_getElem hi, hget] at h1
    simpa using h1
  · intro h i hi
    have hi' := List.mem_range.mp hi
    simp only [missingAt, List.getElem?_eq_getElem hi']
    simp [h _ (List.getElem_mem hi')]

/-- In a map with distinct keys, reading a key finds exactly the entry stored
under it. -/
theorem mapGet_eq_some_iff {β : Type} (l : List (RequestID × β)) (hnd : (mapKeys l).Nodup)
    (k : RequestID) (v : β) : mapGet l k = some v ↔ (k, v) ∈ l := by
  induction l with
  | nil => simp [mapGet]
  | cons e rest ih =>
    obtain ⟨k', v'⟩ := e
    simp only [mapKeys, List.map_cons, List.nodup_cons] at hnd
    have ih' := ih hnd.2
    simp only [mapGet, List.mem_cons, Prod.mk.injEq]
    by_cases hk : k' = k
    · subst hk
      simp only [if_true, Option.some.injEq, true_and]
      constructor
      · intro h; exact Or.inl h.symm
      · rintro (h | h)
        · exact h.symm
        · exact absurd (List.mem_map.mpr ⟨(k', v), h, rfl⟩) hnd.1
    · simp only [hk, if_false]
      rw [ih']
      constructor
      · intro h; exact Or.inr h
      · rintro (h | h)
        · exact absurd h.1.symm hk
        · exact h

/-- The entry read from a well-formed pool is an entry of the pool, stored
under the identifier of its request. -/
theorem PoolWF_mapGet (pool : List (RequestID × requestRef)) (hwf : PoolWF pool)
    (id : RequestID) (ref : requestRef) :
    mapGet pool id = some ref ↔ ref ∈ mapValues pool ∧ ref.req.ID = id := by
  rw [mapGet_eq_some_iff pool hwf.1]
  constructor
  · intro h
    exact ⟨List.mem_map.mpr ⟨(id, ref), h, rfl⟩, hwf.2 (id, ref) h⟩
  · rintro ⟨hmem, hid⟩
    obtain ⟨e, he, rfl⟩ := List.mem_map.mp hmem
    have := hwf.2 e he
    rw [← hid, this]
    exact he

/-- A request found ready in a well-formed pool carries the identifier it was
looked up by. -/
theorem readyInPool_ID (m : mempool) (hwf : PoolWF m.pool) (now : Time) (id : RequestID)
    (r : Request) (h : readyInPool m now id = some r) : r.ID = id := by
  unfold readyInPool at h
  cases hget : mapGet m.pool id with
  | none => rw [hget] at h; simp at h
  | some ref =>
    rw [hget] at h
    simp only at h
    split at h
    · simp only [Option.some.injEq] at h
      rw [← h]
      exact ((PoolWF_mapGet m.pool hwf id ref).mp hget).2
    · simp at h

/-- Two well-formed pools that hold the same requests find the same ready
request under every identifier, whatever their admission timestamps and
enumeration orders. -/
theorem readyInPool_same (m1 m2 : mempool) (now : Time)
    (hwf1 : PoolWF m1.pool) (hwf2 : PoolWF m2.pool)
    (hsame : ∀ r : Request, r ∈ (mapValues m1.pool).map requestRef.req ↔
      r ∈ (mapValues m2.pool).map requestRef.req) (id : RequestID) :
    readyInPool m1 now id = readyInPool m2 now id := by
  have key : ∀ (ma mb : mempool), PoolWF ma.pool → PoolWF mb.pool →
      (∀ r : Request, r ∈ (mapValues ma.pool).map requestRef.req →
        r ∈ (mapValues mb.pool).map requestRef.req) →
      ∀ refa, mapGet ma.pool id = some refa →
        ∃ refb, mapGet mb.pool id = some refb ∧ refb.req = refa.req := by
    intro ma mb hwa hwb hsub refa hget
    obtain ⟨hmem, hid⟩ := (PoolWF_mapGet ma.pool hwa id refa).mp hget
    obtain ⟨refb, hb, hbreq⟩ := List.mem_map.mp (hsub refa.req (List.mem_map.mpr ⟨refa, hmem, rfl⟩))
    exact ⟨refb, (PoolWF_mapGet mb.pool hwb id refb).mpr ⟨hb, by rw [hbreq]; exact hid⟩, hbreq⟩
  unfold readyInPool
  cases h1 : mapGet m1.pool id with
  | some ref1 =>
    obtain ⟨ref2, h2, hreq⟩ := key m1 m2 hwf1 hwf2 (fun r => (hsame r).mp) ref1 h1
    rw [h2]
    simp only [isRequestReady_congr ref2 ref1 now hreq, hreq]
  | none =>
    cases h2 : mapGet m2.pool id with
    | none => rfl
    | some ref2 =>
      obtain ⟨ref1, h1', _⟩ := key m2 m1 hwf2 hwf1 (fun r => (hsame r).mpr) ref2 h2
      rw [h1] at h1'
      simp at h1'

/-- C7. The request list returned by `ReadyFromIDs(now, ids...)` is the
sub-sequence of `ids`, in the given order, whose pool entries are ready at
`now`; two pools that hold the same requests return identical lists for the
same `ids` and `now`, whatever their admission timestamps and enumeration
orders. -/
theorem ReadyFromIDs_requests_deterministic (m1 m2 : mempool) (now : Time)
    (ids : List RequestID) (hwf1 : PoolWF m1.pool) (hwf2 : PoolWF m2.pool)
    (hsame : ∀ r : Request, r ∈ (mapValues m1.pool).map requestRef.req ↔
      r ∈ (mapValues m2.pool).map requestRef.req) :
    (ReadyFromIDs m1 now ids).1 = ids.filterMap (readyInPool m1 now) ∧
    (ReadyFromIDs m1 now ids).1.map Request.ID =
      ids.filter (fun id => (readyInPool m1 now id).isSome) ∧
    (ReadyFromIDs m1 now ids).1 = (ReadyFromIDs m2 now ids).1 := by
  have hreq : ∀ m : mempool, (ReadyFromIDs m now ids).1 = ids.filterMap (readyInPool m now) := by
    intro m
    unfold ReadyFromIDs
    simp only [readyFromIDsLoop_requests, List.nil_append]
  refine ⟨hreq m1, ?_, ?_⟩
  · rw [hreq m1]
    clear hreq
    induction ids with
    | nil => rfl
    | cons id rest ih =>
      rw [List.filterMap_cons, List.filter_cons]
      cases h : readyInPool m1 now id with
      | none => simpa using ih
      | some r =>
        simp only [Option.isSome_some, if_true, List.map_cons, ih]
        rw [readyInPool_ID m1 hwf1 now id r h]
  · rw [hreq m1, hreq m2]
    apply List.filterMap_congr
    intro id _
    exact readyInPool_same m1 m2 now hwf1 hwf2 hsame id

/-- The statement C7 at two replicas that admitted the same two requests at
different times, for a batch that names an absent request between them. -/
theorem ReadyFromIDs_requests_deterministic_witness :
    (ReadyFromIDs replicaExampleA 10 [[2], [9], [1]]).1 =
      [offLedgerExample [2] true, offLedgerExample [1] true] ∧
    (ReadyFromIDs replicaExampleA 10 [[2], [9], [1]]).1 =
      (ReadyFromIDs replicaExampleB 10 [[2], [9], [1]]).1 :=
  ⟨by decide,
   (ReadyFromIDs_requests_deterministic replicaExampleA replicaExampleB 10 [[2], [9], [1]]
      (by decide) (by decide) (fun _ => Iff.rfl)).2.2⟩

/-! ## Receiving requests -/

/-- Writing the same entry twice is writing it once. -/
theorem mapSet_mapSet {β : Type} (l : List (RequestID × β)) (k : RequestID) (v : β) :
    mapSet (mapSet l k v) k v = mapSet l k v := by
  induction l with
  | nil => simp [mapSet]
  | cons e rest ih =>
    obtain ⟨k', v'⟩ := e
    by_cases hk : k' = k
    · simp [mapSet, hk]
    · simp [mapSet, hk, ih]

/-- C8, as stated, fails: on the empty mempool the second `ReceiveRequest` of
the same request returns true again and increments `InBufCounter` again. -/
theorem ReceiveRequest_twice_counts_twice :
    (ReceiveRequest (ReceiveRequest New (offLedgerExample [1] false)).1
        (offLedgerExample [1] false)).2 = true ∧
    (ReceiveRequest New (offLedgerExample [1] false)).1.inBufCounter = 1 ∧
    (ReceiveRequest (ReceiveRequest New (offLedgerExample [1] false)).1
        (offLedgerExample [1] false)).1.inBufCounter = 2 := by
  decide

/-- C8, amended. A second `ReceiveRequest(r)` issued right after a first one
leaves the in-buffer, `OutBufCounter` and the pool with its counters exactly as
they were after the first call.  It returns false and leaves `InBufCounter`
unchanged when the identifier of `r` is in the pool; otherwise it returns true
again and increments `InBufCounter` once more. -/
theorem ReceiveRequest_twice (m : mempool) (r : Request) :
    (ReceiveRequest (ReceiveRequest m r).1 r).1.inBuffer = (ReceiveRequest m r).1.inBuffer ∧
    (ReceiveRequest (ReceiveRequest m r).1 r).1.outBufCounter =
      (ReceiveRequest m r).1.outBufCounter ∧
    (ReceiveRequest (ReceiveRequest m r).1 r).1.pool = (ReceiveRequest m r).1.pool ∧
    (ReceiveRequest (ReceiveRequest m r).1 r).1.inPoolCounter =
      (ReceiveRequest m r).1.inPoolCounter ∧
    (ReceiveRequest (ReceiveRequest m r).1 r).1.outPoolCounter =
      (ReceiveRequest m r).1.outPoolCounter ∧
    (HasRequest m r.ID = true →
      (ReceiveRequest (ReceiveRequest m r).1 r).2 = false ∧
      (ReceiveRequest (ReceiveRequest m r).1 r).1 = (ReceiveRequest m r).1) ∧
    (HasRequest m r.ID = false →
      (ReceiveRequest (ReceiveRequest m r).1 r).2 = true ∧
      (ReceiveRequest (ReceiveRequest m r).1 r).1.inBufCounter =
        (ReceiveRequest m r).1.inBufCounter + 1) := by
  unfold ReceiveRequest addToInBuffer
  by_cases h : HasRequest m r.ID = true
  · simp [h]
  · have h' : HasRequest { m with inBuffer := mapSet m.inBuffer r.ID r,
                                  inBufCounter := m.inBufCounter + 1 } r.ID = false := by
      simpa [HasRequest] using h
    simp only [Bool.not_eq_true] at h
    simp [h, h', mapSet_mapSet]

/-- The amended statement C8 at the empty mempool, where the request is not in
the pool. -/
theorem ReceiveRequest_twice_witness :
    (ReceiveRequest (ReceiveRequest New (offLedgerExample [1] false)).1
        (offLedgerExample [1] false)).2 = true ∧
    (ReceiveRequest (ReceiveRequest New (offLedgerExample [1] false)).1
        (offLedgerExample [1] false)).1.inBufCounter =
      (ReceiveRequest New (offLedgerExample [1] false)).1.inBufCounter + 1 :=
  (ReceiveRequest_twice New (offLedgerExample [1] false)).2.2.2.2.2.2 (by decide)

/-- A call of `addToInBuffer` leaves the pool and its counters as they are. -/
theorem addToInBuffer_pool (m : mempool) (req : Request) :
    (addToInBuffer m req).1.pool = m.pool ∧
    (addToInBuffer m req).1.inPoolCounter = m.inPoolCounter ∧
    (addToInBuffer m req).1.outPoolCounter = m.outPoolCounter := by
  unfold addToInBuffer
  split <;> simp

/-- C9. `ReceiveRequest` and `ReceiveRequests` have no effect on the pool: the
pool map, with its entries and their admission timestamps, `InPoolCounter` and
`OutPoolCounter` are unchanged by the call, for every state and every input. -/
theorem ReceiveRequest_frame (m : mempool) (req : Request) (reqs : List Request) :
    ((ReceiveRequest m req).1.pool = m.pool ∧
      (ReceiveRequest m req).1.inPoolCounter = m.inPoolCounter ∧
      (ReceiveRequest m req).1.outPoolCounter = m.outPoolCounter) ∧
    ((ReceiveRequests m reqs).pool = m.pool ∧
      (ReceiveRequests m reqs).inPoolCounter = m.inPoolCounter ∧
      (ReceiveRequests m reqs).outPoolCounter = m.outPoolCounter) := by
  refine ⟨addToInBuffer_pool m req, ?_⟩
  unfold ReceiveRequests
  induction reqs generalizing m with
  | nil => simp
  | cons r rest ih =>
    rw [List.foldl_cons]
    obtain ⟨h1, h2, h3⟩ := ih (addToInBuffer m r).1
    obtain ⟨g1, g2, g3⟩ := addToInBuffer_pool m r
    exact ⟨h1.trans g1, h2.trans g2, h3.trans g3⟩

/-! ## Admission into the pool -/

/-- A key is read from a map exactly when it is one of its keys. -/
theorem mapGet_isSome_iff {β : Type} (l : List (RequestID × β)) (k : RequestID) :
    (mapGet l k).isSome = true ↔ k ∈ mapKeys l := by
  induction l with
  | nil => simp [mapGet, mapKeys]
  | cons e rest ih =>
    obtain ⟨k', v'⟩ := e
    by_cases hk : k' = k
    · simp [mapGet, mapKeys, hk]
    · have hk' : ¬ k = k' := fun h => hk h.symm
      simp only [mapGet, hk, if_false, ih]
      simp [mapKeys, hk']

/-- Writing under a key that the map does not have adds one entry. -/
theorem mapSet_new {β : Type} (l : List (RequestID × β)) (k : RequestID) (v : β)
    (h : k ∉ mapKeys l) : mapSet l k v = l ++ [(k, v)] := by
  induction l with
  | nil => rfl
  | cons e rest ih =>
    obtain ⟨k', v'⟩ := e
    simp only [mapKeys, List.map_cons, List.mem_cons, not_or] at h
    have hk : ¬ k' = k := fun h' => h.1 h'.symm
    simp only [mapSet, hk, if_false, List.cons_append]
    rw [ih h.2]

/-- Every entry of a map after a write was there before or is the one
written. -/
theorem mem_mapSet {β : Type} (l : List (RequestID × β)) (k : RequestID) (v : β)
    (e : RequestID × β) (h : e ∈ mapSet l k v) : e ∈ l ∨ e = (k, v) := by
  induction l with
  | nil => simpa [mapSet] using h
  | cons e' rest ih =>
    obtain ⟨k', v'⟩ := e'
    by_cases hk : k' = k
    · simp only [mapSet, hk, if_true, List.mem_cons] at h
      rcases h with h | h
      · exact Or.inr h
      · exact Or.inl (List.mem_cons_of_mem _ h)
    · simp only [mapSet, hk, if_false, List.mem_cons] at h
      rcases h with h | h
      · exact Or.inl (by rw [h]; exact List.mem_cons_self _ _)
      · rcases ih h with h' | h'
        · exact Or.inl (List.mem_cons_of_mem _ h')
        · exact Or.inr h'

/-- Resolving the arguments of a request keeps its identifier. -/
theorem SolidifyArgs_ID (req : Request) (resolvable : Bool) :
    (SolidifyArgs req resolvable).ID = req.ID := by
  cases req <;> rfl

/-- The invariant of admission still holds when more identifiers count as
received. -/
theorem admittedOnce_mono (received received' : List RequestID) (m : mempool)
    (hsub : ∀ id ∈ received, id ∈ received') (h : admittedOnce received m) :
    admittedOnce received' m :=
  ⟨h.1, h.2.1, fun id hid => hsub id (h.2.2.1 id hid), fun req hreq => hsub _ (h.2.2.2 req hreq)⟩

/-- The method `addToPool` keeps the invariant of admission. -/
theorem addToPool_admittedOnce (received : List RequestID) (m : mempool) (req : Request)
    (env : AddEnv) (hreq : req.ID ∈ received) (h : admittedOnce received m) :
    admittedOnce received (addToPool m req env).1 := by
  unfold addToPool
  cases env.isRequestProcessed with
  | none => exact h
  | some processed =>
    cases processed with
    | true => exact h
    | false =>
      simp only
      by_cases hin : (mapGet m.pool req.ID).isSome = true
      · rw [if_pos hin]; exact h
      · rw [if_neg hin]
        simp only
        have hnot : req.ID ∉ mapKeys m.pool := fun hk => hin ((mapGet_isSome_iff _ _).mpr hk)
        obtain ⟨⟨hnd, hkey⟩, hcnt, hpool, hbuf⟩ := h
        refine ⟨⟨?_, ?_⟩, ?_, ?_, hbuf⟩
        · simp only [mapSet_new _ _ _ hnot, mapKeys, List.map_append, List.map_cons, List.map_nil]
          refine List.Nodup.append hnd (List.nodup_singleton _) ?_
          intro x hx hx'
          rw [List.mem_singleton.mp hx'] at hx
          exact hnot hx
        · intro e he
          rcases mem_mapSet _ _ _ e he with he' | he'
          · exact hkey e he'
          · rw [he']; exact SolidifyArgs_ID req env.resolvable
        · simp only [mapSet_new _ _ _ hnot, List.length_append, List.length_singleton]
          rw [hcnt]; push_cast; rfl
        · intro id hid
          simp only [mapSet_new _ _ _ hnot, mapKeys, List.map_append, List.map_cons, List.map_nil,
            List.mem_append, List.mem_singleton] at hid
          rcases hid with hid | hid
          · exact hpool id hid
          · rw [hid]; exact hreq

/-- The method `removeFromInBuffer` keeps the invariant of admission. -/
theorem removeFromInBuffer_admittedOnce (received : List RequestID) (m : mempool)
    (req : Request) (h : admittedOnce received m) :
    admittedOnce received (removeFromInBuffer m req) := by
  unfold removeFromInBuffer
  split
  · obtain ⟨hwf, hcnt, hpool, hbuf⟩ := h
    refine ⟨hwf, hcnt, hpool, ?_⟩
    intro r hr
    apply hbuf r
    simp only [mapValues, mapDelete, List.mem_map, List.mem_filter] at hr ⊢
    obtain ⟨e, ⟨he, _⟩, her⟩ := hr
    exact ⟨e, he, her⟩
  · exact h

/-- The body of the loop of the move task keeps the invariant of admission. -/
theorem moveRequest_admittedOnce (received : List RequestID) (env : RequestID → AddEnv)
    (m : mempool) (req : Request) (hreq : req.ID ∈ received) (h : admittedOnce received m) :
    admittedOnce received (moveRequest env m req) := by
  unfold moveRequest
  have h1 := addToPool_admittedOnce received m req (env req.ID) hreq h
  split
  · exact removeFromInBuffer_admittedOnce received _ req h1
  · exact h1

/-- An iteration of the move task keeps the invariant of admission. -/
theorem moveToPoolIteration_admittedOnce (received : List RequestID)
    (env : RequestID → AddEnv) (m : mempool) (h : admittedOnce received m) :
    admittedOnce received (moveToPoolIteration m env) := by
  unfold moveToPoolIteration
  have hbuf : ∀ req ∈ takeInBuffer m, req.ID ∈ received := h.2.2.2
  generalize takeInBuffer m = buf at hbuf
  induction buf generalizing m with
  | nil => exact h
  | cons req rest ih =>
    rw [List.foldl_cons]
    exact ih (moveRequest env m req)
      (moveRequest_admittedOnce received env m req (hbuf req (List.mem_cons_self _ _)) h)
      (fun r hr => hbuf r (List.mem_cons_of_mem _ hr))

/-- The method `ReceiveRequest` keeps the invariant of admission, its request
counting as received. -/
theorem ReceiveRequest_admittedOnce (received : List RequestID) (m : mempool) (req : Request)
    (h : admittedOnce received m) :
    admittedOnce (received ++ [req.ID]) (ReceiveRequest m req).1 := by
  have h' := admittedOnce_mono received (received ++ [req.ID]) m
    (fun id hid => List.mem_append_left _ hid) h
  unfold ReceiveRequest addToInBuffer
  split
  · exact h'
  · obtain ⟨hwf, hcnt, hpool, hbuf⟩ := h'
    refine ⟨hwf, hcnt, hpool, ?_⟩
    intro r hr
    simp only [mapValues, List.mem_map] at hr
    obtain ⟨e, he, her⟩ := hr
    rcases mem_mapSet _ _ _ e he with he' | he'
    · exact hbuf r (List.mem_map.mpr ⟨e, he', her⟩)
    · rw [← her, he']
      simp

/-- The invariant of admission holds along every sequence of calls. -/
theorem runOps_admittedOnce (ops : List Op) (received : List RequestID) (m : mempool)
    (h : admittedOnce received m) :
    admittedOnce (received ++ receivedIDs ops) (runOps m ops) := by
  induction ops generalizing received m with
  | nil => simpa [runOps, receivedIDs] using h
  | cons op rest ih =>
    cases op with
    | receive req =>
      have h1 := ih (received ++ [req.ID]) (ReceiveRequest m req).1
        (ReceiveRequest_admittedOnce received m req h)
      simpa [runOps, receivedIDs, applyOp] using h1
    | move env =>
      have h1 := ih received (moveToPoolIteration m env)
        (moveToPoolIteration_admittedOnce received env m h)
      simpa [runOps, receivedIDs, applyOp] using h1

/-- C10. After every sequence of `ReceiveRequest` calls interleaved with
iterations of the move task, starting from the empty mempool, the pool holds
each identifier at most once, every identifier in it was received, and
`InPoolCounter` is the number of pool entries: one per distinct identifier
admitted, hence at most the number of distinct identifiers received, however
often each was received. -/
theorem admitted_at_most_once (ops : List Op) :
    PoolWF (runOps New ops).pool ∧
    (runOps New ops).inPoolCounter = (mapKeys (runOps New ops).pool).length ∧
    (∀ id ∈ mapKeys (runOps New ops).pool, id ∈ receivedIDs ops) ∧
    (runOps New ops).inPoolCounter ≤ ((receivedIDs ops).dedup).length := by
  have hnew : admittedOnce [] New := by
    refine ⟨⟨?_, ?_⟩, ?_, ?_, ?_⟩ <;> simp [New, mapKeys, mapValues]
  have h := runOps_admittedOnce ops [] New hnew
  rw [List.nil_append] at h
  obtain ⟨hwf, hcnt, hpool, _⟩ := h
  have hlen : (mapKeys (runOps New ops).pool).length = (runOps New ops).pool.length := by
    simp [mapKeys]
  refine ⟨hwf, by rw [hcnt, hlen], hpool, ?_⟩
  rw [hcnt, ← hlen]
  have hsub : mapKeys (runOps New ops).pool ⊆ (receivedIDs ops).dedup :=
    fun id hid => List.mem_dedup.mpr (hpool id hid)
  exact_mod_cast (List.subperm_of_subset hwf.1 hsub).length_le

/-! ## Evicting from the pool: `RemoveRequests` -/

/-- The keys of a map after a deletion. -/
theorem mapKeys_mapDelete {β : Type} (l : List (RequestID × β)) (k : RequestID) :
    mapKeys (mapDelete l k) = (mapKeys l).filter (fun k' => decide (k' ≠ k)) := by
  unfold mapDelete mapKeys
  rw [List.filter_map]
  rfl

/-- Deleting a key that the map does not have changes nothing. -/
theorem mapDelete_absent {β : Type} (l : List (RequestID × β)) (k : RequestID)
    (h : k ∉ mapKeys l) : mapDelete l k = l := by
  unfold mapDelete
  rw [List.filter_eq_self]
  intro e he
  have : e.1 ≠ k := fun hk => h (hk ▸ List.mem_map.mpr ⟨e, he, rfl⟩)
  simpa using this

/-- A deleted key is no longer read. -/
theorem mapGet_mapDelete_self {β : Type} (l : List (RequestID × β)) (k : RequestID) :
    mapGet (mapDelete l k) k = none := by
  cases h : mapGet (mapDelete l k) k with
  | none => rfl
  | some v =>
    have h1 : (mapGet (mapDelete l k) k).isSome = true := by rw [h]; rfl
    have h2 := (mapGet_isSome_iff _ _).mp h1
    rw [mapKeys_mapDelete] at h2
    simp at h2

/-- In a map with distinct keys, deleting a key it has removes one entry. -/
theorem length_mapDelete {β : Type} (l : List (RequestID × β)) (k : RequestID)
    (hnd : (mapKeys l).Nodup) (h : k ∈ mapKeys l) :
    (mapDelete l k).length + 1 = l.length := by
  induction l with
  | nil => simp [mapKeys] at h
  | cons e rest ih =>
    simp only [mapKeys, List.map_cons, List.nodup_cons, List.mem_cons] at hnd h
    by_cases hk : e.1 = k
    · have hrest : k ∉ mapKeys rest := by rw [← hk]; exact hnd.1
      have h1 : mapDelete (e :: rest) k = mapDelete rest k := by
        simp [mapDelete, List.filter_cons, hk]
      rw [h1, mapDelete_absent rest k hrest]
      rfl
    · have hin : k ∈ mapKeys rest := by
        rcases h with h | h
        · exact absurd h.symm hk
        · exact h
      have h1 : mapDelete (e :: rest) k = e :: mapDelete rest k := by
        simp [mapDelete, List.filter_cons, hk]
      rw [h1, List.length_cons, List.length_cons, ih hnd.2 hin]

/-- The body of the loop of `RemoveRequests` changes nothing when the identifier
is not in the pool. -/
theorem removeRequest_absent (m : mempool) (rid : RequestID) (h : HasRequest m rid = false) :
    removeRequest m rid = m := by
  unfold removeRequest
  unfold HasRequest at h
  simp [h]

/-- The body of the loop of `RemoveRequests` deletes the identifier from the
pool and touches neither the in-buffer nor the other three counters. -/
theorem removeRequest_fields (m : mempool) (rid : RequestID) :
    (removeRequest m rid).pool = mapDelete m.pool rid ∧
    (removeRequest m rid).inBuffer = m.inBuffer ∧
    (removeRequest m rid).inBufCounter = m.inBufCounter ∧
    (removeRequest m rid).outBufCounter = m.outBufCounter ∧
    (removeRequest m rid).inPoolCounter = m.inPoolCounter := by
  unfold removeRequest
  by_cases h : (mapGet m.pool rid).isSome = true
  · simp [h]
  · have hk : rid ∉ mapKeys m.pool := fun hk => h ((mapGet_isSome_iff _ _).mpr hk)
    simp [h, mapDelete_absent _ _ hk]

/-- After the body of the loop of `RemoveRequests` the identifier is not in the
pool. -/
theorem HasRequest_removeRequest_self (m : mempool) (rid : RequestID) :
    HasRequest (removeRequest m rid) rid = false := by
  unfold HasRequest
  rw [(removeRequest_fields m rid).1, mapGet_mapDelete_self]
  rfl

/-- The body of the loop of `RemoveRequests` does not bring an identifier into
the pool. -/
theorem HasRequest_removeRequest_absent (m : mempool) (rid id : RequestID)
    (h : HasRequest m id = false) : HasRequest (removeRequest m rid) id = false := by
  unfold HasRequest at *
  rw [(removeRequest_fields m rid).1]
  cases hg : (mapGet (mapDelete m.pool rid) id).isSome with
  | false => rfl
  | true =>
    have h1 := (mapGet_isSome_iff _ _).mp hg
    rw [mapKeys_mapDelete] at h1
    have h2 := (List.mem_filter.mp h1).1
    rw [(mapGet_isSome_iff _ _).mpr h2] at h
    exact absurd h (by simp)

/-- After `RemoveRequests(ids...)` none of the identifiers is in the pool. -/
theorem HasRequest_RemoveRequests (m : mempool) (ids : List RequestID) (id : RequestID)
    (h : id ∈ ids ∨ HasRequest m id = false) : HasRequest (RemoveRequests m ids) id = false := by
  unfold RemoveRequests
  induction ids generalizing m with
  | nil =>
    rcases h with h | h
    · simp at h
    · exact h
  | cons rid rest ih =>
    rw [List.foldl_cons]
    apply ih
    rcases h with h | h
    · rcases List.mem_cons.mp h with h1 | h1
      · right; rw [h1]; exact HasRequest_removeRequest_self m rid
      · left; exact h1
    · right; exact HasRequest_removeRequest_absent m rid id h

/-- The method `RemoveRequests` changes nothing when none of the identifiers is
in the pool. -/
theorem RemoveRequests_absent (m : mempool) (ids : List RequestID)
    (h : ∀ id ∈ ids, HasRequest m id = false) : RemoveRequests m ids = m := by
  unfold RemoveRequests
  induction ids with
  | nil => rfl
  | cons rid rest ih =>
    rw [List.foldl_cons, removeRequest_absent m rid (h rid (List.mem_cons_self _ _))]
    exact ih (fun id hid => h id (List.mem_cons_of_mem _ hid))

/-- C13. `RemoveRequests` is idempotent and is defined on every input: for an
identifier absent from the pool, `RemoveRequests(id)` leaves the pool, the
in-buffer and all four counters unchanged; and for every list `ids`, applying
`RemoveRequests(ids...)` twice yields the same state as applying it once. -/
theorem RemoveRequests_idempotent (m : mempool) (ids : List RequestID) :
    (∀ id : RequestID, HasRequest m id = false → RemoveRequests m [id] = m) ∧
    RemoveRequests (RemoveRequests m ids) ids = RemoveRequests m ids := by
  constructor
  · intro id hid
    exact RemoveRequests_absent m [id] (by
      intro x hx
      rw [List.mem_singleton.mp hx]
      exact hid)
  · exact RemoveRequests_absent (RemoveRequests m ids) ids
      (fun id hid => HasRequest_RemoveRequests m ids id (Or.inl hid))

/-- The statement C13 at a pool from which an absent identifier and a list with
a repeated identifier are removed. -/
theorem RemoveRequests_idempotent_witness :
    RemoveRequests rotationExample [[7]] = rotationExample ∧
    RemoveRequests (RemoveRequests rotationExample [[1], [7], [1]]) [[1], [7], [1]] =
      RemoveRequests rotationExample [[1], [7], [1]] :=
  ⟨(RemoveRequests_idempotent rotationExample [[1], [7], [1]]).1 [7] (by decide),
   (RemoveRequests_idempotent rotationExample [[1], [7], [1]]).2⟩

/-! ## The steps of the operations -/

/-- The four outcomes of `addToPool`: the read fails; the request is processed
or already in the pool; or it is admitted as a new entry. -/
theorem addToPool_cases (m : mempool) (req : Request) (env : AddEnv) :
    (env.isRequestProcessed = none ∧ addToPool m req env = (m, false)) ∨
    (env.isRequestProcessed = some true ∧ addToPool m req env = (m, true)) ∨
    (env.isRequestProcessed = some false ∧ HasRequest m req.ID = true ∧
      addToPool m req env = (m, true)) ∨
    (env.isRequestProcessed = some false ∧ HasRequest m req.ID = false ∧
      addToPool m req env =
        ({ m with inPoolCounter := m.inPoolCounter + 1,
                  pool := m.pool ++ [(req.ID, { req := SolidifyArgs req env.resolvable,
                                                whenReceived := env.nowis })] }, true)) := by
  unfold addToPool HasRequest
  cases hp : env.isRequestProcessed with
  | none => left; exact ⟨rfl, rfl⟩
  | some processed =>
    cases processed with
    | true => right; left; exact ⟨rfl, rfl⟩
    | false =>
      right; right
      by_cases hin : (mapGet m.pool req.ID).isSome = true
      · left; exact ⟨rfl, hin, by simp [hin]⟩
      · right
        have hnot : req.ID ∉ mapKeys m.pool := fun hk => hin ((mapGet_isSome_iff _ _).mpr hk)
        refine ⟨rfl, by simpa using hin, ?_⟩
        simp only
        rw [if_neg hin, mapSet_new _ _ _ hnot]

/-- The method `removeFromInBuffer` deletes the identifier from the in-buffer and
touches neither the pool nor the other three counters. -/
theorem removeFromInBuffer_fields (m : mempool) (req : Request) :
    (removeFromInBuffer m req).inBuffer = mapDelete m.inBuffer req.ID ∧
    (removeFromInBuffer m req).pool = m.pool ∧
    (removeFromInBuffer m req).inBufCounter = m.inBufCounter ∧
    (removeFromInBuffer m req).inPoolCounter = m.inPoolCounter ∧
    (removeFromInBuffer m req).outPoolCounter = m.outPoolCounter := by
  unfold removeFromInBuffer
  by_cases h : (mapGet m.inBuffer req.ID).isSome = true
  · simp [h]
  · have hk : req.ID ∉ mapKeys m.inBuffer := fun hk => h ((mapGet_isSome_iff _ _).mpr hk)
    simp [h, mapDelete_absent _ _ hk]

/-- The three outcomes of a step of the move task: nothing happens; the request
leaves the in-buffer; or it is admitted as a new pool entry and leaves the
in-buffer. -/
theorem moveRequest_cases (env : RequestID → AddEnv) (m : mempool) (req : Request) :
    ((env req.ID).isRequestProcessed = none ∧ moveRequest env m req = m) ∨
    (((env req.ID).isRequestProcessed = some true ∨
        ((env req.ID).isRequestProcessed = some false ∧ HasRequest m req.ID = true)) ∧
      moveRequest env m req = removeFromInBuffer m req) ∨
    ((env req.ID).isRequestProcessed = some false ∧ HasRequest m req.ID = false ∧
      moveRequest env m req = removeFromInBuffer
        { m with inPoolCounter := m.inPoolCounter + 1,
                 pool := m.pool ++ [(req.ID, { req := SolidifyArgs req (env req.ID).resolvable,
                                               whenReceived := (env req.ID).nowis })] } req) := by
  unfold moveRequest
  rcases addToPool_cases m req (env req.ID) with ⟨h1, h2⟩ | ⟨h1, h2⟩ | ⟨h1, h2, h3⟩ | ⟨h1, h2, h3⟩
  · left; rw [h2]; exact ⟨h1, by simp⟩
  · right; left; rw [h2]; exact ⟨Or.inl h1, by simp⟩
  · right; left; rw [h3]; exact ⟨Or.inr ⟨h1, h2⟩, by simp⟩
  · right; right; rw [h3]; exact ⟨h1, h2, by simp⟩

/-- A property kept by every step of a loop holds after the loop. -/
theorem foldl_preserves {α : Type} (P : mempool → Prop) (f : mempool → α → mempool)
    (hf : ∀ m x, P m → P (f m x)) (l : List α) (m : mempool) (h : P m) : P (l.foldl f m) := by
  induction l generalizing m with
  | nil => exact h
  | cons x rest ih => exact ih (f m x) (hf m x h)

/-- A property of the state that `addToInBuffer`, a step of the move task, the
body of `RemoveRequests` and the solidification task keep is kept by every
operation. -/
theorem applyCall_preserves (P : mempool → Prop)
    (hrecv : ∀ m req, P m → P (addToInBuffer m req).1)
    (hmove : ∀ m req env, P m → P (moveRequest env m req))
    (hrem : ∀ m rid, P m → P (removeRequest m rid))
    (hsol : ∀ m resolvable, P m → P (doSolidifyRequests m resolvable))
    (m : mempool) (call : Call) (h : P m) : P (applyCall m call) := by
  cases call with
  | receive req => exact hrecv m req h
  | receiveMany reqs =>
    exact foldl_preserves P (fun acc req => (addToInBuffer acc req).1) hrecv reqs m h
  | moveOne req env => exact hmove m req (fun _ => env) h
  | moveAll env =>
    exact foldl_preserves P (moveRequest env) (fun m x => hmove m x env) _ m h
  | remove reqs => exact foldl_preserves P removeRequest hrem reqs m h
  | readyNow nowis => exact foldl_preserves P removeRequest hrem _ m h
  | readyFromIDs nowis reqIDs => exact foldl_preserves P removeRequest hrem _ m h
  | solidify resolvable => exact hsol m resolvable h

/-- A property kept by every operation holds after every sequence of
operations. -/
theorem runCalls_preserves (P : mempool → Prop)
    (hstep : ∀ m call, P m → P (applyCall m call))
    (m : mempool) (calls : List Call) (h : P m) : P (runCalls m calls) :=
  foldl_preserves P applyCall hstep calls m h

/-! ## The pool counters -/

/-- An identifier is in the pool exactly when it is a key of the pool map. -/
theorem HasRequest_iff (m : mempool) (id : RequestID) :
    HasRequest m id = true ↔ id ∈ mapKeys m.pool :=
  mapGet_isSome_iff m.pool id

/-- An identifier is absent from the pool exactly when it is no key of the pool
map. -/
theorem HasRequest_false_iff (m : mempool) (id : RequestID) :
    HasRequest m id = false ↔ id ∉ mapKeys m.pool := by
  rw [← HasRequest_iff]
  simp

/-- A step of the move task keeps the pool keys distinct and the pool counters
balanced. -/
theorem moveRequest_balanced (m : mempool) (req : Request) (env : RequestID → AddEnv)
    (h : (mapKeys m.pool).Nodup ∧ balanced m) :
    (mapKeys (moveRequest env m req).pool).Nodup ∧ balanced (moveRequest env m req) := by
  obtain ⟨hnd, hbal⟩ := h
  unfold balanced at *
  rcases moveRequest_cases env m req with ⟨_, h1⟩ | ⟨_, h1⟩ | ⟨_, hnot, h1⟩
  · rw [h1]; exact ⟨hnd, hbal⟩
  · obtain ⟨_, hp, _, hi, ho⟩ := removeFromInBuffer_fields m req
    rw [h1, hp, hi, ho]; exact ⟨hnd, hbal⟩
  · obtain ⟨_, hp, _, hi, ho⟩ := removeFromInBuffer_fields
      { m with inPoolCounter := m.inPoolCounter + 1,
               pool := m.pool ++ [(req.ID, { req := SolidifyArgs req (env req.ID).resolvable,
                                             whenReceived := (env req.ID).nowis })] } req
    rw [h1, hp, hi, ho]
    have hk := (HasRequest_false_iff m req.ID).mp hnot
    constructor
    · simp only [mapKeys, List.map_append, List.map_cons, List.map_nil]
      refine List.Nodup.append hnd (List.nodup_singleton _) ?_
      intro x hx hx'
      rw [List.mem_singleton.mp hx'] at hx
      exact hk hx
    · simp only [List.length_append, List.length_singleton]
      push_cast
      linarith

/-- The body of the loop of `RemoveRequests` keeps the pool keys distinct and
the pool counters balanced. -/
theorem removeRequest_balanced (m : mempool) (rid : RequestID)
    (h : (mapKeys m.pool).Nodup ∧ balanced m) :
    (mapKeys (removeRequest m rid).pool).Nodup ∧ balanced (removeRequest m rid) := by
  obtain ⟨hnd, hbal⟩ := h
  by_cases hin : HasRequest m rid = true
  · have hk := (HasRequest_iff m rid).mp hin
    have hlen := length_mapDelete m.pool rid hnd hk
    unfold HasRequest at hin
    unfold balanced at *
    unfold removeRequest
    simp only [hin, if_true]
    constructor
    · rw [mapKeys_mapDelete]
      exact hnd.filter _
    · have : (m.pool.length : Int) = (mapDelete m.pool rid).length + 1 := by
        exact_mod_cast hlen.symm
      linarith
  · rw [removeRequest_absent m rid (by simpa using hin)]
    exact ⟨hnd, hbal⟩

/-- The solidification task keeps the keys of the pool. -/
theorem doSolidifyRequests_keys (m : mempool) (resolvable : RequestID → Bool) :
    mapKeys (doSolidifyRequests m resolvable).pool = mapKeys m.pool := by
  unfold doSolidifyRequests mapKeys
  simp only [List.map_map]
  apply List.map_congr_left
  intro e _
  rfl

/-- Every operation keeps the pool keys distinct and the pool counters
balanced. -/
theorem applyCall_balanced (m : mempool) (call : Call)
    (h : (mapKeys m.pool).Nodup ∧ balanced m) :
    (mapKeys (applyCall m call).pool).Nodup ∧ balanced (applyCall m call) := by
  refine applyCall_preserves (fun m => (mapKeys m.pool).Nodup ∧ balanced m)
    ?_ moveRequest_balanced removeRequest_balanced ?_ m call h
  · intro m req hm
    obtain ⟨hp, hi, ho⟩ := addToInBuffer_pool m req
    unfold balanced at *
    rw [hp, hi, ho]; exact hm
  · intro m resolvable hm
    refine ⟨by rw [doSolidifyRequests_keys]; exact hm.1, ?_⟩
    have := hm.2
    unfold balanced at *
    simpa [doSolidifyRequests] using this

/-- C11. `InPoolCounter − OutPoolCounter` is the number of pool entries in the
initial state, the equation is preserved by every operation (`ReceiveRequest`
and `ReceiveRequests`, a step and an iteration of the move task,
`RemoveRequests` with any list, `ReadyNow` and `ReadyFromIDs` with the removals
they schedule, the solidification task) on a pool map, whose keys are distinct,
and so it holds after every sequence of operations. -/
theorem pool_counters_balanced (m : mempool) (call : Call) (calls : List Call)
    (hnd : (mapKeys m.pool).Nodup)
    (hbal : m.inPoolCounter - m.outPoolCounter = m.pool.length) :
    New.inPoolCounter - New.outPoolCounter = New.pool.length ∧
    (applyCall m call).inPoolCounter - (applyCall m call).outPoolCounter =
      (applyCall m call).pool.length ∧
    (mapKeys (applyCall m call).pool).Nodup ∧
    (runCalls New calls).inPoolCounter - (runCalls New calls).outPoolCounter =
      (runCalls New calls).pool.length := by
  have hnew : (mapKeys New.pool).Nodup ∧ balanced New := by
    constructor
    · simp [New, mapKeys]
    · simp [balanced, New]
  have hstep := applyCall_balanced m call ⟨hnd, hbal⟩
  have hrun := runCalls_preserves (fun m => (mapKeys m.pool).Nodup ∧ balanced m)
    applyCall_balanced New calls hnew
  exact ⟨hnew.2, hstep.2, hstep.1, hrun.2⟩

/-- The statement C11 at a pool of three entries from which a list with a
repeated and an absent identifier is removed. -/
theorem pool_counters_balanced_witness :
    (applyCall rotationExample (.remove [[1], [7], [1]])).inPoolCounter -
        (applyCall rotationExample (.remove [[1], [7], [1]])).outPoolCounter =
      (applyCall rotationExample (.remove [[1], [7], [1]])).pool.length :=
  (pool_counters_balanced rotationExample (.remove [[1], [7], [1]]) []
    (by decide) (by decide)).2.1

/-! ## The in-buffer and the pool are exclusive -/

/-- Every key of a map after a write was a key before or is the key written. -/
theorem mem_mapKeys_mapSet {β : Type} (l : List (RequestID × β)) (k : RequestID) (v : β)
    (id : RequestID) (h : id ∈ mapKeys (mapSet l k v)) : id ∈ mapKeys l ∨ id = k := by
  obtain ⟨e, he, hid⟩ := List.mem_map.mp h
  rcases mem_mapSet l k v e he with he' | he'
  · exact Or.inl (List.mem_map.mpr ⟨e, he', hid⟩)
  · right; rw [← hid, he']

/-- Every key of a map after a deletion was a key before and is not the key
deleted. -/
theorem mem_mapKeys_mapDelete {β : Type} (l : List (RequestID × β)) (k id : RequestID)
    (h : id ∈ mapKeys (mapDelete l k)) : id ∈ mapKeys l ∧ id ≠ k := by
  rw [mapKeys_mapDelete] at h
  have h1 := List.mem_filter.mp h
  exact ⟨h1.1, by simpa using h1.2⟩

/-- The method `addToInBuffer` keeps the in-buffer and the pool exclusive. -/
theorem addToInBuffer_exclusive (m : mempool) (req : Request) (h : exclusive m) :
    exclusive (addToInBuffer m req).1 := by
  unfold addToInBuffer
  by_cases hin : HasRequest m req.ID = true
  · simp only [hin, if_true]; exact h
  · simp only [hin]
    intro id hid
    rcases mem_mapKeys_mapSet _ _ _ id hid with h1 | h1
    · exact h id h1
    · rw [h1]
      exact (HasRequest_false_iff m req.ID).mp (by simpa using hin)

/-- A step of the move task keeps the in-buffer and the pool exclusive. -/
theorem moveRequest_exclusive (m : mempool) (req : Request) (env : RequestID → AddEnv)
    (h : exclusive m) : exclusive (moveRequest env m req) := by
  rcases moveRequest_cases env m req with ⟨_, h1⟩ | ⟨_, h1⟩ | ⟨_, _, h1⟩
  · rw [h1]; exact h
  · obtain ⟨hb, hp, _⟩ := removeFromInBuffer_fields m req
    rw [h1]
    intro id hid
    rw [hb] at hid
    rw [hp]
    exact h id (mem_mapKeys_mapDelete _ _ _ hid).1
  · obtain ⟨hb, hp, _⟩ := removeFromInBuffer_fields
      { m with inPoolCounter := m.inPoolCounter + 1,
               pool := m.pool ++ [(req.ID, { req := SolidifyArgs req (env req.ID).resolvable,
                                             whenReceived := (env req.ID).nowis })] } req
    rw [h1]
    intro id hid
    rw [hb] at hid
    rw [hp]
    obtain ⟨hid1, hid2⟩ := mem_mapKeys_mapDelete _ _ _ hid
    simp only [mapKeys, List.map_append, List.map_cons, List.map_nil, List.mem_append,
      List.mem_singleton, not_or]
    exact ⟨h id hid1, hid2⟩

/-- The body of the loop of `RemoveRequests` keeps the in-buffer and the pool
exclusive. -/
theorem removeRequest_exclusive (m : mempool) (rid : RequestID) (h : exclusive m) :
    exclusive (removeRequest m rid) := by
  obtain ⟨hp, hb, _⟩ := removeRequest_fields m rid
  intro id hid
  rw [hb] at hid
  rw [hp]
  intro hpool
  exact h id hid (mem_mapKeys_mapDelete _ _ _ hpool).1

/-- Every operation keeps the in-buffer and the pool exclusive. -/
theorem applyCall_exclusive (m : mempool) (call : Call) (h : exclusive m) :
    exclusive (applyCall m call) := by
  refine applyCall_preserves exclusive addToInBuffer_exclusive moveRequest_exclusive
    removeRequest_exclusive ?_ m call h
  intro m resolvable hm id hid
  rw [doSolidifyRequests_keys]
  exact hm id hid

/-- The method `addToInBuffer` is its two critical sections, one after the
other. -/
theorem addToInBuffer_sections (m : mempool) (req : Request) :
    addToInBuffer m req =
      if addToInBufferCheck m req then (m, false) else (addToInBufferWrite m req, true) :=
  rfl

/-- A schedule of whole operations is the sequence of these operations. -/
theorem runSteps_whole (calls : List Call) (s : Shared) :
    (runSteps s (calls.map Step.whole)).state = runCalls s.state calls := by
  induction calls generalizing s with
  | nil => rfl
  | cons call rest ih =>
    simp only [List.map_cons, runSteps, List.foldl_cons, runCalls]
    exact ih _

/-- The method `addToPool` keeps the pool keys distinct and the pool counters
balanced. -/
theorem addToPool_balanced (m : mempool) (req : Request) (env : AddEnv)
    (h : (mapKeys m.pool).Nodup ∧ balanced m) :
    (mapKeys (addToPool m req env).1.pool).Nodup ∧ balanced (addToPool m req env).1 := by
  obtain ⟨hnd, hbal⟩ := h
  unfold balanced at *
  rcases addToPool_cases m req env with ⟨_, h1⟩ | ⟨_, h1⟩ | ⟨_, _, h1⟩ | ⟨_, hnot, h1⟩
  · rw [h1]; exact ⟨hnd, hbal⟩
  · rw [h1]; exact ⟨hnd, hbal⟩
  · rw [h1]; exact ⟨hnd, hbal⟩
  · rw [h1]
    have hk := (HasRequest_false_iff m req.ID).mp hnot
    constructor
    · simp only [mapKeys, List.map_append, List.map_cons, List.map_nil]
      refine List.Nodup.append hnd (List.nodup_singleton _) ?_
      intro x hx hx2
      rw [List.mem_singleton.mp hx2] at hx
      exact hk hx
    · simp only [List.length_append, List.length_singleton]
      push_cast
      linarith

/-- Every step of a schedule, a critical section or a whole operation, keeps the
pool keys distinct and the pool counters balanced. -/
theorem applyStep_balanced (s : Shared) (step : Step)
    (h : (mapKeys s.state.pool).Nodup ∧ balanced s.state) :
    (mapKeys (applyStep s step).state.pool).Nodup ∧ balanced (applyStep s step).state := by
  cases step with
  | check req =>
    simp only [applyStep]
    split <;> exact h
  | write req =>
    simp only [applyStep]
    split
    · exact h
    · exact h
  | offer req env =>
    simp only [applyStep]
    split <;> exact addToPool_balanced s.state req env h
  | evict req =>
    simp only [applyStep]
    split
    · obtain ⟨_, hp, _, hi, ho⟩ := removeFromInBuffer_fields s.state req
      unfold balanced at *
      simp only
      rw [hp, hi, ho]
      exact h
    · exact h
  | whole call => exact applyCall_balanced s.state call h

/-- After every schedule from the empty mempool the pool keys are distinct and
the pool counters balanced. -/
theorem runSteps_balanced (steps : List Step) :
    (mapKeys (runSteps NewShared steps).state.pool).Nodup ∧
      balanced (runSteps NewShared steps).state := by
  have hgen : ∀ (l : List Step) (s : Shared),
      ((mapKeys s.state.pool).Nodup ∧ balanced s.state) →
      (mapKeys (runSteps s l).state.pool).Nodup ∧ balanced (runSteps s l).state := by
    intro l
    induction l with
    | nil => intro s hs; exact hs
    | cons step rest ih =>
      intro s hs
      exact ih (applyStep s step) (applyStep_balanced s step hs)
  exact hgen steps NewShared ⟨by simp [NewShared, New, mapKeys], by simp [balanced, NewShared, New]⟩

/-- C12, as stated, fails when operations overlap: a second `ReceiveRequest` of a
request tests the pool before a step of the move task admits the request and
writes the in-buffer after that step has taken the request out of it.  When
every call has completed, the identifier is both in the in-buffer and in the
pool. -/
theorem overlap_not_exclusive :
    (runSteps NewShared overlapSchedule).receiving = [] ∧
    (runSteps NewShared overlapSchedule).moving = [] ∧
    [1] ∈ mapKeys (runSteps NewShared overlapSchedule).state.inBuffer ∧
    [1] ∈ mapKeys (runSteps NewShared overlapSchedule).state.pool := by
  decide

/-- C12. When the operations do not overlap (`ReceiveRequest`, a step of the
move task for a request, that is `addToPool` followed by `removeFromInBuffer`
when it returns true, `RemoveRequests`, `ReadyNow`, `ReadyFromIDs`, and also
`ReceiveRequests`, a whole iteration of the move task and the solidification
task, each run to completion before the next starts), then after every completed
operation, starting from an empty mempool, no identifier is both in the
in-buffer and in the pool.  In every schedule, overlapping or not, the write of
`addToInBuffer` keeps the two maps exclusive when the pool still lacks the
request, no request is admitted into the pool twice (the pool keys are distinct
and the pool counters balanced), and a step of the move task for a request of
the pool whose read of the state succeeds takes the request out of the in-buffer
and leaves the pool and its counters as they are. -/
theorem in_buffer_pool_exclusive (calls : List Call) (steps : List Step) (id : RequestID)
    (m : mempool) (req : Request) (env : RequestID → AddEnv) :
    ¬ (id ∈ mapKeys (runSteps NewShared (calls.map Step.whole)).state.inBuffer ∧
        id ∈ mapKeys (runSteps NewShared (calls.map Step.whole)).state.pool) ∧
    ¬ (id ∈ mapKeys (runCalls New calls).inBuffer ∧ id ∈ mapKeys (runCalls New calls).pool) ∧
    (exclusive m → addToInBufferCheck m req = false → exclusive (addToInBufferWrite m req)) ∧
    (mapKeys (runSteps NewShared steps).state.pool).Nodup ∧
    (runSteps NewShared steps).state.inPoolCounter -
        (runSteps NewShared steps).state.outPoolCounter =
      (runSteps NewShared steps).state.pool.length ∧
    ((env req.ID).isRequestProcessed ≠ none → HasRequest m req.ID = true →
      req.ID ∉ mapKeys (moveRequest env m req).inBuffer ∧
      (moveRequest env m req).pool = m.pool ∧
      (moveRequest env m req).inPoolCounter = m.inPoolCounter ∧
      (moveRequest env m req).outPoolCounter = m.outPoolCounter) := by
  have hnew : exclusive New := by
    intro x hx
    simp [New, mapKeys] at hx
  have hseq : ¬ (id ∈ mapKeys (runCalls New calls).inBuffer ∧
      id ∈ mapKeys (runCalls New calls).pool) := by
    have h := runCalls_preserves exclusive applyCall_exclusive New calls hnew
    rintro ⟨h1, h2⟩
    exact h id h1 h2
  refine ⟨?_, hseq, ?_, (runSteps_balanced steps).1, (runSteps_balanced steps).2, ?_⟩
  · rw [runSteps_whole]
    exact hseq
  · intro hex hcheck
    have h := addToInBuffer_exclusive m req hex
    rw [addToInBuffer_sections, hcheck] at h
    exact h
  · intro hread hin
    rcases moveRequest_cases env m req with ⟨h0, _⟩ | ⟨_, h1⟩ | ⟨_, hnot, _⟩
    · exact absurd h0 hread
    · obtain ⟨hb, hp, _, hi, ho⟩ := removeFromInBuffer_fields m req
      rw [h1]
      refine ⟨?_, hp, hi, ho⟩
      rw [hb]
      intro hmem
      exact (mem_mapKeys_mapDelete _ _ _ hmem).2 rfl
    · rw [hin] at hnot
      exact absurd hnot (by simp)

/-- The statement C12 at the schedule in which a second `ReceiveRequest`
overlaps the admission: the next step of the move task for the request takes it
out of the in-buffer. -/
theorem in_buffer_pool_exclusive_witness :
    [1] ∉ mapKeys (moveRequest envNotProcessed (runSteps NewShared overlapSchedule).state
      (offLedgerExample [1] false)).inBuffer :=
  ((in_buffer_pool_exclusive [] [] [1] (runSteps NewShared overlapSchedule).state
    (offLedgerExample [1] false) envNotProcessed).2.2.2.2.2 (by decide) (by decide)).1

/-! ## Membership and lookup: `HasRequest`, `GetRequest` -/

/-- Every operation keeps each pool entry stored under the identifier of its
request. -/
theorem applyCall_keyed (m : mempool) (call : Call)
    (h : ∀ e ∈ m.pool, e.2.req.ID = e.1) : ∀ e ∈ (applyCall m call).pool, e.2.req.ID = e.1 := by
  refine applyCall_preserves (fun m => ∀ e ∈ m.pool, e.2.req.ID = e.1) ?_ ?_ ?_ ?_ m call h
  · intro m req hm
    rw [(addToInBuffer_pool m req).1]; exact hm
  · intro m req env hm
    rcases moveRequest_cases env m req with ⟨_, h1⟩ | ⟨_, h1⟩ | ⟨_, _, h1⟩
    · rw [h1]; exact hm
    · rw [h1, (removeFromInBuffer_fields m req).2.1]; exact hm
    · rw [h1, (removeFromInBuffer_fields _ req).2.1]
      intro e he
      rcases List.mem_append.mp he with he' | he'
      · exact hm e he'
      · rw [List.mem_singleton.mp he']
        exact SolidifyArgs_ID req _
  · intro m rid hm
    rw [(removeRequest_fields m rid).1]
    intro e he
    exact hm e (List.mem_filter.mp he).1
  · intro m resolvable hm e he
    unfold doSolidifyRequests at he
    obtain ⟨e0, he0, rfl⟩ := List.mem_map.mp he
    simp only
    rw [SolidifyArgs_ID]
    exact hm e0 he0

/-- The pool is well formed after every sequence of operations from the empty
mempool. -/
theorem runCalls_PoolWF (calls : List Call) : PoolWF (runCalls New calls).pool := by
  constructor
  · exact (runCalls_preserves (fun m => (mapKeys m.pool).Nodup ∧ balanced m)
      applyCall_balanced New calls
      ⟨by simp [New, mapKeys], by simp [balanced, New]⟩).1
  · exact runCalls_preserves (fun m => ∀ e ∈ m.pool, e.2.req.ID = e.1)
      applyCall_keyed New calls (by simp [New])

/-- C19. In every mempool state reached from the empty one, `GetRequest(id)`
returns a request `r` with `r.ID() = id` exactly when `HasRequest(id)` is true,
and returns nil otherwise; both are defined for every identifier; and an
identifier that is in the in-buffer is reported by neither. -/
theorem HasRequest_GetRequest (calls : List Call) (id : RequestID) :
    (HasRequest (runCalls New calls) id = true ↔
      ∃ r : Request, GetRequest (runCalls New calls) id = some r ∧ r.ID = id) ∧
    (HasRequest (runCalls New calls) id = true ↔ id ∈ mapKeys (runCalls New calls).pool) ∧
    (HasRequest (runCalls New calls) id = false → GetRequest (runCalls New calls) id = none) ∧
    (id ∈ mapKeys (runCalls New calls).inBuffer →
      HasRequest (runCalls New calls) id = false ∧ GetRequest (runCalls New calls) id = none) := by
  have hwf := runCalls_PoolWF calls
  have hex := runCalls_preserves exclusive applyCall_exclusive New calls
    (by intro x hx; simp [New, mapKeys] at hx)
  have hnone : HasRequest (runCalls New calls) id = false →
      GetRequest (runCalls New calls) id = none := by
    intro h
    unfold HasRequest at h
    unfold GetRequest
    cases hg : mapGet (runCalls New calls).pool id with
    | none => rfl
    | some ref => rw [hg] at h; simp at h
  refine ⟨?_, HasRequest_iff _ id, hnone, ?_⟩
  · unfold HasRequest GetRequest
    cases hg : mapGet (runCalls New calls).pool id with
    | none => simp
    | some ref =>
      simp only [Option.isSome_some, true_iff]
      exact ⟨ref.req, rfl, ((PoolWF_mapGet _ hwf id ref).mp hg).2⟩
  · intro hin
    have h1 := (HasRequest_false_iff _ id).mpr (hex id hin)
    exact ⟨h1, hnone h1⟩

/-! ## The move task -/

/-- A key written at the end of a map that did not have it is read back. -/
theorem mapGet_append_new {β : Type} (l : List (RequestID × β)) (k : RequestID) (v : β)
    (h : k ∉ mapKeys l) : mapGet (l ++ [(k, v)]) k = some v := by
  induction l with
  | nil => simp [mapGet]
  | cons e rest ih =>
    obtain ⟨k', v'⟩ := e
    simp only [mapKeys, List.map_cons, List.mem_cons, not_or] at h
    have hk : ¬ k' = k := fun h' => h.1 h'.symm
    simp only [List.cons_append, mapGet, hk, if_false]
    exact ih h.2

/-- The method `removeFromInBuffer` counts an eviction exactly when the
identifier is in the in-buffer. -/
theorem removeFromInBuffer_outBufCounter (m : mempool) (req : Request) :
    (removeFromInBuffer m req).outBufCounter =
      m.outBufCounter + (if (mapGet m.inBuffer req.ID).isSome then 1 else 0) := by
  unfold removeFromInBuffer
  by_cases h : (mapGet m.inBuffer req.ID).isSome = true <;> simp [h]

/-- A step of the move task that admits a request: the state it leaves. -/
theorem moveRequest_admits (env : RequestID → AddEnv) (m : mempool) (req : Request)
    (hok : (env req.ID).isRequestProcessed = some false) (hnot : HasRequest m req.ID = false) :
    (moveRequest env m req).pool =
      m.pool ++ [(req.ID, { req := SolidifyArgs req (env req.ID).resolvable,
                            whenReceived := (env req.ID).nowis })] ∧
    (moveRequest env m req).inPoolCounter = m.inPoolCounter + 1 ∧
    (moveRequest env m req).outPoolCounter = m.outPoolCounter ∧
    (moveRequest env m req).inBufCounter = m.inBufCounter ∧
    (moveRequest env m req).inBuffer = mapDelete m.inBuffer req.ID ∧
    (moveRequest env m req).outBufCounter =
      m.outBufCounter + (if (mapGet m.inBuffer req.ID).isSome then 1 else 0) := by
  rcases moveRequest_cases env m req with ⟨h0, _⟩ | ⟨h0, _⟩ | ⟨_, _, h1⟩
  · rw [hok] at h0; simp at h0
  · rcases h0 with h0 | ⟨_, h0⟩
    · rw [hok] at h0; simp at h0
    · rw [hnot] at h0; simp at h0
  · obtain ⟨hb, hp, hc, hi, ho⟩ := removeFromInBuffer_fields
      { m with inPoolCounter := m.inPoolCounter + 1,
               pool := m.pool ++ [(req.ID, { req := SolidifyArgs req (env req.ID).resolvable,
                                             whenReceived := (env req.ID).nowis })] } req
    rw [h1]
    exact ⟨hp, hi, ho, hc, hb, removeFromInBuffer_outBufCounter _ req⟩

/-- C17. Admission fails softly: when reading the 'already processed' state
fails for a request during a step of the move task, the step returns normally
and changes nothing, so the request stays in the in-buffer, is not added to the
pool, and all four counters are unchanged; a later step in which the read
succeeds and the request is not processed leaves it in the pool and out of the
in-buffer, admitting it with `InPoolCounter` growing by one when it was not in
the pool. -/
theorem admission_fails_softly (m : mempool) (req : Request) (env env' : RequestID → AddEnv)
    (herr : (env req.ID).isRequestProcessed = none)
    (hok : (env' req.ID).isRequestProcessed = some false) :
    moveRequest env m req = m ∧
    HasRequest (moveRequest env' (moveRequest env m req) req) req.ID = true ∧
    mapGet (moveRequest env' (moveRequest env m req) req).inBuffer req.ID = none ∧
    (HasRequest m req.ID = false →
      GetRequest (moveRequest env' (moveRequest env m req) req) req.ID =
        some (SolidifyArgs req (env' req.ID).resolvable) ∧
      (moveRequest env' (moveRequest env m req) req).inPoolCounter = m.inPoolCounter + 1) := by
  have hsame : moveRequest env m req = m := by
    rcases moveRequest_cases env m req with ⟨_, h1⟩ | ⟨h0, _⟩ | ⟨h0, _⟩
    · exact h1
    · rcases h0 with h0 | ⟨h0, _⟩ <;> (rw [herr] at h0; simp at h0)
    · rw [herr] at h0; simp at h0
  rw [hsame]
  refine ⟨rfl, ?_, ?_, ?_⟩
  · rcases moveRequest_cases env' m req with ⟨h0, _⟩ | ⟨h0, h1⟩ | ⟨_, hnot, _⟩
    · rw [hok] at h0; simp at h0
    · rcases h0 with h0 | ⟨_, h0⟩
      · rw [hok] at h0; simp at h0
      · unfold HasRequest at *
        rw [h1, (removeFromInBuffer_fields m req).2.1]; exact h0
    · unfold HasRequest
      rw [(moveRequest_admits env' m req hok hnot).1,
        mapGet_append_new _ _ _ ((HasRequest_false_iff m req.ID).mp hnot)]
      rfl
  · rcases moveRequest_cases env' m req with ⟨h0, _⟩ | ⟨_, h1⟩ | ⟨_, _, h1⟩
    · rw [hok] at h0; simp at h0
    · rw [h1, (removeFromInBuffer_fields m req).1, mapGet_mapDelete_self]
    · rw [h1, (removeFromInBuffer_fields _ req).1]
      exact mapGet_mapDelete_self _ _
  · intro hnot
    obtain ⟨hp, hi, _⟩ := moveRequest_admits env' m req hok hnot
    refine ⟨?_, hi⟩
    unfold GetRequest
    rw [hp, mapGet_append_new _ _ _ ((HasRequest_false_iff m req.ID).mp hnot)]

/-- The statement C17 at a mempool with one received request: the failing step
changes nothing and the next step admits the request. -/
theorem admission_fails_softly_witness :
    moveRequest envReadFails receivedExample (onLedgerExample [1] 0 false) = receivedExample ∧
    HasRequest (moveRequest envNotProcessed
      (moveRequest envReadFails receivedExample (onLedgerExample [1] 0 false))
      (onLedgerExample [1] 0 false)) [1] = true :=
  ⟨(admission_fails_softly receivedExample (onLedgerExample [1] 0 false)
      envReadFails envNotProcessed rfl rfl).1,
   (admission_fails_softly receivedExample (onLedgerExample [1] 0 false)
      envReadFails envNotProcessed rfl rfl).2.1⟩

/-- C18. For a request in the in-buffer: when it is reported as already
processed on-chain, a step of the move task evicts it from the in-buffer, with
`OutBufCounter` growing by one, and leaves the pool and its counters unchanged;
when it is not processed and not yet in the pool, the step adds it to the pool,
with `InPoolCounter` growing by one, and evicts it from the in-buffer. -/
theorem moveRequest_outcomes (m : mempool) (req : Request) (env : RequestID → AddEnv)
    (hin : (mapGet m.inBuffer req.ID).isSome = true) :
    ((env req.ID).isRequestProcessed = some true →
      mapGet (moveRequest env m req).inBuffer req.ID = none ∧
      (moveRequest env m req).outBufCounter = m.outBufCounter + 1 ∧
      (moveRequest env m req).pool = m.pool ∧
      (moveRequest env m req).inPoolCounter = m.inPoolCounter ∧
      (moveRequest env m req).outPoolCounter = m.outPoolCounter) ∧
    ((env req.ID).isRequestProcessed = some false → HasRequest m req.ID = false →
      HasRequest (moveRequest env m req) req.ID = true ∧
      GetRequest (moveRequest env m req) req.ID =
        some (SolidifyArgs req (env req.ID).resolvable) ∧
      (moveRequest env m req).pool =
        m.pool ++ [(req.ID, { req := SolidifyArgs req (env req.ID).resolvable,
                              whenReceived := (env req.ID).nowis })] ∧
      (moveRequest env m req).inPoolCounter = m.inPoolCounter + 1 ∧
      (moveRequest env m req).outPoolCounter = m.outPoolCounter ∧
      mapGet (moveRequest env m req).inBuffer req.ID = none ∧
      (moveRequest env m req).outBufCounter = m.outBufCounter + 1) := by
  constructor
  · intro hproc
    rcases moveRequest_cases env m req with ⟨h0, _⟩ | ⟨_, h1⟩ | ⟨h0, _⟩
    · rw [hproc] at h0; simp at h0
    · obtain ⟨hb, hp, _, hi, ho⟩ := removeFromInBuffer_fields m req
      rw [h1, hb, hp, hi, ho, removeFromInBuffer_outBufCounter, mapGet_mapDelete_self]
      simp [hin]
    · rw [hproc] at h0; simp at h0
  · intro hok hnot
    obtain ⟨hp, hi, ho, _, hb, hc⟩ := moveRequest_admits env m req hok hnot
    have hget := mapGet_append_new m.pool req.ID
      ({ req := SolidifyArgs req (env req.ID).resolvable,
         whenReceived := (env req.ID).nowis } : requestRef)
      ((HasRequest_false_iff m req.ID).mp hnot)
    refine ⟨?_, ?_, hp, hi, ho, ?_, ?_⟩
    · unfold HasRequest; rw [hp, hget]; rfl
    · unfold GetRequest; rw [hp, hget]
    · rw [hb]; exact mapGet_mapDelete_self _ _
    · rw [hc]; simp [hin]

/-- The statement C18 at a mempool with one received request that is reported
as processed, and at the same mempool when it is not. -/
theorem moveRequest_outcomes_witness :
    (moveRequest envProcessed receivedExample (onLedgerExample [1] 0 false)).outBufCounter =
      receivedExample.outBufCounter + 1 ∧
    (moveRequest envNotProcessed receivedExample (onLedgerExample [1] 0 false)).inPoolCounter =
      receivedExample.inPoolCounter + 1 :=
  ⟨((moveRequest_outcomes receivedExample (onLedgerExample [1] 0 false) envProcessed
      (by decide)).1 rfl).2.1,
   ((moveRequest_outcomes receivedExample (onLedgerExample [1] 0 false) envNotProcessed
      (by decide)).2 rfl (by decide)).2.2.2.1⟩

/-! ## Statistics: `Info` -/

/-- The loop of `Info` adds to `ReadyCounter` the number of ready entries and
leaves the other fields as they are. -/
theorem foldl_infoBody (now : Time) (l : List requestRef) (ret : MempoolInfo) :
    l.foldl (infoBody now) ret =
      { ret with ReadyCounter := ret.ReadyCounter +
          ((l.filter (fun ref => (isRequestReady ref now).1)).length : Int) } := by
  induction l generalizing ret with
  | nil => simp
  | cons ref rest ih =>
    rw [List.foldl_cons, ih]
    unfold infoBody
    by_cases h : (isRequestReady ref now).1 = true
    · simp only [h, if_true, List.filter_cons, List.length_cons]
      congr 1
      push_cast
      ring
    · simp [h, List.filter_cons]

/-- C20. `Info()` changes no state and reports `TotalPool` as the number of pool
entries, the four counters as they are, and `ReadyCounter` as the number of pool
entries that `isRequestReady` reports ready at the current time, so that
`0 ≤ ReadyCounter ≤ TotalPool`. -/
theorem Info_reports (m : mempool) (now : Time) :
    (Info m now).1 = m ∧
    (Info m now).2.TotalPool = m.pool.length ∧
    (Info m now).2.InPoolCounter = m.inPoolCounter ∧
    (Info m now).2.OutPoolCounter = m.outPoolCounter ∧
    (Info m now).2.InBufCounter = m.inBufCounter ∧
    (Info m now).2.OutBufCounter = m.outBufCounter ∧
    (Info m now).2.ReadyCounter =
      ((mapValues m.pool).filter (fun ref => (isRequestReady ref now).1)).length ∧
    0 ≤ (Info m now).2.ReadyCounter ∧
    (Info m now).2.ReadyCounter ≤ (Info m now).2.TotalPool := by
  unfold Info
  rw [foldl_infoBody]
  refine ⟨rfl, rfl, rfl, rfl, rfl, rfl, by simp, ?_, ?_⟩
  · simp
  · simp only [zero_add]
    have h1 : ((mapValues m.pool).filter (fun ref => (isRequestReady ref now).1)).length ≤
        (mapValues m.pool).length := List.length_filter_le _ _
    have h2 : (mapValues m.pool).length = m.pool.length := by simp [mapValues]
    rw [h2] at h1
    exact_mod_cast h1

/-! ## `ReadyNow` and the removals it schedules -/

/-- The pool after `RemoveRequests(ids...)`: the entries whose identifier is not
in `ids`. -/
theorem RemoveRequests_pool (m : mempool) (ids : List RequestID) :
    (RemoveRequests m ids).pool = m.pool.filter (fun e => decide (e.1 ∉ ids)) := by
  unfold RemoveRequests
  induction ids generalizing m with
  | nil => simp
  | cons rid rest ih =>
    rw [List.foldl_cons, ih, (removeRequest_fields m rid).1]
    unfold mapDelete
    rw [List.filter_filter]
    apply List.filter_congr
    intro e _
    by_cases h1 : e.1 = rid <;> by_cases h2 : e.1 ∈ rest <;> simp [h1, h2]

/-- The method `RemoveRequests` touches neither the in-buffer nor the other
three counters. -/
theorem RemoveRequests_fields (m : mempool) (ids : List RequestID) :
    (RemoveRequests m ids).inBuffer = m.inBuffer ∧
    (RemoveRequests m ids).inBufCounter = m.inBufCounter ∧
    (RemoveRequests m ids).outBufCounter = m.outBufCounter ∧
    (RemoveRequests m ids).inPoolCounter = m.inPoolCounter := by
  unfold RemoveRequests
  induction ids generalizing m with
  | nil => simp
  | cons rid rest ih =>
    rw [List.foldl_cons]
    obtain ⟨h1, h2, h3, h4⟩ := ih (removeRequest m rid)
    obtain ⟨_, g1, g2, g3, g4⟩ := removeRequest_fields m rid
    exact ⟨h1.trans g1, h2.trans g2, h3.trans g3, h4.trans g4⟩

/-- Removing distinct identifiers that are all in the pool counts one eviction
for each. -/
theorem RemoveRequests_outPoolCounter (m : mempool) (ids : List RequestID) (hnd : ids.Nodup)
    (hin : ∀ id ∈ ids, id ∈ mapKeys m.pool) :
    (RemoveRequests m ids).outPoolCounter = m.outPoolCounter + ids.length := by
  unfold RemoveRequests
  induction ids generalizing m with
  | nil => simp
  | cons rid rest ih =>
    rw [List.foldl_cons]
    have hrid : (mapGet m.pool rid).isSome = true :=
      (mapGet_isSome_iff _ _).mpr (hin rid (List.mem_cons_self _ _))
    have hstep : (removeRequest m rid).outPoolCounter = m.outPoolCounter + 1 := by
      unfold removeRequest; simp [hrid]
    have hnd' := List.nodup_cons.mp hnd
    rw [ih (removeRequest m rid) hnd'.2, hstep]
    · simp only [List.length_cons]; push_cast; ring
    · intro id hid
      rw [(removeRequest_fields m rid).1, mapKeys_mapDelete]
      refine List.mem_filter.mpr ⟨hin id (List.mem_cons_of_mem _ hid), ?_⟩
      have : id ≠ rid := fun h => hnd'.1 (h ▸ hid)
      simpa using this

/-- Reading a key from a map filtered on its keys, when the filter keeps the
key. -/
theorem mapGet_filter_keys {β : Type} (l : List (RequestID × β)) (p : RequestID → Bool)
    (k : RequestID) (hk : p k = true) : mapGet (l.filter (fun e => p e.1)) k = mapGet l k := by
  induction l with
  | nil => rfl
  | cons e rest ih =>
    obtain ⟨k', v'⟩ := e
    by_cases hkk : k' = k
    · subst hkk
      simp [List.filter_cons, hk, mapGet]
    · by_cases hp : p k' = true
      · simp [List.filter_cons, hp, mapGet, hkk, ih]
      · simp [List.filter_cons, hp, mapGet, hkk, ih]

/-- The identifiers that `ReadyNow` hands to the `RemoveRequests` goroutine:
those of the entries marked for removal, in enumeration order. -/
theorem ReadyNow_toRemove (m : mempool) (now : Time) :
    (ReadyNow m now).2 =
      ((mapValues m.pool).filter (fun ref => (isRequestReady ref now).2)).map
        (fun ref => ref.req.ID) := by
  have h : (readyNowLoop now m.pool).toRemove =
      ((mapValues m.pool).filter (fun ref => (isRequestReady ref now).2)).map
        (fun ref => ref.req.ID) := by
    unfold readyNowLoop
    rw [foldl_readyNowBody_toRemove]
    rfl
  unfold ReadyNow
  cases hst : (readyNowLoop now m.pool).oldestRotate <;> simp only [hst] <;> exact h

/-- Without a ready rotation request, `ReadyNow` returns the ready requests of
the pool, in enumeration order. -/
theorem ReadyNow_no_rotation (m : mempool) (now : Time)
    (h : ∀ ref ∈ mapValues m.pool, ¬ readyRotate now ref) :
    (ReadyNow m now).1 =
      ((mapValues m.pool).filter (fun ref => (isRequestReady ref now).1)).map requestRef.req := by
  unfold ReadyNow
  simp only [readyNowLoop_selects_none now m.pool h]
  unfold readyNowLoop
  rw [foldl_readyNowBody_ret]
  rfl

/-- In a well-formed pool the identifiers of the entries are the keys. -/
theorem PoolWF_values_ID (pool : List (RequestID × requestRef)) (hwf : PoolWF pool) :
    (mapValues pool).map (fun ref => ref.req.ID) = mapKeys pool := by
  unfold mapValues mapKeys
  rw [List.map_map]
  apply List.map_congr_left
  intro e he
  exact hwf.2 e he

/-- In a well-formed pool the identifiers that `ReadyNow` hands to
`RemoveRequests` are distinct keys of the pool. -/
theorem ReadyNow_toRemove_nodup (m : mempool) (now : Time) (hwf : PoolWF m.pool) :
    (ReadyNow m now).2.Nodup ∧ ∀ id ∈ (ReadyNow m now).2, id ∈ mapKeys m.pool := by
  rw [ReadyNow_toRemove]
  have hsub : (((mapValues m.pool).filter (fun ref => (isRequestReady ref now).2)).map
      (fun ref => ref.req.ID)).Sublist (mapKeys m.pool) := by
    rw [← PoolWF_values_ID m.pool hwf]
    exact (List.filter_sublist _).map _
  exact ⟨hsub.nodup hwf.1, fun id hid => hsub.subset hid⟩

/-- An on-ledger request with a fallback address whose deadline is not after
`now.Add` of ten minutes is not ready and is marked for removal. -/
theorem isRequestReady_expiring (ref : requestRef) (now : Time) (o : OnLedger)
    (hreq : ref.req = .onLedger o) (hfa : o.fallbackAddress ≠ none)
    (hdl : o.fallbackDeadline ≤ Add now FallbackDeadlineMinAllowedInterval) :
    isRequestReady ref now = (false, true) := by
  rw [isRequestReady_onLedger ref now o hreq]
  have h1 : o.fallbackAddress.isSome = true := by
    cases hx : o.fallbackAddress with
    | none => exact absurd hx hfa
    | some a => rfl
  rw [if_pos ⟨h1, hdl⟩]

/-- An on-ledger request with resolved arguments and no fallback option is
ready exactly when its timelock is zero or strictly before `now`, and is never
marked for removal. -/
theorem isRequestReady_timelocked (ref : requestRef) (now : Time) (o : OnLedger)
    (hreq : ref.req = .onLedger o) (hp : o.paramsReady = true) (hfa : o.fallbackAddress = none) :
    isRequestReady ref now = (decide (o.timeLock = 0 ∨ o.timeLock < now), false) := by
  rw [isRequestReady_onLedger ref now o hreq]
  simp [hfa, hp]

/-- C16, as stated, fails at an instant within ten minutes of the largest
second a `time.Time` holds: the fallback deadline of the request in the pool is
ten seconds and one nanosecond after `now`, inside the ten-minute guard, and
`ReadyNow(now)` returns the request, marks nothing for removal, and leaves the
request in the pool. -/
theorem ReadyNow_keeps_late :
    representable lateNow ∧
    lateRequest = .onLedger { id := [1], fallbackAddress := some [9],
                              fallbackDeadline := 9223372036854775807 * 1000000000 + 1,
                              paramsReady := true, timeLock := 0, isRotate := false } ∧
    { req := lateRequest, whenReceived := 1 } ∈ mapValues lateExample.pool ∧
    (9223372036854775807 * 1000000000 + 1 : Time) ≤ lateNow + 10 * (60 * 1000000000) ∧
    lateRequest ∈ (ReadyNow lateExample lateNow).1 ∧
    (ReadyNow lateExample lateNow).2 = [] ∧
    HasRequest (afterReadyNow lateExample lateNow) [1] = true ∧
    (afterReadyNow lateExample lateNow).outPoolCounter = lateExample.outPoolCounter := by
  decide

/-- C16. For every instant `now` at least ten minutes before the largest second
a `time.Time` holds and every on-ledger request in the pool whose fallback
deadline lies inside the ten-minute guard of `now` (a deadline not after `now`
plus ten minutes), `ReadyNow(now)` does not return it and hands its identifier
to `RemoveRequests`; once that removal has run the request is absent from the
pool and `OutPoolCounter` has grown by one for each request marked for removal.
Nothing is assumed about rotation requests. -/
theorem ReadyNow_removes_expiring (m : mempool) (now : Time) (ref : requestRef) (o : OnLedger)
    (hwf : PoolWF m.pool) (hmem : ref ∈ mapValues m.pool) (hreq : ref.req = .onLedger o)
    (hfa : o.fallbackAddress ≠ none) (hnow : intervalFits now)
    (hdl : o.fallbackDeadline ≤ now + 10 * (60 * 1000000000)) :
    isRequestReady ref now = (false, true) ∧
    ref.req ∉ (ReadyNow m now).1 ∧
    ref.req.ID ∈ (ReadyNow m now).2 ∧
    HasRequest (afterReadyNow m now) ref.req.ID = false ∧
    (afterReadyNow m now).outPoolCounter = m.outPoolCounter +
      ((mapValues m.pool).filter (fun r => (isRequestReady r now).2)).length := by
  have hadd : o.fallbackDeadline ≤ Add now FallbackDeadlineMinAllowedInterval := by
    rw [Add_interval_fits now hnow]
    have hlit : (now : Int) + 10 * (60 * 1000000000) = now + 600000000000 := by norm_num
    rw [hlit] at hdl
    exact hdl
  have hexp := isRequestReady_expiring ref now o hreq hfa hadd
  have hid : ref.req.ID ∈ (ReadyNow m now).2 := by
    rw [ReadyNow_toRemove]
    exact List.mem_map.mpr ⟨ref, List.mem_filter.mpr ⟨hmem, by rw [hexp]⟩, rfl⟩
  refine ⟨hexp, ?_, hid, ?_, ?_⟩
  · intro hin
    obtain ⟨ref', _, hreq', hrdy⟩ := ReadyNow_mem m now ref.req hin
    rw [isRequestReady_congr ref' ref now hreq', hexp] at hrdy
    simp at hrdy
  · exact HasRequest_RemoveRequests m _ _ (Or.inl hid)
  · obtain ⟨hnd, hin⟩ := ReadyNow_toRemove_nodup m now hwf
    unfold afterReadyNow
    rw [RemoveRequests_outPoolCounter m _ hnd hin, ReadyNow_toRemove, List.length_map]

/-- The statement C16 at a pool that holds a request expiring five minutes after
`now` and a rotation request, which is the result. -/
theorem ReadyNow_removes_expiring_witness :
    (ReadyNow expiringExample 1000).1 = [offLedgerExample [2] true] ∧
    HasRequest (afterReadyNow expiringExample 1000) [1] = false ∧
    (afterReadyNow expiringExample 1000).outPoolCounter = expiringExample.outPoolCounter + 1 :=
  ⟨by decide,
   (ReadyNow_removes_expiring expiringExample 1000
      { req := expiringRequest, whenReceived := 1 }
      { id := [1], fallbackAddress := some [9],
        fallbackDeadline := 1000 + 5 * (60 * 1000000000),
        paramsReady := true, timeLock := 0, isRotate := false }
      (by decide) (by decide) rfl (by decide) (by decide) (by decide)).2.2.2.1,
   (ReadyNow_removes_expiring expiringExample 1000
      { req := expiringRequest, whenReceived := 1 }
      { id := [1], fallbackAddress := some [9],
        fallbackDeadline := 1000 + 5 * (60 * 1000000000),
        paramsReady := true, timeLock := 0, isRotate := false }
      (by decide) (by decide) rfl (by decide) (by decide) (by decide)).2.2.2.2⟩

/-- C15. For every on-ledger request in the pool with resolved arguments, no
fallback option and a non-zero timelock `T`: `ReadyNow(t)` excludes it for every
`t` not after `T`, and it then stays in the pool when the removals that
`ReadyNow` schedules have run; `ReadyNow(t)` includes it for every `t` strictly
after `T` at which no other rotation request is ready. -/
theorem ReadyNow_timelock (m : mempool) (ref : requestRef) (o : OnLedger)
    (hwf : PoolWF m.pool) (hmem : ref ∈ mapValues m.pool) (hreq : ref.req = .onLedger o)
    (hp : o.paramsReady = true) (hfa : o.fallbackAddress = none) (hT : o.timeLock ≠ 0) :
    (∀ t : Time, t ≤ o.timeLock →
      ref.req ∉ (ReadyNow m t).1 ∧
      mapGet (afterReadyNow m t).pool ref.req.ID = some ref ∧
      HasRequest (afterReadyNow m t) ref.req.ID = true) ∧
    (∀ t : Time, o.timeLock < t →
      (∀ other ∈ mapValues m.pool, other ≠ ref → ¬ readyRotate t other) →
      ref.req ∈ (ReadyNow m t).1) := by
  constructor
  · intro t ht
    have hrdy := isRequestReady_timelocked ref t o hreq hp hfa
    have hnotready : (isRequestReady ref t).1 = false := by
      rw [hrdy]
      simp only [decide_eq_false_iff_not, not_or, not_lt]
      exact ⟨hT, ht⟩
    have hget : mapGet (afterReadyNow m t).pool ref.req.ID = some ref := by
      unfold afterReadyNow
      rw [RemoveRequests_pool]
      have hnotin : ref.req.ID ∉ (ReadyNow m t).2 := by
        rw [ReadyNow_toRemove]
        intro hin
        obtain ⟨r, hr, hrid⟩ := List.mem_map.mp hin
        obtain ⟨hrmem, hr2⟩ := List.mem_filter.mp hr
        have heq := PoolWF_eq_of_ID m.pool hwf r ref hrmem hmem hrid
        rw [heq, hrdy] at hr2
        simp at hr2
      rw [mapGet_filter_keys m.pool (fun k => decide (k ∉ (ReadyNow m t).2)) ref.req.ID
        (by simpa using hnotin)]
      exact (PoolWF_mapGet m.pool hwf ref.req.ID ref).mpr ⟨hmem, rfl⟩
    refine ⟨?_, hget, ?_⟩
    · intro hin
      obtain ⟨ref', _, hreq', hr'⟩ := ReadyNow_mem m t ref.req hin
      rw [isRequestReady_congr ref' ref t hreq', hnotready] at hr'
      simp at hr'
    · unfold HasRequest; rw [hget]; rfl
  · intro t ht hno
    have hrdy := isRequestReady_timelocked ref t o hreq hp hfa
    have hready : (isRequestReady ref t).1 = true := by
      rw [hrdy]
      simp only [decide_eq_true_eq]
      exact Or.inr ht
    by_cases hrot : readyRotate t ref
    · obtain ⟨w, hw, hwr, _, hsel⟩ := readyNowLoop_selects t m.pool ⟨ref, hmem, hrot⟩
      have hwref : w = ref := by
        by_contra hne
        exact hno w hw hne hwr
      unfold ReadyNow
      simp only [hsel, hwref, List.mem_singleton]
    · have hnone : ∀ other ∈ mapValues m.pool, ¬ readyRotate t other := by
        intro other hother
        by_cases heq : other = ref
        · rw [heq]; exact hrot
        · exact hno other hother heq
      rw [ReadyNow_no_rotation m t hnone]
      exact List.mem_map.mpr ⟨ref, List.mem_filter.mpr ⟨hmem, hready⟩, rfl⟩

/-- The statement C15 at a request timelocked until one hour after `now`: it is
excluded at `now`, stays in the pool, and is included 61 minutes after `now`. -/
theorem ReadyNow_timelock_witness :
    (onLedgerExample [1] (1000 + 60 * (60 * 1000000000)) false ∉
        (ReadyNow timelockExample 1000).1 ∧
      mapGet (afterReadyNow timelockExample 1000).pool [1] =
        some { req := onLedgerExample [1] (1000 + 60 * (60 * 1000000000)) false,
               whenReceived := 1 } ∧
      HasRequest (afterReadyNow timelockExample 1000) [1] = true) ∧
    onLedgerExample [1] (1000 + 60 * (60 * 1000000000)) false ∈
      (ReadyNow timelockExample (1000 + 61 * (60 * 1000000000))).1 :=
  ⟨(ReadyNow_timelock timelockExample
      { req := onLedgerExample [1] (1000 + 60 * (60 * 1000000000)) false, whenReceived := 1 }
      { id := [1], fallbackAddress := none, fallbackDeadline := 0, paramsReady := true,
        timeLock := 1000 + 60 * (60 * 1000000000), isRotate := false }
      (by decide) (by decide) rfl rfl rfl (by decide)).1 1000 (by decide),
   (ReadyNow_timelock timelockExample
      { req := onLedgerExample [1] (1000 + 60 * (60 * 1000000000)) false, whenReceived := 1 }
      { id := [1], fallbackAddress := none, fallbackDeadline := 0, paramsReady := true,
        timeLock := 1000 + 60 * (60 * 1000000000), isRotate := false }
      (by decide) (by decide) rfl rfl rfl (by decide)).2
      (1000 + 61 * (60 * 1000000000)) (by decide) (by decide)⟩

/-! ## Round trip: admit, propose, evict -/

/-- Resolving the arguments of a request does not change whether it is a
rotation request. -/
theorem SolidifyArgs_rotate (req : Request) (resolvable : Bool) :
    IsRotateStateControllerRequest (SolidifyArgs req resolvable) =
      IsRotateStateControllerRequest req := by
  cases req <;> rfl

/-- Requests with distinct identifiers, none of them in the in-buffer, received
by a mempool with an empty pool, are all added to the in-buffer, in order. -/
theorem ReceiveRequests_inBuffer (m : mempool) (reqs : List Request) (hpool : m.pool = [])
    (hnd : (reqs.map Request.ID).Nodup) (hnew : ∀ r ∈ reqs, r.ID ∉ mapKeys m.inBuffer) :
    (ReceiveRequests m reqs).inBuffer = m.inBuffer ++ reqs.map (fun r => (r.ID, r)) ∧
    (ReceiveRequests m reqs).pool = [] ∧
    (ReceiveRequests m reqs).inPoolCounter = m.inPoolCounter ∧
    (ReceiveRequests m reqs).outPoolCounter = m.outPoolCounter := by
  unfold ReceiveRequests
  induction reqs generalizing m with
  | nil => simp [hpool]
  | cons r rest ih =>
    rw [List.foldl_cons]
    have hhas : HasRequest m r.ID = false := by
      rw [HasRequest_false_iff, hpool]; simp [mapKeys]
    have hstep : (addToInBuffer m r).1 =
        { m with inBuffer := m.inBuffer ++ [(r.ID, r)], inBufCounter := m.inBufCounter + 1 } := by
      unfold addToInBuffer
      simp only [hhas]
      rw [mapSet_new _ _ _ (hnew r (List.mem_cons_self _ _))]
      simp
    rw [hstep]
    simp only [List.map_cons, List.nodup_cons] at hnd
    have h := ih { m with inBuffer := m.inBuffer ++ [(r.ID, r)],
                          inBufCounter := m.inBufCounter + 1 } hpool hnd.2 (by
      intro x hx
      simp only [mapKeys, List.map_append, List.map_cons, List.map_nil, List.mem_append,
        List.mem_singleton, not_or]
      refine ⟨hnew x (List.mem_cons_of_mem _ hx), ?_⟩
      intro hxr
      exact hnd.1 (List.mem_map.mpr ⟨x, hx, hxr⟩))
    simpa using h

/-- A run of steps of the move task over requests with distinct identifiers,
none of them in the pool and none reported as processed, admits them all, in
order. -/
theorem foldl_moveRequest_admits (env : RequestID → AddEnv) (l : List Request) (m : mempool)
    (hnd : (l.map Request.ID).Nodup) (hnew : ∀ r ∈ l, r.ID ∉ mapKeys m.pool)
    (henv : ∀ r ∈ l, (env r.ID).isRequestProcessed = some false) :
    (l.foldl (moveRequest env) m).pool = m.pool ++ l.map (fun r => (r.ID, admittedRef env r)) ∧
    (l.foldl (moveRequest env) m).inPoolCounter = m.inPoolCounter + l.length ∧
    (l.foldl (moveRequest env) m).outPoolCounter = m.outPoolCounter := by
  induction l generalizing m with
  | nil => simp
  | cons r rest ih =>
    rw [List.foldl_cons]
    simp only [List.map_cons, List.nodup_cons] at hnd
    obtain ⟨hp, hi, ho, _⟩ := moveRequest_admits env m r (henv r (List.mem_cons_self _ _))
      ((HasRequest_false_iff m r.ID).mpr (hnew r (List.mem_cons_self _ _)))
    obtain ⟨h1, h2, h3⟩ := ih (moveRequest env m r) hnd.2 (by
      intro x hx
      rw [hp]
      simp only [mapKeys, List.map_append, List.map_cons, List.map_nil, List.mem_append,
        List.mem_singleton, not_or]
      refine ⟨hnew x (List.mem_cons_of_mem _ hx), ?_⟩
      intro hxr
      exact hnd.1 (List.mem_map.mpr ⟨x, hx, hxr⟩))
      (fun x hx => henv x (List.mem_cons_of_mem _ hx))
    refine ⟨?_, ?_, ?_⟩
    · rw [h1, hp]; simp [admittedRef]
    · rw [h2, hi]; simp only [List.length_cons]; push_cast; ring
    · rw [h3, ho]

/-- The pool after distinct requests, none reported as processed, were received
by an empty mempool and moved: one entry for each, with `InPoolCounter` their
number. -/
theorem admitAll_pool (reqs : List Request) (env : RequestID → AddEnv)
    (hnd : (reqs.map Request.ID).Nodup)
    (henv : ∀ r ∈ reqs, (env r.ID).isRequestProcessed = some false) :
    (admitAll reqs env).pool = reqs.map (fun r => (r.ID, admittedRef env r)) ∧
    (admitAll reqs env).inPoolCounter = reqs.length ∧
    (admitAll reqs env).outPoolCounter = 0 := by
  obtain ⟨hb, hp, hi, ho⟩ := ReceiveRequests_inBuffer New reqs rfl hnd
    (by intro r _; simp [New, mapKeys])
  have htake : takeInBuffer (ReceiveRequests New reqs) = reqs := by
    unfold takeInBuffer mapValues
    rw [hb]
    simp only [New, List.nil_append, List.map_map]
    have hid : (Prod.snd ∘ fun r : Request => (r.ID, r)) = id := rfl
    rw [hid, List.map_id]
  unfold admitAll moveToPoolIteration
  rw [htake]
  obtain ⟨h1, h2, h3⟩ := foldl_moveRequest_admits env reqs (ReceiveRequests New reqs) hnd
    (by intro r _; rw [hp]; simp [mapKeys]) henv
  refine ⟨?_, ?_, ?_⟩
  · rw [h1, hp]; simp
  · rw [h2, hi]; simp [New]
  · rw [h3, ho]; rfl

/-- C14, as stated, fails: of two distinct requests without timelock admitted
into an empty pool, `ReadyNow` returns one only when the other is a rotation
request or has unresolved arguments, and removing what it returned leaves the
other in the pool. -/
theorem round_trip_not_all :
    (rotationBatch.map Request.ID).Nodup ∧
    (admitAll rotationBatch envNotProcessed).inPoolCounter = 2 ∧
    (ReadyNow (admitAll rotationBatch envNotProcessed) 10).1 = [offLedgerExample [2] true] ∧
    (RemoveRequests (admitAll rotationBatch envNotProcessed)
      ((ReadyNow (admitAll rotationBatch envNotProcessed) 10).1.map Request.ID)).pool ≠ [] ∧
    (RemoveRequests (admitAll rotationBatch envNotProcessed)
      ((ReadyNow (admitAll rotationBatch envNotProcessed) 10).1.map Request.ID)).outPoolCounter
      = 1 ∧
    (unresolvedBatch.map Request.ID).Nodup ∧
    (ReadyNow (admitAll unresolvedBatch envNotProcessed) 10).1 = [offLedgerExample [1] false] ∧
    (RemoveRequests (admitAll unresolvedBatch envNotProcessed)
      ((ReadyNow (admitAll unresolvedBatch envNotProcessed) 10).1.map Request.ID)).pool ≠ [] := by
  decide

/-- C14, amended. Round trip: when `N` requests with distinct identifiers, none
of them a rotation request and each ready at `now` once admitted, are admitted
into an empty pool, `ReadyNow(now)` returns all `N` of them, in the order in
which the pool is enumerated, and `RemoveRequests` applied to the identifiers
of that result, in any order, leaves the pool empty with
`OutPoolCounter = InPoolCounter = N`. -/
theorem round_trip (reqs : List Request) (env : RequestID → AddEnv) (now : Time)
    (hnd : (reqs.map Request.ID).Nodup)
    (henv : ∀ r ∈ reqs, (env r.ID).isRequestProcessed = some false)
    (hready : ∀ r ∈ reqs, (isRequestReady (admittedRef env r) now).1 = true)
    (hrot : ∀ r ∈ reqs, IsRotateStateControllerRequest r = false) :
    (ReadyNow (admitAll reqs env) now).1 =
      reqs.map (fun r => SolidifyArgs r (env r.ID).resolvable) ∧
    (ReadyNow (admitAll reqs env) now).1.length = reqs.length ∧
    (ReadyNow (admitAll reqs env) now).1.map Request.ID = reqs.map Request.ID ∧
    (∀ pool' : List (RequestID × requestRef), pool'.Perm (admitAll reqs env).pool →
      (ReadyNow { admitAll reqs env with pool := pool' } now).1.Perm
        (reqs.map (fun r => SolidifyArgs r (env r.ID).resolvable))) ∧
    (∀ ids : List RequestID, ids.Perm (reqs.map Request.ID) →
      (RemoveRequests (admitAll reqs env) ids).pool = [] ∧
      (RemoveRequests (admitAll reqs env) ids).outPoolCounter = reqs.length ∧
      (RemoveRequests (admitAll reqs env) ids).inPoolCounter = reqs.length) := by
  obtain ⟨hpool, hin, hout⟩ := admitAll_pool reqs env hnd henv
  have hvalues : mapValues (admitAll reqs env).pool = reqs.map (admittedRef env) := by
    unfold mapValues
    rw [hpool, List.map_map]
    rfl
  have hkeys : mapKeys (admitAll reqs env).pool = reqs.map Request.ID := by
    unfold mapKeys
    rw [hpool, List.map_map]
    rfl
  have hall : ∀ ref ∈ mapValues (admitAll reqs env).pool,
      (isRequestReady ref now).1 = true ∧ ¬ readyRotate now ref := by
    intro ref href
    rw [hvalues] at href
    obtain ⟨r, hr, rfl⟩ := List.mem_map.mp href
    refine ⟨hready r hr, ?_⟩
    intro hrr
    have h1 := hrr.2.2
    simp only [admittedRef, SolidifyArgs_rotate, hrot r hr] at h1
    exact absurd h1 (by simp)
  have hres : (ReadyNow (admitAll reqs env) now).1 =
      reqs.map (fun r => SolidifyArgs r (env r.ID).resolvable) := by
    rw [ReadyNow_no_rotation _ now (fun ref href => (hall ref href).2),
      List.filter_eq_self.mpr (fun ref href => (hall ref href).1), hvalues, List.map_map]
    rfl
  have hids : (ReadyNow (admitAll reqs env) now).1.map Request.ID = reqs.map Request.ID := by
    rw [hres, List.map_map]
    apply List.map_congr_left
    intro r _
    exact SolidifyArgs_ID r _
  refine ⟨hres, by rw [hres, List.length_map], hids, ?_, ?_⟩
  · intro pool' hperm
    have hvperm : (mapValues pool').Perm (mapValues (admitAll reqs env).pool) :=
      hperm.map Prod.snd
    have hnone : ∀ ref ∈ mapValues ({ admitAll reqs env with pool := pool' } : mempool).pool,
        ¬ readyRotate now ref :=
      fun ref href => (hall ref (hvperm.mem_iff.mp href)).2
    rw [ReadyNow_no_rotation _ now hnone, ← hres,
      ReadyNow_no_rotation _ now (fun ref href => (hall ref href).2)]
    exact (hvperm.filter _).map _
  · intro ids hperm
    have hidsnd : ids.Nodup := hperm.nodup_iff.mpr hnd
    have hidsin : ∀ id ∈ ids, id ∈ mapKeys (admitAll reqs env).pool := by
      intro id hid
      rw [hkeys]
      exact hperm.mem_iff.mp hid
    refine ⟨?_, ?_, ?_⟩
    · rw [RemoveRequests_pool, List.filter_eq_nil_iff]
      intro e he
      have hk : e.1 ∈ mapKeys (admitAll reqs env).pool := List.mem_map.mpr ⟨e, he, rfl⟩
      rw [hkeys] at hk
      simpa using hperm.mem_iff.mpr hk
    · rw [RemoveRequests_outPoolCounter _ ids hidsnd hidsin, hout, hperm.length_eq]
      simp
    · rw [(RemoveRequests_fields _ ids).2.2.2, hin]

/-- The amended statement C14 at two ordinary requests without timelock. -/
theorem round_trip_witness :
    (ReadyNow (admitAll ordinaryBatch envNotProcessed) 10).1 = ordinaryBatch ∧
    (RemoveRequests (admitAll ordinaryBatch envNotProcessed) [[2], [1]]).pool = [] ∧
    (RemoveRequests (admitAll ordinaryBatch envNotProcessed) [[2], [1]]).outPoolCounter = 2 ∧
    (RemoveRequests (admitAll ordinaryBatch envNotProcessed) [[2], [1]]).inPoolCounter = 2 :=
  ⟨(round_trip ordinaryBatch envNotProcessed 10 (by decide) (by decide) (by decide)
      (by decide)).1,
   (round_trip ordinaryBatch envNotProcessed 10 (by decide) (by decide) (by decide)
      (by decide)).2.2.2.2 [[2], [1]] (by decide)⟩

/-! ## The result of `ReceiveRequest` and the in-buffer counters -/

/-- A key that was written is read back. -/
theorem mapGet_mapSet_self {β : Type} (l : List (RequestID × β)) (k : RequestID) (v : β) :
    mapGet (mapSet l k v) k = some v := by
  induction l with
  | nil => simp [mapSet, mapGet]
  | cons e rest ih =>
    obtain ⟨k', v'⟩ := e
    by_cases hk : k' = k
    · simp [mapSet, mapGet, hk]
    · simp [mapSet, mapGet, hk, ih]

/-- A write adds at most one entry to a map. -/
theorem length_mapSet_le {β : Type} (l : List (RequestID × β)) (k : RequestID) (v : β) :
    (mapSet l k v).length ≤ l.length + 1 := by
  induction l with
  | nil => simp [mapSet]
  | cons e rest ih =>
    obtain ⟨k', v'⟩ := e
    by_cases hk : k' = k
    · simp [mapSet, hk]
    · simp only [mapSet, hk, if_false, List.length_cons]
      omega

/-- Deleting a key that a map has removes at least one entry. -/
theorem length_mapDelete_lt {β : Type} (l : List (RequestID × β)) (k : RequestID)
    (h : (mapGet l k).isSome = true) : (mapDelete l k).length + 1 ≤ l.length := by
  induction l with
  | nil => simp [mapGet] at h
  | cons e rest ih =>
    obtain ⟨k', v'⟩ := e
    have hle : (mapDelete rest k).length ≤ rest.length := List.length_filter_le _ _
    by_cases hk : k' = k
    · have h1 : mapDelete ((k', v') :: rest) k = mapDelete rest k := by
        simp [mapDelete, List.filter_cons, hk]
      rw [h1, List.length_cons]
      omega
    · have h1 : mapDelete ((k', v') :: rest) k = (k', v') :: mapDelete rest k := by
        simp [mapDelete, List.filter_cons, hk]
      have h2 : (mapGet rest k).isSome = true := by
        simpa [mapGet, hk] using h
      rw [h1, List.length_cons, List.length_cons]
      have := ih h2
      omega

/-- C26. `ReceiveRequest` returns whether the request has been added to the
in-buffer: it returns false exactly when the identifier of the request is
already in the pool, and then the whole state, with the in-buffer,
`InBufCounter` and `OutBufCounter`, is unchanged; when it returns true the
request is in the in-buffer afterwards, `InBufCounter` has grown by exactly one
and `OutBufCounter` is unchanged. -/
theorem ReceiveRequest_result (m : mempool) (r : Request) :
    ((ReceiveRequest m r).2 = false ↔ HasRequest m r.ID = true) ∧
    ((ReceiveRequest m r).2 = false → (ReceiveRequest m r).1 = m) ∧
    ((ReceiveRequest m r).2 = true →
      mapGet (ReceiveRequest m r).1.inBuffer r.ID = some r ∧
      (ReceiveRequest m r).1.inBufCounter = m.inBufCounter + 1 ∧
      (ReceiveRequest m r).1.outBufCounter = m.outBufCounter) := by
  unfold ReceiveRequest addToInBuffer
  by_cases h : HasRequest m r.ID = true
  · simp [h]
  · simp [h, mapGet_mapSet_self]

/-- The statement C26 at a request whose identifier is in the pool and at one
whose identifier is not. -/
theorem ReceiveRequest_result_witness :
    (ReceiveRequest rotationExample (offLedgerExample [1] true)).1 = rotationExample ∧
    (ReceiveRequest rotationExample (offLedgerExample [8] false)).1.inBufCounter =
      rotationExample.inBufCounter + 1 :=
  ⟨(ReceiveRequest_result rotationExample (offLedgerExample [1] true)).2.1 (by decide),
   ((ReceiveRequest_result rotationExample (offLedgerExample [8] false)).2.2 (by decide)).2.1⟩

/-- Every operation keeps the number of entries of the in-buffer at most
`InBufCounter − OutBufCounter`. -/
theorem applyCall_inBuffer_bound (m : mempool) (call : Call)
    (h : (m.inBuffer.length : Int) ≤ m.inBufCounter - m.outBufCounter) :
    ((applyCall m call).inBuffer.length : Int) ≤
      (applyCall m call).inBufCounter - (applyCall m call).outBufCounter := by
  have hremove : ∀ (m : mempool) (req : Request),
      (m.inBuffer.length : Int) ≤ m.inBufCounter - m.outBufCounter →
      ((removeFromInBuffer m req).inBuffer.length : Int) ≤
        (removeFromInBuffer m req).inBufCounter - (removeFromInBuffer m req).outBufCounter := by
    intro m req hm
    obtain ⟨hb, _, hc, _, _⟩ := removeFromInBuffer_fields m req
    rw [hb, hc, removeFromInBuffer_outBufCounter]
    by_cases hin : (mapGet m.inBuffer req.ID).isSome = true
    · have hlen := length_mapDelete_lt m.inBuffer req.ID hin
      simp only [hin, if_true]
      have : ((mapDelete m.inBuffer req.ID).length : Int) + 1 ≤ m.inBuffer.length := by
        exact_mod_cast hlen
      linarith
    · have hk : req.ID ∉ mapKeys m.inBuffer := fun hk => hin ((mapGet_isSome_iff _ _).mpr hk)
      rw [mapDelete_absent _ _ hk]
      simp only [hin]
      simpa using hm
  refine applyCall_preserves
    (fun m => (m.inBuffer.length : Int) ≤ m.inBufCounter - m.outBufCounter) ?_ ?_ ?_ ?_ m call h
  · intro m req hm
    unfold addToInBuffer
    by_cases hin : HasRequest m req.ID = true
    · simp only [hin, if_true]; exact hm
    · simp only [hin]
      have hlen := length_mapSet_le m.inBuffer req.ID req
      have : ((mapSet m.inBuffer req.ID req).length : Int) ≤ m.inBuffer.length + 1 := by
        exact_mod_cast hlen
      simp only [Bool.false_eq_true, if_false]
      linarith
  · intro m req env hm
    rcases moveRequest_cases env m req with ⟨_, h1⟩ | ⟨_, h1⟩ | ⟨_, _, h1⟩
    · rw [h1]; exact hm
    · rw [h1]; exact hremove m req hm
    · rw [h1]; exact hremove _ req hm
  · intro m rid hm
    obtain ⟨_, hb, hc, ho, _⟩ := removeRequest_fields m rid
    rw [hb, hc, ho]; exact hm
  · intro m resolvable hm
    exact hm

/-- C29. In every mempool state reached from the empty one the number of entries
of the in-buffer is at most `InBufCounter − OutBufCounter`; the two are not
always equal: after the same request was received twice by the empty mempool
the in-buffer has one entry and `InBufCounter − OutBufCounter` is two. -/
theorem inBuffer_counters_bound (calls : List Call) :
    ((runCalls New calls).inBuffer.length : Int) ≤
      (runCalls New calls).inBufCounter - (runCalls New calls).outBufCounter ∧
    (runCalls New [.receive (offLedgerExample [1] false),
        .receive (offLedgerExample [1] false)]).inBuffer.length = 1 ∧
    (runCalls New [.receive (offLedgerExample [1] false),
        .receive (offLedgerExample [1] false)]).inBufCounter -
      (runCalls New [.receive (offLedgerExample [1] false),
        .receive (offLedgerExample [1] false)]).outBufCounter = 2 := by
  refine ⟨?_, by decide, by decide⟩
  exact runCalls_preserves
    (fun m => (m.inBuffer.length : Int) ≤ m.inBufCounter - m.outBufCounter)
    applyCall_inBuffer_bound New calls (by simp [New])

/-! ## The frame of `ReadyNow` and `ReadyFromIDs` -/

/-- One pass of the body of `ReadyFromIDs` hands an identifier to
`RemoveRequests` exactly when the entry is not ready and marked for removal. -/
theorem readyFromIDsBody_toRemove (m : mempool) (now : Time) (st : ReadyFromIDsVars) (i : Nat)
    (reqID : RequestID) :
    (readyFromIDsBody m now st i reqID).toRemove =
      st.toRemove ++ (removableInPool m now reqID).toList := by
  unfold readyFromIDsBody removableInPool
  cases h : mapGet m.pool reqID with
  | none => simp
  | some ref =>
    by_cases h1 : (isRequestReady ref now).1 = true <;>
      by_cases h2 : (isRequestReady ref now).2 = true <;> simp [h1, h2]

/-- The identifiers that `ReadyFromIDs` hands to the `RemoveRequests`
goroutine. -/
theorem readyFromIDsLoop_toRemove (m : mempool) (now : Time) (ids : List RequestID) (i : Nat)
    (st : ReadyFromIDsVars) :
    (readyFromIDsLoop m now i ids st).toRemove =
      st.toRemove ++ ids.filterMap (removableInPool m now) := by
  induction ids generalizing i st with
  | nil => simp [readyFromIDsLoop]
  | cons id rest ih =>
    rw [readyFromIDsLoop, ih, readyFromIDsBody_toRemove, List.filterMap_cons]
    cases h : removableInPool m now id <;> simp

/-- In a well-formed pool `ReadyNow` hands the identifier of an entry to
`RemoveRequests` exactly when the entry is marked for removal. -/
theorem ReadyNow_toRemove_iff (m : mempool) (now : Time) (hwf : PoolWF m.pool)
    (ref : requestRef) (hmem : ref ∈ mapValues m.pool) :
    ref.req.ID ∈ (ReadyNow m now).2 ↔ (isRequestReady ref now).2 = true := by
  rw [ReadyNow_toRemove]
  constructor
  · intro h
    obtain ⟨r, hr, hrid⟩ := List.mem_map.mp h
    obtain ⟨hrmem, hr2⟩ := List.mem_filter.mp hr
    rw [← PoolWF_eq_of_ID m.pool hwf r ref hrmem hmem hrid]
    exact hr2
  · intro h
    exact List.mem_map.mpr ⟨ref, List.mem_filter.mpr ⟨hmem, h⟩, rfl⟩

/-- In a well-formed pool `ReadyFromIDs` hands the identifier of an entry to
`RemoveRequests` exactly when the identifier is among those asked for and the
entry is marked for removal. -/
theorem ReadyFromIDs_toRemove_iff (m : mempool) (now : Time) (ids : List RequestID)
    (hwf : PoolWF m.pool) (e : RequestID × requestRef) (he : e ∈ m.pool) :
    e.1 ∈ (ReadyFromIDs m now ids).2.2.2 ↔ (e.1 ∈ ids ∧ (isRequestReady e.2 now).2 = true) := by
  have hget : mapGet m.pool e.1 = some e.2 := (mapGet_eq_some_iff m.pool hwf.1 e.1 e.2).mpr he
  have hkey : e.2.req.ID = e.1 := hwf.2 e he
  unfold ReadyFromIDs
  simp only [readyFromIDsLoop_toRemove, List.nil_append, List.mem_filterMap]
  constructor
  · rintro ⟨id, hid, hrem⟩
    unfold removableInPool at hrem
    cases hg : mapGet m.pool id with
    | none => rw [hg] at hrem; simp at hrem
    | some ref =>
      rw [hg] at hrem
      simp only at hrem
      split at hrem
      · simp at hrem
      · split at hrem
        · rename_i h2
          simp only [Option.some.injEq] at hrem
          have hrefid := ((PoolWF_mapGet m.pool hwf id ref).mp hg).2
          have hide : id = e.1 := by rw [← hrefid, hrem]
          rw [hide, hget] at hg
          simp only [Option.some.injEq] at hg
          rw [← hide, hg]
          exact ⟨hid, h2⟩
        · simp at hrem
  · rintro ⟨hid, h2⟩
    refine ⟨e.1, hid, ?_⟩
    unfold removableInPool
    rw [hget]
    have h1 : (isRequestReady e.2 now).1 = false := by
      cases h1 : (isRequestReady e.2 now).1 with
      | false => rfl
      | true =>
        have := isRequestReady_ready_not_removed e.2 now h1
        rw [this] at h2
        simp at h2
    simp [h1, h2, hkey]

/-- C28. In a well-formed pool, `ReadyNow(now)` and `ReadyFromIDs(now, ids...)`
with the removals they schedule never add to the pool and remove from it
exactly the entries that `isRequestReady` marks for removal at `now` (for
`ReadyFromIDs`, those stored under one of `ids`); every other entry keeps its
request and admission timestamp, and the in-buffer, `InBufCounter`,
`OutBufCounter` and `InPoolCounter` are unchanged. -/
theorem ready_calls_frame (m : mempool) (now : Time) (ids : List RequestID)
    (hwf : PoolWF m.pool) :
    ((afterReadyNow m now).pool = m.pool.filter (fun e => !(isRequestReady e.2 now).2) ∧
      (afterReadyNow m now).inBuffer = m.inBuffer ∧
      (afterReadyNow m now).inBufCounter = m.inBufCounter ∧
      (afterReadyNow m now).outBufCounter = m.outBufCounter ∧
      (afterReadyNow m now).inPoolCounter = m.inPoolCounter) ∧
    ((afterReadyFromIDs m now ids).pool =
        m.pool.filter (fun e => !(decide (e.1 ∈ ids) && (isRequestReady e.2 now).2)) ∧
      (afterReadyFromIDs m now ids).inBuffer = m.inBuffer ∧
      (afterReadyFromIDs m now ids).inBufCounter = m.inBufCounter ∧
      (afterReadyFromIDs m now ids).outBufCounter = m.outBufCounter ∧
      (afterReadyFromIDs m now ids).inPoolCounter = m.inPoolCounter) := by
  constructor
  · refine ⟨?_, RemoveRequests_fields m _⟩
    unfold afterReadyNow
    rw [RemoveRequests_pool]
    apply List.filter_congr
    intro e he
    have hmem : e.2 ∈ mapValues m.pool := List.mem_map.mpr ⟨e, he, rfl⟩
    have hiff := ReadyNow_toRemove_iff m now hwf e.2 hmem
    rw [hwf.2 e he] at hiff
    by_cases h2 : (isRequestReady e.2 now).2 = true
    · simp [h2, hiff.mpr h2]
    · have : e.1 ∉ (ReadyNow m now).2 := fun h => h2 (hiff.mp h)
      simp [h2, this]
  · refine ⟨?_, RemoveRequests_fields m _⟩
    unfold afterReadyFromIDs
    rw [RemoveRequests_pool]
    apply List.filter_congr
    intro e he
    have hiff := ReadyFromIDs_toRemove_iff m now ids hwf e he
    by_cases h : e.1 ∈ ids ∧ (isRequestReady e.2 now).2 = true
    · simp [h.1, h.2, hiff.mpr h]
    · have hnot : e.1 ∉ (ReadyFromIDs m now ids).2.2.2 := fun h' => h (hiff.mp h')
      rw [not_and_or] at h
      rcases h with h | h <;> simp [h, hnot]

/-- The statement C28 at a pool that holds an expiring request and a rotation
request. -/
theorem ready_calls_frame_witness :
    (afterReadyNow expiringExample 1000).pool =
      [([2], { req := offLedgerExample [2] true, whenReceived := 2 })] ∧
    (afterReadyFromIDs expiringExample 1000 [[2], [7]]).pool = expiringExample.pool :=
  ⟨(ready_calls_frame expiringExample 1000 [[2], [7]] (by decide)).1.1,
   (ready_calls_frame expiringExample 1000 [[2], [7]] (by decide)).2.1⟩

/-! ## Proposal and recomputation -/

/-- When every identifier asked for is in the pool, `ReadyFromIDs` reports no
missing index and a true completeness flag. -/
theorem ReadyFromIDs_complete (m : mempool) (now : Time) (ids : List RequestID)
    (h : ∀ id ∈ ids, HasRequest m id = true) :
    (ReadyFromIDs m now ids).2.1 = [] ∧ (ReadyFromIDs m now ids).2.2.1 = true := by
  have hmiss : (ReadyFromIDs m now ids).2.1 = [] := by
    unfold ReadyFromIDs
    simp only [readyFromIDsLoop_missing, List.nil_append]
    simp only [Nat.zero_add]
    rw [List.map_eq_nil_iff, List.filter_eq_nil_iff]
    intro i hi
    have hi' := List.mem_range.mp hi
    simp only [missingAt, List.getElem?_eq_getElem hi']
    simp [h _ (List.getElem_mem hi')]
  refine ⟨hmiss, ?_⟩
  have hflag : (ReadyFromIDs m now ids).2.2.1 =
      ((ReadyFromIDs m now ids).2.1.length == 0) := rfl
  rw [hflag, hmiss]
  rfl

/-- Mapping the found elements of a list to themselves keeps the list. -/
theorem filterMap_eq_self {α : Type} (f : α → Option α) (l : List α)
    (h : ∀ x ∈ l, f x = some x) : l.filterMap f = l := by
  induction l with
  | nil => rfl
  | cons x rest ih =>
    rw [List.filterMap_cons, h x (List.mem_cons_self _ _)]
    simp only
    rw [ih (fun y hy => h y (List.mem_cons_of_mem _ hy))]

/-- A request returned by `ReadyNow` is found ready under its identifier, in
the pool as it is and in the pool after the removals that `ReadyNow`
schedules. -/
theorem ReadyNow_readyInPool (m : mempool) (now : Time) (hwf : PoolWF m.pool) (r : Request)
    (h : r ∈ (ReadyNow m now).1) :
    readyInPool m now r.ID = some r ∧ readyInPool (afterReadyNow m now) now r.ID = some r := by
  obtain ⟨ref, hmem, hreq, hrdy⟩ := ReadyNow_mem m now r h
  have hget : mapGet m.pool r.ID = some ref :=
    (PoolWF_mapGet m.pool hwf r.ID ref).mpr ⟨hmem, by rw [hreq]⟩
  have hfound : readyInPool m now r.ID = some r := by
    unfold readyInPool
    rw [hget]
    simp [hrdy, hreq]
  refine ⟨hfound, ?_⟩
  have hnot : r.ID ∉ (ReadyNow m now).2 := by
    rw [← hreq, ReadyNow_toRemove_iff m now hwf ref hmem,
      isRequestReady_ready_not_removed ref now hrdy]
    simp
  have hget' : mapGet (afterReadyNow m now).pool r.ID = mapGet m.pool r.ID := by
    unfold afterReadyNow
    rw [RemoveRequests_pool]
    exact mapGet_filter_keys m.pool (fun k => decide (k ∉ (ReadyNow m now).2)) r.ID
      (by simpa using hnot)
  unfold readyInPool at hfound ⊢
  rw [hget']
  exact hfound

/-- C27. Proposal and recomputation agree at the same instant: in a well-formed
pool, when `ids` are the identifiers of the requests that `ReadyNow(now)`
returns, in the returned order, `ReadyFromIDs(now, ids...)` returns the same
requests in the same order, no missing index and a true completeness flag, on
the pool as it is and on the pool after the removals that `ReadyNow`
schedules. -/
theorem ReadyFromIDs_of_ReadyNow (m : mempool) (now : Time) (hwf : PoolWF m.pool) :
    ((ReadyFromIDs m now ((ReadyNow m now).1.map Request.ID)).1 = (ReadyNow m now).1 ∧
      (ReadyFromIDs m now ((ReadyNow m now).1.map Request.ID)).2.1 = [] ∧
      (ReadyFromIDs m now ((ReadyNow m now).1.map Request.ID)).2.2.1 = true) ∧
    ((ReadyFromIDs (afterReadyNow m now) now ((ReadyNow m now).1.map Request.ID)).1 =
        (ReadyNow m now).1 ∧
      (ReadyFromIDs (afterReadyNow m now) now ((ReadyNow m now).1.map Request.ID)).2.1 = [] ∧
      (ReadyFromIDs (afterReadyNow m now) now ((ReadyNow m now).1.map Request.ID)).2.2.1 =
        true) := by
  have key : ∀ m' : mempool,
      (∀ r ∈ (ReadyNow m now).1, readyInPool m' now r.ID = some r) →
      (ReadyFromIDs m' now ((ReadyNow m now).1.map Request.ID)).1 = (ReadyNow m now).1 ∧
      (ReadyFromIDs m' now ((ReadyNow m now).1.map Request.ID)).2.1 = [] ∧
      (ReadyFromIDs m' now ((ReadyNow m now).1.map Request.ID)).2.2.1 = true := by
    intro m' hfound
    have hreqs : (ReadyFromIDs m' now ((ReadyNow m now).1.map Request.ID)).1 =
        (ReadyNow m now).1 := by
      unfold ReadyFromIDs
      simp only [readyFromIDsLoop_requests, List.nil_append]
      rw [List.filterMap_map]
      exact filterMap_eq_self _ _ hfound
    refine ⟨hreqs, ReadyFromIDs_complete m' now _ ?_⟩
    intro id hid
    obtain ⟨r, hr, rfl⟩ := List.mem_map.mp hid
    have h1 := hfound r hr
    unfold readyInPool at h1
    unfold HasRequest
    cases hg : mapGet m'.pool r.ID with
    | none => rw [hg] at h1; simp at h1
    | some ref => rfl
  exact ⟨key m (fun r hr => (ReadyNow_readyInPool m now hwf r hr).1),
    key (afterReadyNow m now) (fun r hr => (ReadyNow_readyInPool m now hwf r hr).2)⟩

/-- The statement C27 at a pool with two ready ordinary requests and a
timelocked rotation request. -/
theorem ReadyFromIDs_of_ReadyNow_witness :
    (ReadyFromIDs timelockedRotationExample 10 [[2], [3]]).1 =
      [offLedgerExample [2] false, offLedgerExample [3] false] ∧
    (ReadyFromIDs timelockedRotationExample 10 [[2], [3]]).2.1 = [] ∧
    (ReadyFromIDs timelockedRotationExample 10 [[2], [3]]).2.2.1 = true :=
  (ReadyFromIDs_of_ReadyNow timelockedRotationExample 10 (by decide)).1

/-! ## The locking discipline -/

/-- Statements that read or write fields, all permitted, do not change the
mutexes, and what follows them is judged as if they were not there. -/
theorem violations_accesses (l : Locks) (a b : List Stmt)
    (h : ∀ stmt ∈ a, permitted l stmt = true ∧ lockStep l stmt = l) :
    violations l (a ++ b) = violations l b := by
  induction a with
  | nil => rfl
  | cons stmt rest ih =>
    obtain ⟨hp, hl⟩ := h stmt (List.mem_cons_self _ _)
    simp only [List.cons_append, violations, hp, hl, if_true, List.nil_append]
    exact ih (fun x hx => h x (List.mem_cons_of_mem _ hx))

/-- Every statement of the loop of `RemoveRequests` reads or writes the pool or
one of its counters. -/
theorem removeLoopStmts_mem (reqs : List RequestID) (m : mempool) (stmt : Stmt)
    (h : stmt ∈ removeLoopStmts m reqs) :
    stmt ∈ [Stmt.read .pool, .write .outPoolCounter, .write .pool, .read .inPoolCounter,
      .read .outPoolCounter] := by
  induction reqs generalizing m with
  | nil => simp [removeLoopStmts] at h
  | cons rid rest ih =>
    simp only [removeLoopStmts, List.mem_append] at h
    rcases h with h | h
    · unfold removeRequestStmts at h
      split at h <;> simp at h ⊢ <;> tauto
    · exact ih _ h

/-- C22. The locking discipline (a field is read while its mutex is held, and
written while its mutex is held exclusively and the other one is not held)
holds at every statement of `addToInBuffer`, `removeFromInBuffer`,
`takeInBuffer`, `inBufferLen`, `addToPool`, `RemoveRequests`, `ReadyNow`,
`ReadyFromIDs`, `HasRequest`, `GetRequest` and `doSolidifyRequests`, and `Info`
breaks it: it reads the in-buffer counters `inBufCounter` and `outBufCounter`
holding the read lock of the pool only. -/
theorem Info_reads_outside_inMutex (m : mempool) (req : Request) (env : AddEnv)
    (reqs : List RequestID) :
    violations noLocks InfoStmts = [.read .inBufCounter, .read .outBufCounter] ∧
    violations noLocks (addToInBufferStmts m req) = [] ∧
    violations noLocks (removeFromInBufferStmts m req) = [] ∧
    violations noLocks takeInBufferStmts = [] ∧
    violations noLocks inBufferLenStmts = [] ∧
    violations noLocks (addToPoolStmts m req env) = [] ∧
    violations noLocks (RemoveRequestsStmts m reqs) = [] ∧
    violations noLocks ReadyNowStmts = [] ∧
    violations noLocks (ReadyFromIDsStmts reqs) = [] ∧
    violations noLocks HasRequestStmts = [] ∧
    violations noLocks doSolidifyRequestsStmts = [] := by
  refine ⟨by decide, ?_, ?_, by decide, by decide, ?_, ?_, by decide, ?_, by decide, by decide⟩
  · unfold addToInBufferStmts
    split <;> decide
  · unfold removeFromInBufferStmts
    split <;> decide
  · unfold addToPoolStmts
    split
    · decide
    · decide
    · split <;> decide
  · show violations { inMutex := .unlocked, poolMutex := .locked }
      (removeLoopStmts m reqs ++ [Stmt.Unlock .poolMutex]) = []
    rw [violations_accesses]
    · decide
    · intro stmt hstmt
      have h := removeLoopStmts_mem reqs m stmt hstmt
      simp only [List.mem_cons, List.mem_singleton, List.not_mem_nil, or_false] at h
      rcases h with h | h | h | h | h <;> subst h <;> exact ⟨by decide, by decide⟩
  · show violations { inMutex := .unlocked, poolMutex := .rlocked }
      (reqs.map (fun _ => Stmt.read .pool) ++ [Stmt.RUnlock .poolMutex]) = []
    rw [violations_accesses]
    · decide
    · intro stmt hstmt
      obtain ⟨_, _, h⟩ := List.mem_map.mp hstmt
      subst h
      exact ⟨by decide, by decide⟩

end Mempool

namespace Util

/-! ## `MakeRange` -/

/-- A value of Go's `int` wraps to itself. -/
theorem wrapInt_of_isInt (x : Int) (h : isInt x) : wrapInt x = x := by
  unfold isInt at h
  unfold wrapInt
  omega

/-- The function `MakeRange` in one test: no slice for a wrapped length that is
negative or above `maxLen`, the range otherwise. -/
theorem MakeRange_eq (maxLen : Nat) (from_ to_ : Int) :
    MakeRange maxLen from_ to_ =
      if wrapInt (to_ - from_) < 0 ∨ (maxLen : Int) < wrapInt (to_ - from_) then none
      else some ((List.range (wrapInt (to_ - from_)).toNat).map
        (fun (i : Nat) => wrapInt (from_ + (i : Int)))) := by
  unfold MakeRange makeslice
  split_ifs with h
  · rfl
  · simp

/-- C25, as stated, fails at the ends of Go's `int` and above the largest length
`make` allocates (here `2^45`, that of a 64-bit platform): from the least to the
greatest `int` the difference wraps to `-1` and `MakeRange` panics although
`from ≤ to`; from the greatest to the least the difference wraps to `1` and
`MakeRange` returns a slice of one element although `to < from`; and
`MakeRange(0, 2^50)` panics although `from ≤ to`. -/
theorem MakeRange_wraps :
    isInt (-9223372036854775808) ∧ isInt 9223372036854775807 ∧
    MakeRange 35184372088832 (-9223372036854775808) 9223372036854775807 = none ∧
    MakeRange 35184372088832 9223372036854775807 (-9223372036854775808) =
      some [9223372036854775807] ∧
    isInt 0 ∧ isInt 1125899906842624 ∧
    MakeRange 35184372088832 0 1125899906842624 = none := by
  decide

/-- C25, amended. Let `maxLen` be the largest length `make` allocates.  For all
`int` values `from ≤ to` whose difference `to − from` is at most `maxLen`,
`MakeRange(from, to)` returns the slice of exactly `to − from` consecutive
integers `from, from+1, …, to−1`, empty when `from = to`; for a larger
difference it does not return a slice.  For `to < from` it does not return a
slice (it panics), as long as `from − to` is below `2^64` minus `maxLen`. -/
theorem MakeRange_consecutive (maxLen : Nat) (from_ to_ : Int) (hf : isInt from_)
    (ht : isInt to_) (hmax : (maxLen : Int) < 9223372036854775808) :
    (from_ ≤ to_ → to_ - from_ ≤ maxLen →
      MakeRange maxLen from_ to_ =
        some ((List.range (to_ - from_).toNat).map (fun (i : Nat) => from_ + (i : Int))) ∧
      ∀ l, MakeRange maxLen from_ to_ = some l → (l.length : Int) = to_ - from_) ∧
    (from_ ≤ to_ → (maxLen : Int) < to_ - from_ → MakeRange maxLen from_ to_ = none) ∧
    (from_ = to_ → MakeRange maxLen from_ to_ = some []) ∧
    (to_ < from_ → from_ - to_ < 18446744073709551616 - maxLen →
      MakeRange maxLen from_ to_ = none) := by
  have hrange : from_ ≤ to_ → to_ - from_ ≤ maxLen →
      MakeRange maxLen from_ to_ =
        some ((List.range (to_ - from_).toNat).map (fun (i : Nat) => from_ + (i : Int))) := by
    intro hle hd
    have hw : wrapInt (to_ - from_) = to_ - from_ :=
      wrapInt_of_isInt _ ⟨by omega, by omega⟩
    rw [MakeRange_eq, hw, if_neg (by omega)]
    congr 1
    apply List.map_congr_left
    intro i hi
    have hi2 := List.mem_range.mp hi
    apply wrapInt_of_isInt
    unfold isInt at *
    omega
  refine ⟨?_, ?_, ?_, ?_⟩
  · intro hle hd
    refine ⟨hrange hle hd, ?_⟩
    intro l hl
    rw [hrange hle hd] at hl
    simp only [Option.some.injEq] at hl
    rw [← hl, List.length_map, List.length_range]
    omega
  · intro hle hd
    unfold isInt at hf ht
    have hw : wrapInt (to_ - from_) < 0 ∨ (maxLen : Int) < wrapInt (to_ - from_) := by
      unfold wrapInt
      omega
    rw [MakeRange_eq, if_pos hw]
  · intro heq
    have h := hrange (le_of_eq heq) (by omega)
    rw [h, heq]
    simp
  · intro hlt hd
    unfold isInt at hf ht
    have hw : wrapInt (to_ - from_) < 0 ∨ (maxLen : Int) < wrapInt (to_ - from_) := by
      unfold wrapInt
      omega
    rw [MakeRange_eq, if_pos hw]

/-- The amended statement C25 at `MakeRange(3, 7)` and `MakeRange(7, 3)`, for
the largest length `2^45`. -/
theorem MakeRange_consecutive_witness :
    MakeRange 35184372088832 3 7 = some [3, 4, 5, 6] ∧ MakeRange 35184372088832 7 3 = none :=
  ⟨((MakeRange_consecutive 35184372088832 3 7 (by decide) (by decide) (by decide)).1
      (by decide) (by decide)).1,
   (MakeRange_consecutive 35184372088832 7 3 (by decide) (by decide) (by decide)).2.2.2
      (by decide) (by decide)⟩

end Util

namespace Governance

/-! ## `setChainInfo` -/

/-- The state that an authorized call of `setChainInfo` leaves, variable by
variable. -/
theorem setChainInfo_authorized (MinEventSize MinEventsPerRequest : Nat) (state : ChainConfig)
    (params : ChainParams) :
    setChainInfo MinEventSize MinEventsPerRequest true state params =
      some
        { VarMaxBlobSize :=
            if params.ParamMaxBlobSize.getD 0 > 0 then some (params.ParamMaxBlobSize.getD 0)
            else state.VarMaxBlobSize,
          VarMaxEventSize :=
            if params.ParamMaxEventSize.getD 0 > 0 then
              some (if params.ParamMaxEventSize.getD 0 < MinEventSize then MinEventSize
                    else params.ParamMaxEventSize.getD 0)
            else state.VarMaxEventSize,
          VarMaxEventsPerReq :=
            if params.ParamMaxEventsPerRequest.getD 0 > 0 then
              some (if params.ParamMaxEventsPerRequest.getD 0 < MinEventsPerRequest then
                      MinEventsPerRequest
                    else params.ParamMaxEventsPerRequest.getD 0)
            else state.VarMaxEventsPerReq,
          VarDefaultOwnerFee :=
            if params.ParamOwnerFee.getD (-1) ≥ 0 then some (params.ParamOwnerFee.getD (-1))
            else state.VarDefaultOwnerFee,
          VarDefaultValidatorFee :=
            if params.ParamValidatorFee.getD (-1) ≥ 0 then
              some (params.ParamValidatorFee.getD (-1))
            else state.VarDefaultValidatorFee } := by
  unfold setChainInfo
  by_cases h0 : params.ParamMaxBlobSize.getD 0 > 0 <;>
    by_cases h1 : params.ParamMaxEventSize.getD 0 > 0 <;>
    by_cases h2 : params.ParamMaxEventsPerRequest.getD 0 > 0 <;>
    by_cases h3 : params.ParamOwnerFee.getD (-1) ≥ 0 <;>
    by_cases h4 : params.ParamValidatorFee.getD (-1) ≥ 0 <;>
    simp [h0, h1, h2, h3, h4]

/-- The greater of a value and a minimum, as `setChainInfo` computes it. -/
theorem clamp_eq_max (v minimum : Nat) :
    (if v < minimum then minimum else v) = max v minimum := by
  by_cases h : v < minimum
  · rw [if_pos h, max_eq_right (le_of_lt h)]
  · rw [if_neg h, max_eq_left (not_lt.mp h)]

/-- C23. An authorized call of `setChainInfo` never stores a maximum event size
below `MinEventSize` nor a maximum number of events per request below
`MinEventsPerRequest`: a parameter value `0`, or an absent parameter, leaves the
stored value unchanged, and a value `v > 0` stores the greater of `v` and the
minimum; an absent or negative owner or validator fee leaves the stored fee
unchanged, and a non-negative one is stored as given. -/
theorem setChainInfo_limits (MinEventSize MinEventsPerRequest : Nat) (state : ChainConfig)
    (params : ChainParams) :
    ∃ state' : ChainConfig,
      setChainInfo MinEventSize MinEventsPerRequest true state params = some state' ∧
      state'.VarMaxEventSize =
        (if params.ParamMaxEventSize.getD 0 = 0 then state.VarMaxEventSize
         else some (max (params.ParamMaxEventSize.getD 0) MinEventSize)) ∧
      state'.VarMaxEventsPerReq =
        (if params.ParamMaxEventsPerRequest.getD 0 = 0 then state.VarMaxEventsPerReq
         else some (max (params.ParamMaxEventsPerRequest.getD 0) MinEventsPerRequest)) ∧
      (∀ x, state'.VarMaxEventSize = some x →
        state.VarMaxEventSize = some x ∨ MinEventSize ≤ x) ∧
      (∀ x, state'.VarMaxEventsPerReq = some x →
        state.VarMaxEventsPerReq = some x ∨ MinEventsPerRequest ≤ x) ∧
      state'.VarDefaultOwnerFee =
        (if params.ParamOwnerFee.getD (-1) < 0 then state.VarDefaultOwnerFee
         else some (params.ParamOwnerFee.getD (-1))) ∧
      state'.VarDefaultValidatorFee =
        (if params.ParamValidatorFee.getD (-1) < 0 then state.VarDefaultValidatorFee
         else some (params.ParamValidatorFee.getD (-1))) := by
  refine ⟨_, setChainInfo_authorized MinEventSize MinEventsPerRequest state params,
    ?_, ?_, ?_, ?_, ?_, ?_⟩
  · simp only [clamp_eq_max]
    by_cases h : params.ParamMaxEventSize.getD 0 = 0
    · simp [h]
    · simp [h, Nat.pos_of_ne_zero h]
  · simp only [clamp_eq_max]
    by_cases h : params.ParamMaxEventsPerRequest.getD 0 = 0
    · simp [h]
    · simp [h, Nat.pos_of_ne_zero h]
  · intro x hx
    simp only [clamp_eq_max] at hx
    by_cases h : params.ParamMaxEventSize.getD 0 > 0
    · rw [if_pos h] at hx
      simp only [Option.some.injEq] at hx
      right; rw [← hx]; exact le_max_right _ _
    · rw [if_neg h] at hx
      left; exact hx
  · intro x hx
    simp only [clamp_eq_max] at hx
    by_cases h : params.ParamMaxEventsPerRequest.getD 0 > 0
    · rw [if_pos h] at hx
      simp only [Option.some.injEq] at hx
      right; rw [← hx]; exact le_max_right _ _
    · rw [if_neg h] at hx
      left; exact hx
  · by_cases h : params.ParamOwnerFee.getD (-1) < 0
    · simp [h]
    · simp [h, not_lt.mp h]
  · by_cases h : params.ParamValidatorFee.getD (-1) < 0
    · simp [h]
    · simp [h, not_lt.mp h]

/-- An unauthorized call of `setChainInfo` panics. -/
theorem setChainInfo_unauthorized (MinEventSize MinEventsPerRequest : Nat) (state : ChainConfig)
    (params : ChainParams) :
    setChainInfo MinEventSize MinEventsPerRequest false state params = none := by
  simp [setChainInfo]

end Governance

namespace Root

/-! ## `initialize` of the root contract -/

/-- C24. The root contract can be initialized only once: in every state in which
`VarStateInitialized` is set, `initialize` fails, and it fails before writing
anything, so that the state, with the contract registry and all state
variables, is unchanged; in particular a second `initialize` after a successful
one fails and changes nothing. -/
theorem initialize_once (callerHname : Nat) (registryLen : KVStore → Nat)
    (deployCore : KVStore → Outcome) (encTrue : List Nat) (state : KVStore)
    (hset : Mempool.mapGet state VarStateInitialized ≠ none) :
    (rootInitialize callerHname registryLen deployCore encTrue state).err =
      some "root.initialize.fail: already initialized" ∧
    (rootInitialize callerHname registryLen deployCore encTrue state).state = state ∧
    (∀ (caller0 : Nat) (len0 : KVStore → Nat) (deploy0 : KVStore → Outcome) (enc0 : List Nat)
        (state0 : KVStore),
      (rootInitialize caller0 len0 deploy0 enc0 state0).err = none →
      (rootInitialize callerHname registryLen deployCore encTrue
        (rootInitialize caller0 len0 deploy0 enc0 state0).state).err =
          some "root.initialize.fail: already initialized" ∧
      (rootInitialize callerHname registryLen deployCore encTrue
        (rootInitialize caller0 len0 deploy0 enc0 state0).state).state =
          (rootInitialize caller0 len0 deploy0 enc0 state0).state) := by
  have hfail : ∀ st : KVStore, Mempool.mapGet st VarStateInitialized ≠ none →
      (rootInitialize callerHname registryLen deployCore encTrue st).err =
        some "root.initialize.fail: already initialized" ∧
      (rootInitialize callerHname registryLen deployCore encTrue st).state = st := by
    intro st hst
    unfold rootInitialize
    rw [if_pos hst]
    exact ⟨rfl, rfl⟩
  refine ⟨(hfail state hset).1, (hfail state hset).2, ?_⟩
  intro caller0 len0 deploy0 enc0 state0 hok
  apply hfail
  unfold rootInitialize at hok ⊢
  by_cases h1 : Mempool.mapGet state0 VarStateInitialized ≠ none
  · rw [if_pos h1] at hok; simp at hok
  · rw [if_neg h1] at hok ⊢
    by_cases h2 : caller0 ≠ 0
    · rw [if_pos h2] at hok; simp at hok
    · rw [if_neg h2] at hok ⊢
      by_cases h3 : len0 state0 ≠ 0
      · rw [if_pos h3] at hok; simp at hok
      · rw [if_neg h3] at hok ⊢
        cases h4 : (deploy0 state0).err with
        | some e => rw [h4] at hok; simp at hok
        | none =>
          simp only
          rw [Mempool.mapGet_mapSet_self]
          simp

/-- The statement C24 at a state in which `VarStateInitialized` is set. -/
theorem initialize_once_witness :
    (rootInitialize 0 (fun _ => 0) (fun st => { state := st, err := none }) [1]
      [(VarStateInitialized, [255])]).err =
        some "root.initialize.fail: already initialized" ∧
    (rootInitialize 0 (fun _ => 0) (fun st => { state := st, err := none }) [1]
      [(VarStateInitialized, [255])]).state = [(VarStateInitialized, [255])] :=
  ⟨(initialize_once 0 (fun _ => 0) (fun st => { state := st, err := none }) [1]
      [(VarStateInitialized, [255])] (by decide)).1,
   (initialize_once 0 (fun _ => 0) (fun st => { state := st, err := none }) [1]
      [(VarStateInitialized, [255])] (by decide)).2.1⟩

end Root

namespace Consensus

/-! ## The state-candidate handler of the mocked node -/

/-- C21, as stated, fails on the handler of the mocked node: with the solid
state and the solid index at block `3`, a candidate for block `5`, which is not
block `4`, is committed; it becomes the solid state and, approved by the state
output, moves the solid index to `5`. -/
theorem OnStateCandidate_commits_other_index :
    nodeExample.SolidState.map VirtualState.blockIndex = some 3 ∧
    nodeExample.solidIndex = 3 ∧
    candidateExample.blockIndex ≠ 3 + 1 ∧
    (OnStateCandidate nodeExample candidateExample true).SolidState = some candidateExample ∧
    (OnStateCandidate nodeExample candidateExample true).solidIndex = 5 := by
  decide

/-- C21, amended. Committing a state candidate whose block index equals the
block index of the current solid state is a no-op: the solid state, the solid
index and the rest of the node are unchanged; a candidate with another block
index whose commit succeeds becomes the solid state. -/
theorem OnStateCandidate_same_index (n : mockedNode) (solid newState : VirtualState)
    (commitOk : Bool) (hsolid : n.SolidState = some solid) :
    (solid.blockIndex = newState.blockIndex → OnStateCandidate n newState commitOk = n) ∧
    (solid.blockIndex ≠ newState.blockIndex → commitOk = true →
      (OnStateCandidate n newState commitOk).SolidState = some newState) := by
  constructor
  · intro h
    unfold OnStateCandidate
    rw [hsolid]
    simp [h]
  · intro h hc
    unfold OnStateCandidate
    rw [hsolid]
    simp only [h, if_false, hc, not_true_eq_false]
    unfold checkStateApproval
    simp only
    cases hout : n.StateOutput with
    | none => rfl
    | some out =>
      simp only
      split
      · rfl
      · split
        · rfl
        · split
          · rfl
          · rfl

/-- The amended statement C21 at a candidate for the block of the solid
state. -/
theorem OnStateCandidate_same_index_witness :
    OnStateCandidate nodeExample
      { blockIndex := 3, stateCommitment := [], requestIDs := [] } true = nodeExample :=
  (OnStateCandidate_same_index nodeExample
    { blockIndex := 3, stateCommitment := List.replicate 32 3, requestIDs := [] }
    { blockIndex := 3, stateCommitment := [], requestIDs := [] } true rfl).1 rfl

end Consensus

namespace Wasmlib

/-! ## The encoding of `ScAssets` -/

/-- Byte strings that `bytes.Compare` finds equal are equal. -/
theorem bytesCompare_eq_zero (a b : List Nat) (h : Mempool.bytesCompare a b = 0) : a = b := by
  rcases Mempool.bytesCompare_total a b with h1 | h1 | h1
  · exact h1
  · rw [h] at h1; exact absurd h1 (lt_irrefl _)
  · exfalso
    induction a generalizing b with
    | nil =>
      cases b with
      | nil => simp [Mempool.bytesCompare] at h1
      | cons y ys => simp [Mempool.bytesCompare] at h
    | cons x xs ih =>
      cases b with
      | nil => simp [Mempool.bytesCompare] at h
      | cons y ys =>
        simp only [Mempool.bytesCompare] at h h1
        by_cases hxy : x < y
        · simp [hxy] at h
        · by_cases hyx : y < x
          · simp [hxy, hyx] at h
          · simp only [hxy, hyx, if_false] at h h1
            exact ih ys h h1

/-- The order of the colours is total. -/
theorem colorLE_total (a b : ScColor) : colorLE a b ∨ colorLE b a := by
  unfold colorLE
  rcases Mempool.bytesCompare_total a b with h | h | h
  · left; rw [h, Mempool.bytesCompare_self]
  · left; exact le_of_lt h
  · right; exact le_of_lt h

/-- Two colours that the order does not separate are equal. -/
theorem colorLE_antisymm (a b : ScColor) (hab : colorLE a b) (hba : colorLE b a) : a = b := by
  unfold colorLE at *
  rcases lt_or_eq_of_le hab with h1 | h1
  · rcases lt_or_eq_of_le hba with h2 | h2
    · have := Mempool.bytesCompare_trans a b a h1 h2
      rw [Mempool.bytesCompare_self] at this
      exact absurd this (lt_irrefl _)
    · exact (bytesCompare_eq_zero b a h2).symm
  · exact bytesCompare_eq_zero a b h1

/-- The order of the colours is transitive. -/
theorem colorLE_trans (a b c : ScColor) (hab : colorLE a b) (hbc : colorLE b c) :
    colorLE a c := by
  unfold colorLE at *
  rcases lt_or_eq_of_le hab with h1 | h1
  · rcases lt_or_eq_of_le hbc with h2 | h2
    · exact le_of_lt (Mempool.bytesCompare_trans a b c h1 h2)
    · rw [← bytesCompare_eq_zero b c h2]; exact hab
  · rw [bytesCompare_eq_zero a b h1]; exact hbc

/-- The sorted keys are the keys, in some order. -/
theorem sortKeys_perm (keys : List ScColor) : (sortKeys keys).Perm keys :=
  List.perm_insertionSort colorLE keys

/-- The sorted keys are in ascending order. -/
theorem sortKeys_sorted (keys : List ScColor) : (sortKeys keys).Sorted colorLE := by
  haveI : IsTotal ScColor colorLE := ⟨colorLE_total⟩
  haveI : IsTrans ScColor colorLE := ⟨colorLE_trans⟩
  exact List.sorted_insertionSort colorLE keys

/-- Sorting does not depend on the order in which the keys are enumerated. -/
theorem sortKeys_congr (keys keys' : List ScColor) (h : keys'.Perm keys) :
    sortKeys keys' = sortKeys keys := by
  haveI : IsAntisymm ScColor colorLE := ⟨colorLE_antisymm⟩
  exact List.eq_of_perm_of_sorted
    ((sortKeys_perm keys').trans (h.trans (sortKeys_perm keys).symm))
    (sortKeys_sorted keys') (sortKeys_sorted keys)

/-- Distinct sorted keys are in strictly ascending byte order. -/
theorem sortKeys_strict (keys : List ScColor) (hnd : keys.Nodup) :
    (sortKeys keys).Pairwise (fun x y => Mempool.bytesCompare x y < 0) := by
  have hs : (sortKeys keys).Pairwise colorLE := sortKeys_sorted keys
  have hn : (sortKeys keys).Pairwise (fun x y => x ≠ y) :=
    (sortKeys_perm keys).nodup_iff.mpr hnd
  refine (hs.and hn).imp ?_
  rintro x y ⟨hle, hne⟩
  unfold colorLE at hle
  rcases lt_or_eq_of_le hle with h | h
  · exact h
  · exact absurd (bytesCompare_eq_zero x y h) hne

/-- The little-endian encoding has the length asked for. -/
theorem littleEndian_length (len v : Nat) : (littleEndian len v).length = len := by
  induction len generalizing v with
  | zero => rfl
  | succ n ih => simp [littleEndian, ih]

/-- Reading little-endian bytes gives back the number, as far as it fits. -/
theorem fromLittleEndian_littleEndian (len v : Nat) :
    fromLittleEndian (littleEndian len v) = v % 256 ^ len := by
  induction len generalizing v with
  | zero => simp [littleEndian, fromLittleEndian, Nat.mod_one]
  | succ n ih =>
    simp only [littleEndian, fromLittleEndian, ih]
    rw [pow_succ, Nat.mul_comm (256 ^ n) 256, Nat.mod_mul]

/-- Taking exactly the first part of a buffer. -/
theorem decodeFixedBytes_append (value rest : List Nat) :
    decodeFixedBytes (value ++ rest) value.length = some (value, rest) := by
  unfold decodeFixedBytes
  rw [if_neg (by simp), List.take_left, List.drop_left]

/-- The loop of `Bytes` appends the entries of the keys, one after the other,
when every key has 32 bytes. -/
theorem encodeEntries_eq (a : ScAssets) (keys : List ScColor) (enc : List Nat)
    (hlen : ∀ c ∈ keys, c.length = 32) :
    encodeEntries a keys enc = some (enc ++ (keys.map (entryBytes a)).flatten) := by
  induction keys generalizing enc with
  | nil => simp [encodeEntries]
  | cons c rest ih =>
    have hc : c.length = ScColorLength := hlen c (List.mem_cons_self _ _)
    have h8 : (Uint64ToBytes ((Mempool.mapGet a c).getD 0)).length = ScUint64Length :=
      littleEndian_length 8 _
    simp only [encodeEntries, encodeFixedBytes, hc, h8, ne_eq, not_true_eq_false, if_false]
    rw [ih _ (fun x hx => hlen x (List.mem_cons_of_mem _ hx))]
    simp [entryBytes, List.append_assoc]

/-- The loop of `Bytes` reads the map only at the keys it is given. -/
theorem encodeEntries_congr (a a' : ScAssets) (keys : List ScColor) (enc : List Nat)
    (h : ∀ c, Mempool.mapGet a' c = Mempool.mapGet a c) :
    encodeEntries a' keys enc = encodeEntries a keys enc := by
  induction keys generalizing enc with
  | nil => rfl
  | cons c rest ih =>
    simp only [encodeEntries, h c]
    cases encodeFixedBytes enc c ScColorLength with
    | none => rfl
    | some enc1 =>
      simp only
      cases encodeFixedBytes enc1 (Uint64ToBytes ((Mempool.mapGet a c).getD 0))
          ScUint64Length with
      | none => rfl
      | some enc2 => exact ih enc2

/-- The loop of `NewScAssetsFromBytes` reads back the entries that the loop of
`Bytes` wrote, when the keys are distinct, new to the map being built, of 32
bytes each, and the amounts are `uint64`. -/
theorem decodeEntries_eq (a : ScAssets) (keys : List ScColor) (rest : List Nat)
    (dict : ScAssets) (hnd : keys.Nodup) (hlen : ∀ c ∈ keys, c.length = 32)
    (hnew : ∀ c ∈ keys, c ∉ Mempool.mapKeys dict)
    (hamount : ∀ c ∈ keys, (Mempool.mapGet a c).getD 0 < 18446744073709551616) :
    decodeEntries keys.length ((keys.map (entryBytes a)).flatten ++ rest) dict =
      some (dict ++ keys.map (fun c => (c, (Mempool.mapGet a c).getD 0))) := by
  induction keys generalizing dict with
  | nil => simp [decodeEntries]
  | cons c ks ih =>
    have hc : c.length = ScColorLength := hlen c (List.mem_cons_self _ _)
    have h8 : (Uint64ToBytes ((Mempool.mapGet a c).getD 0)).length = ScUint64Length :=
      littleEndian_length 8 _
    have hbuf : ((c :: ks).map (entryBytes a)).flatten ++ rest =
        c ++ (Uint64ToBytes ((Mempool.mapGet a c).getD 0) ++
          ((ks.map (entryBytes a)).flatten ++ rest)) := by
      simp [entryBytes, List.append_assoc]
    have hval : Uint64FromBytes (Uint64ToBytes ((Mempool.mapGet a c).getD 0)) =
        (Mempool.mapGet a c).getD 0 := by
      unfold Uint64FromBytes Uint64ToBytes
      rw [fromLittleEndian_littleEndian]
      exact Nat.mod_eq_of_lt (by
        have := hamount c (List.mem_cons_self _ _)
        norm_num
        exact this)
    rw [List.length_cons, decodeEntries, hbuf, ← hc, decodeFixedBytes_append]
    simp only
    rw [← h8, decodeFixedBytes_append]
    simp only
    rw [hval, Mempool.mapSet_new _ _ _ (hnew c (List.mem_cons_self _ _))]
    have hnd' := List.nodup_cons.mp hnd
    rw [ih (dict ++ [(c, (Mempool.mapGet a c).getD 0)]) hnd'.2
      (fun x hx => hlen x (List.mem_cons_of_mem _ hx)) (by
        intro x hx
        simp only [Mempool.mapKeys, List.map_append, List.map_cons, List.map_nil,
          List.mem_append, List.mem_singleton, not_or]
        refine ⟨hnew x (List.mem_cons_of_mem _ hx), ?_⟩
        intro hxc
        exact hnd'.1 (hxc ▸ hx))
      (fun x hx => hamount x (List.mem_cons_of_mem _ hx))]
    simp

/-- Two enumerations of a map with distinct keys read the same. -/
theorem mapGet_perm (a a' : ScAssets) (hp : a'.Perm a) (hnd : (Mempool.mapKeys a).Nodup)
    (c : ScColor) : Mempool.mapGet a' c = Mempool.mapGet a c := by
  have hnd' : (Mempool.mapKeys a').Nodup := (hp.map Prod.fst).nodup_iff.mpr hnd
  apply Option.ext
  intro v
  show Mempool.mapGet a' c = some v ↔ Mempool.mapGet a c = some v
  rw [Mempool.mapGet_eq_some_iff a' hnd', Mempool.mapGet_eq_some_iff a hnd]
  exact hp.mem_iff

/-- What `Bytes` writes for a well-typed map: the number of entries, then the
entries in the order of the sorted colours. -/
theorem Bytes_eq (a : ScAssets) (h : WellTyped a) :
    Bytes a = some (Uint32ToBytes a.length ++
      ((sortKeys (Mempool.mapKeys a)).map (entryBytes a)).flatten) := by
  obtain ⟨_, htyped, hsize⟩ := h
  have hlenkeys : (sortKeys (Mempool.mapKeys a)).length = a.length := by
    rw [(sortKeys_perm _).length_eq]
    simp [Mempool.mapKeys]
  have hlen : ∀ c ∈ sortKeys (Mempool.mapKeys a), c.length = 32 := by
    intro c hc
    obtain ⟨e, he, rfl⟩ := List.mem_map.mp ((sortKeys_perm _).mem_iff.mp hc)
    exact (htyped e he).1
  unfold Bytes
  rw [hlenkeys, Nat.mod_eq_of_lt hsize]
  have h4 : (Uint32ToBytes a.length).length = ScUint32Length := littleEndian_length 4 _
  simp only [encodeFixedBytes, h4, ne_eq, not_true_eq_false, if_false, List.nil_append]
  exact encodeEntries_eq a _ _ hlen

/-- The map that `NewScAssetsFromBytes` builds from the bytes of a well-typed
map: its entries in the order of the sorted colours. -/
theorem NewScAssetsFromBytes_Bytes (a : ScAssets) (h : WellTyped a) :
    NewScAssetsFromBytes (Uint32ToBytes a.length ++
        ((sortKeys (Mempool.mapKeys a)).map (entryBytes a)).flatten) =
      some ((sortKeys (Mempool.mapKeys a)).map (fun c => (c, (Mempool.mapGet a c).getD 0))) := by
  obtain ⟨hnd, htyped, hsize⟩ := h
  have hperm := sortKeys_perm (Mempool.mapKeys a)
  have hlenkeys : (sortKeys (Mempool.mapKeys a)).length = a.length := by
    rw [hperm.length_eq]
    simp [Mempool.mapKeys]
  have hentry : ∀ c ∈ sortKeys (Mempool.mapKeys a),
      c.length = 32 ∧ (Mempool.mapGet a c).getD 0 < 18446744073709551616 := by
    intro c hc
    obtain ⟨e, he, rfl⟩ := List.mem_map.mp (hperm.mem_iff.mp hc)
    refine ⟨(htyped e he).1, ?_⟩
    rw [(Mempool.mapGet_eq_some_iff a hnd e.1 e.2).mpr he]
    exact (htyped e he).2
  have h4 : (Uint32ToBytes a.length).length = ScUint32Length := littleEndian_length 4 _
  have hsz : Uint32FromBytes (Uint32ToBytes a.length) = a.length := by
    unfold Uint32FromBytes Uint32ToBytes
    rw [fromLittleEndian_littleEndian]
    exact Nat.mod_eq_of_lt (by norm_num; exact hsize)
  unfold NewScAssetsFromBytes
  rw [if_neg (by
    rw [List.length_append, h4]
    simp [ScUint32Length])]
  rw [← h4, decodeFixedBytes_append]
  simp only
  rw [hsz, ← hlenkeys]
  have hdec := decodeEntries_eq a (sortKeys (Mempool.mapKeys a)) [] []
    (hperm.nodup_iff.mpr hnd) (fun c hc => (hentry c hc).1)
    (by intro c _; simp [Mempool.mapKeys]) (fun c hc => (hentry c hc).2)
  simpa using hdec

/-- The entries of a map with distinct keys, looked up by its keys in some
order, are its entries in some order. -/
theorem lookup_perm (a : ScAssets) (hnd : (Mempool.mapKeys a).Nodup) (keys : List ScColor)
    (hp : keys.Perm (Mempool.mapKeys a)) :
    (keys.map (fun c => (c, (Mempool.mapGet a c).getD 0))).Perm a := by
  have h1 := hp.map (fun c => (c, (Mempool.mapGet a c).getD 0))
  refine h1.trans ?_
  have h2 : (Mempool.mapKeys a).map (fun c => (c, (Mempool.mapGet a c).getD 0)) = a := by
    unfold Mempool.mapKeys
    rw [List.map_map]
    conv_rhs => rw [← List.map_id a]
    apply List.map_congr_left
    intro e he
    simp only [Function.comp, id]
    rw [(Mempool.mapGet_eq_some_iff a hnd e.1 e.2).mpr he]
    rfl
  rw [h2]

/-- C30. The encoding of `ScAssets` round-trips: for every well-typed map `a`,
the empty map included, `a.Bytes()` succeeds and `NewScAssetsFromBytes` of it
is a map with the same entries as `a`; `a.Bytes()` writes the entries in
strictly ascending byte order of their colour and so does not depend on the
order in which the map is enumerated; and `NewScAssetsFromBytes` of an empty
buffer is the empty map. -/
theorem ScAssets_roundtrip (a : ScAssets) (h : WellTyped a) :
    (∃ buf a', Bytes a = some buf ∧ NewScAssetsFromBytes buf = some a' ∧ a'.Perm a ∧
      (∀ c, Mempool.mapGet a' c = Mempool.mapGet a c) ∧
      buf = Uint32ToBytes a.length ++
        ((sortKeys (Mempool.mapKeys a)).map (entryBytes a)).flatten) ∧
    (sortKeys (Mempool.mapKeys a)).Pairwise (fun x y => Mempool.bytesCompare x y < 0) ∧
    (sortKeys (Mempool.mapKeys a)).Perm (Mempool.mapKeys a) ∧
    (∀ a2 : ScAssets, a2.Perm a → Bytes a2 = Bytes a) ∧
    NewScAssetsFromBytes [] = some [] := by
  have hnd := h.1
  refine ⟨⟨_, _, Bytes_eq a h, NewScAssetsFromBytes_Bytes a h, ?_, ?_, rfl⟩,
    sortKeys_strict _ hnd, sortKeys_perm _, ?_, rfl⟩
  · exact lookup_perm a hnd _ (sortKeys_perm _)
  · intro c
    exact mapGet_perm a _ (lookup_perm a hnd _ (sortKeys_perm _)) hnd c
  · intro a2 hp
    have hkeys : sortKeys (Mempool.mapKeys a2) = sortKeys (Mempool.mapKeys a) :=
      sortKeys_congr _ _ (hp.map Prod.fst)
    unfold Bytes
    rw [hkeys]
    cases encodeFixedBytes []
        (Uint32ToBytes ((sortKeys (Mempool.mapKeys a)).length % 4294967296)) ScUint32Length with
    | none => rfl
    | some enc => exact encodeEntries_congr a a2 _ enc (mapGet_perm a a2 hp hnd)

/-- The statement C30 at a map of two colours enumerated in descending order,
and at the same map enumerated in ascending order. -/
theorem ScAssets_roundtrip_witness :
    (Bytes assetsExample).bind NewScAssetsFromBytes = some assetsExample.reverse ∧
    Bytes assetsExample.reverse = Bytes assetsExample :=
  ⟨by decide,
   (ScAssets_roundtrip assetsExample (by decide)).2.2.2.1 assetsExample.reverse
     (List.reverse_perm _)⟩

end Wasmlib
